import Mathlib

/-!
# litepool: load heap, worker loop, submission and retry

A shallow embedding of the Go package `litepool` (files `jobqueue_action.go`,
`pool.go`, `addtask.go`, `task_options.go`, `task_group.go`, `pool_new.go`,
`pool_close.go`) together with the part of the Go standard library
`container/heap` that the package calls.

Conventions of the embedding.

* Go `int` / `int64` values are `Int`.  The atomic counter updates
  (`atomic.AddInt64`) wrap modulo `2^64`, written `wrap64`.  Slice indices and
  lengths are far below `2^62`, so the index arithmetic of `container/heap`
  (`2*i + 1`, `(j - 1) / 2`) is exact; Go's `/` truncates toward zero and is
  `Int.tdiv`.
* A piece of code either returns (`Res.ok`), panics (`Res.panic`: index out of
  range), or blocks for ever in a sequential run (`Res.blocked`: a receive from an
  empty channel, a send to a full one, a lock that is never released).  Loops are
  unrolled with a fuel argument that the callers set from the loop's own bound;
  `Res.fuel` is the answer of a loop whose fuel ran out, so an `ok` answer is
  always an answer of the Go loop itself.
* A buffered channel is the list of the values it holds, oldest first.
* `[]*int64` (`IntHeap.Count`) is the list of the pointed-to values: every
  pointer is allocated by `Push` and never shared.
* A task group (`*TaskGroup`, a `sync.WaitGroup`) is given by the value of its
  counter at the moment it is used; `Done` panics on a nil group and on a counter
  that would go below zero.
* A run of the pool is a sequence of steps of one submitter and of the workers.
  A step is one operation on a channel or on the heap together with the
  statements up to the next one; the operations of the heap (`heap.Pop`, `Add`,
  `Done`) are taken as a whole.
-/

set_option autoImplicit false

namespace Litepool

/-! ## Results of running Go code -/

/-- The result of running a piece of Go code sequentially. -/
inductive Res (α : Type) where
  | ok (a : α)
  | panic
  | blocked
  | fuel
deriving DecidableEq, Repr

namespace Res

/-- Sequencing: the first result that is not `ok` ends the run. -/
def bind {α β : Type} : Res α → (α → Res β) → Res β
  | ok a, f => f a
  | panic, _ => panic
  | blocked, _ => blocked
  | fuel, _ => fuel

instance : Monad Res where
  pure := Res.ok
  bind := Res.bind

end Res

/-- Two's-complement wrap-around of a 64-bit signed integer. -/
def wrap64 (x : Int) : Int := (x + 2 ^ 63) % 2 ^ 64 - 2 ^ 63

/-- The values of Go's `int64`. -/
def inInt64 (x : Int) : Prop := -(2 ^ 63) ≤ x ∧ x < 2 ^ 63

instance (x : Int) : Decidable (inInt64 x) := by
  unfold inInt64; exact inferInstance

/-- The Go index expression `l[i]`: panics when `i` is out of range. -/
def idx {α : Type} (l : List α) (i : Int) : Res α :=
  if 0 ≤ i then
    match l[i.toNat]? with
    | some a => Res.ok a
    | none => Res.panic
  else Res.panic

/-- The Go assignment `l[i] = a` for an index already known to be in range. -/
def setIdx {α : Type} (l : List α) (i : Int) (a : α) : List α :=
  if 0 ≤ i then l.set i.toNat a else l

/-! ## Go maps with `int64` keys (`map[int64]int`) -/

/-- The Go lookup `v, exists := m[k]`. -/
def mapGet (m : List (Int × Int)) (k : Int) : Option Int :=
  (m.find? (fun p => p.1 == k)).map Prod.snd

/-- The Go statement `delete(m, k)`. -/
def mapDel (m : List (Int × Int)) (k : Int) : List (Int × Int) :=
  m.filter (fun p => !(p.1 == k))

/-- The Go assignment `m[k] = v`. -/
def mapSet (m : List (Int × Int)) (k v : Int) : List (Int × Int) :=
  mapDel m k ++ [(k, v)]

/-! ## `jobqueue_action.go`: the load heap -/

/-- Type `WorkerStatus`: a worker id and the job count it is pushed with. -/
structure WorkerStatus where
  Id : Int
  JobCount : Int
deriving DecidableEq, Repr

/-- Type `IntHeap`.  `mutexLocked` is the state of `mutex`: `true` when the write
lock is held.  The channels `statusAdd`, `statusDone`, `jobAdd`, `jobDone` and the
set `offlineWorker` are used only by the disabled monitoring loops and are left
out. -/
structure IntHeap where
  Count : List Int
  Keys : List Int
  KeyMap : List (Int × Int)
  mutexLocked : Bool
  jobQueuelen : Int
deriving DecidableEq, Repr

/-- Function `NewIntHeap`. -/
def NewIntHeap (jobQueuelen : Int) : IntHeap :=
  { Count := [], Keys := [], KeyMap := [], mutexLocked := false, jobQueuelen := jobQueuelen }

namespace IntHeap

/-- Method `Len`. -/
def Len (h : IntHeap) : Int := h.Keys.length

/-- Method `Less`: takes the read lock, compares the counters of the workers at
positions `i` and `j`. -/
def Less (h : IntHeap) (i j : Int) : Res Bool :=
  if h.mutexLocked then Res.blocked else do
    let ii ← idx h.Keys i
    let jj ← idx h.Keys j
    let a ← idx h.Count ii
    let b ← idx h.Count jj
    pure (decide (a < b))

/-- Method `Swap`: takes the write lock, exchanges `Keys[i]` and `Keys[j]`.
`KeyMap` is not touched. -/
def Swap (h : IntHeap) (i j : Int) : Res IntHeap :=
  if h.mutexLocked then Res.blocked else do
    let a ← idx h.Keys j
    let b ← idx h.Keys i
    pure { h with Keys := setIdx (setIdx h.Keys i a) j b }

/-- Method `Push`: the counter of the worker is (re)allocated, the id is appended
to `Keys`, and `KeyMap[Id]` is set to `JobCount`. -/
def Push (h : IntHeap) (o : WorkerStatus) : Res IntHeap :=
  if h.mutexLocked then Res.blocked else
    let i64 := wrap64 o.JobCount
    let count1 := if (h.Count.length : Int) ≤ o.Id then h.Count ++ [i64] else h.Count
    if 0 ≤ o.Id ∧ o.Id < count1.length then
      Res.ok { h with
        Count := setIdx count1 o.Id i64
        Keys := h.Keys ++ [o.Id]
        KeyMap := mapSet h.KeyMap o.Id o.JobCount }
    else Res.panic

/-- Method `Delete`.  When the id is unknown the method returns without
releasing the write lock it took. -/
def Delete (h : IntHeap) (id0 : Int) : Res IntHeap :=
  if h.mutexLocked then Res.blocked else
    match mapGet h.KeyMap id0 with
    | none => Res.ok { h with mutexLocked := true }
    | some index =>
      if 0 ≤ index ∧ index + 1 ≤ h.Keys.length then
        Res.ok { h with
          Keys := h.Keys.take index.toNat ++ h.Keys.drop (index.toNat + 1)
          KeyMap := mapDel h.KeyMap id0 }
      else Res.panic

end IntHeap

/-! ## `container/heap` of the Go standard library, applied to `IntHeap` -/

namespace heap

/-- The loop of `up`. -/
def upLoop : Nat → IntHeap → Int → Res IntHeap
  | 0, _, _ => Res.fuel
  | fuel + 1, h, j =>
    let i := Int.tdiv (j - 1) 2
    if i = j then Res.ok h else do
      let lt ← h.Less j i
      if !lt then pure h else do
        let h1 ← h.Swap i j
        upLoop fuel h1 i

/-- Function `up`: the loop runs at most once per level above `j`. -/
def up (h : IntHeap) (j : Int) : Res IntHeap := upLoop (j.toNat + 1) h j

/-- The loop of `down`; the answer carries the final value of `i`. -/
def downLoop : Nat → IntHeap → Int → Int → Res (IntHeap × Int)
  | 0, _, _, _ => Res.fuel
  | fuel + 1, h, i, n =>
    let j1 := 2 * i + 1
    if j1 ≥ n ∨ j1 < 0 then Res.ok (h, i) else do
      let j2 := j1 + 1
      let right ← if j2 < n then h.Less j2 j1 else pure false
      let j := if right then j2 else j1
      let lt ← h.Less j i
      if !lt then pure (h, i) else do
        let h1 ← h.Swap i j
        downLoop fuel h1 j n

/-- Function `down`: returns whether the element moved. -/
def down (h : IntHeap) (i0 n : Int) : Res (IntHeap × Bool) := do
  let (h1, i) ← downLoop (n.toNat + 1) h i0 n
  pure (h1, decide (i > i0))

/-- Function `Fix`. -/
def Fix (h : IntHeap) (i : Int) : Res IntHeap := do
  let (h1, moved) ← down h i h.Len
  if !moved then up h1 i else pure h1

/-- The loop of `Init`, from position `i` down to `0`. -/
def initLoop : Nat → IntHeap → Int → Int → Res IntHeap
  | 0, _, _, _ => Res.fuel
  | fuel + 1, h, i, n =>
    if i ≥ 0 then do
      let (h1, _) ← down h i n
      initLoop fuel h1 (i - 1) n
    else Res.ok h

/-- Function `Init`. -/
def Init (h : IntHeap) : Res IntHeap :=
  let n := h.Len
  initLoop (n.toNat + 1) h (Int.tdiv n 2 - 1) n

/-- Function `Push`: the method `Push`, then `up` from the last position. -/
def Push (h : IntHeap) (x : WorkerStatus) : Res IntHeap := do
  let h1 ← h.Push x
  up h1 (h1.Len - 1)

end heap

namespace IntHeap

/-- The heap after the store of `v` into the counter `*h.Count[id]`. -/
def setCount (h : IntHeap) (id v : Int) : IntHeap :=
  { h with Count := setIdx h.Count id v }

/-- Method `Pop`: the worker at the last position, if its counter is below
`jobQueuelen`, gets its counter incremented and is returned; `none` is Go's
`nil`. -/
def Pop (h : IntHeap) : Res (IntHeap × Option Int) :=
  if h.Keys.length = 0 then Res.ok (h, none) else do
    let n : Int := h.Keys.length
    let id ← idx h.Keys (n - 1)
    if h.mutexLocked then Res.blocked else
    match mapGet h.KeyMap id with
    | none => pure (h, none)
    | some _ => do
      let c ← idx h.Count id
      if c ≥ h.jobQueuelen then pure (h, none) else do
        let h2 ← heap.Fix (h.setCount id (wrap64 (c + 1))) (n - 1)
        pure (h2, some id)

/-- Method `Add`: the counter is incremented before the id is looked up. -/
def Add (h : IntHeap) (n : Int) : Res IntHeap := do
  let c ← idx h.Count n
  let h1 := h.setCount n (wrap64 (c + 1))
  match mapGet h1.KeyMap n with
  | none => pure h1
  | some index => heap.Fix h1 index

/-- Method `Done`: the counter is decremented before the id is looked up. -/
def Done (h : IntHeap) (n : Int) : Res IntHeap := do
  let c ← idx h.Count n
  let h1 := h.setCount n (wrap64 (c - 1))
  match mapGet h1.KeyMap n with
  | none => pure h1
  | some index => heap.Fix h1 index

end IntHeap

namespace heap

/-- Function `Pop` of `container/heap`, which is what `AddTask` calls: the first
and last positions are exchanged, the first is sifted down among the first
`Len - 1` positions, then the method `Pop` runs. -/
def Pop (h : IntHeap) : Res (IntHeap × Option Int) := do
  let n := h.Len - 1
  let h1 ← h.Swap 0 n
  let (h2, _) ← down h1 0 n
  h2.Pop

end heap

/-! ## Predicates on the load heap -/

namespace IntHeap

/-- The load counter of worker `id`, `*h.Count[id]`; `0` for an id without counter. -/
def load (h : IntHeap) (id : Int) : Int :=
  if 0 ≤ id then h.Count.getD id.toNat 0 else 0

/-- The load counter of the worker at position `p` of `Keys`. -/
def keyAt (h : IntHeap) (p : Nat) : Int := h.load (h.Keys.getD p 0)

/-- Min-heap order of the first `n` positions: no position is below its parent. -/
def heapUpTo (h : IntHeap) (n : Nat) : Prop :=
  ∀ p < n, 0 < p → h.keyAt ((p - 1) / 2) ≤ h.keyAt p

instance (h : IntHeap) (n : Nat) : Decidable (h.heapUpTo n) := by
  unfold heapUpTo; exact inferInstance

/-- Min-heap order of `Keys` on the load counters. -/
def minHeap (h : IntHeap) : Prop := h.heapUpTo h.Keys.length

instance (h : IntHeap) : Decidable h.minHeap := by
  unfold minHeap; exact inferInstance

/-- The heap can be operated on: the lock is free and every id in `Keys` has a
counter. -/
def Usable (h : IntHeap) : Prop :=
  h.mutexLocked = false ∧ ∀ id ∈ h.Keys, 0 ≤ id ∧ id < h.Count.length

instance (h : IntHeap) : Decidable h.Usable := by
  unfold Usable; exact inferInstance

/-- A well-formed load heap: usable, every worker at most once in `Keys`, every
worker of `Keys` known to `KeyMap`, and every number an `int64`. -/
def WF (h : IntHeap) : Prop :=
  h.Usable ∧ h.Keys.Nodup ∧ (∀ id ∈ h.Keys, (mapGet h.KeyMap id).isSome) ∧
    (∀ c ∈ h.Count, inInt64 c) ∧ inInt64 h.jobQueuelen

instance (h : IntHeap) : Decidable h.WF := by
  unfold WF; exact inferInstance

end IntHeap

/-- The list `l` with positions `i` and `j` exchanged. -/
def swapKeys (l : List Int) (i j : Nat) : List Int :=
  (l.set i (l.getD j 0)).set j (l.getD i 0)

/-- The heap `h'` is `h` with `Keys` rearranged and nothing else changed. -/
def Resift (h h' : IntHeap) : Prop :=
  h'.Count = h.Count ∧ h'.KeyMap = h.KeyMap ∧ h'.mutexLocked = h.mutexLocked ∧
    h'.jobQueuelen = h.jobQueuelen ∧ h'.Keys.Perm h.Keys

/-- Loop invariant of `up` at position `j`: heap order everywhere except between
`j` and its parent, and the parent of `j` is not above the children of `j`. -/
def UpInv (h : IntHeap) (j n : Nat) : Prop :=
  (∀ p < n, 0 < p → p ≠ j → h.keyAt ((p - 1) / 2) ≤ h.keyAt p) ∧
  (∀ p < n, 0 < p → (p - 1) / 2 = j → 0 < j → h.keyAt ((j - 1) / 2) ≤ h.keyAt p)

/-- Loop invariant of `down` at position `i`: heap order everywhere except
between `i` and its children, and the parent of `i` is not above the children
of `i`. -/
def DownInv (h : IntHeap) (i n : Nat) : Prop :=
  (∀ p < n, 0 < p → (p - 1) / 2 ≠ i → h.keyAt ((p - 1) / 2) ≤ h.keyAt p) ∧
  (∀ p < n, 0 < p → (p - 1) / 2 = i → 0 < i → h.keyAt ((i - 1) / 2) ≤ h.keyAt p)

/-! ## `task_options.go`, `pool_model.go`: task descriptors and the pool -/

/-- One invocation of a work closure `func() error`: it returns an error value
(`none` is `nil`) or panics; `cause` is the panic value as `%v` prints it. -/
inductive TaskResult where
  | returned (err : Option String)
  | panicked (cause : String)
deriving DecidableEq, Repr

/-- Type `TaskOptions`.  `task` is `none` for a nil closure, and otherwise gives
the result of each successive invocation made by the function that is running
the task.  A callback field is `true` when the callback is not nil; the callbacks
themselves are user code, and a call of one is recorded as an `Event`.

`tg` is the field `tg *TaskGroup` that `run` and `AddTask` read (`f.tg`,
`opt.tg.wg.Done()`); the declaration of the struct in `task_options.go` does not
list it.  `none` is the nil pointer; `some c` is a group (`task_group.go`) whose
`sync.WaitGroup` counter is `c` when the decrement made for this descriptor is
reached. -/
structure TaskOptions where
  task : Option (Nat → TaskResult)
  onSuccess : Bool
  onError : Bool
  onComplete : Bool
  onTimeout : Bool
  waitTimeOut : Int
  reNum : Int
  autoDone : Bool
  tg : Option Int

/-- The call `tg.wg.Done()` on the group of a descriptor: the value it panics with,
or `none` when it returns, the counter of the group having gone down by one.  A
nil `tg` is dereferenced; `Done` of `sync.WaitGroup` panics when the counter goes
below zero. -/
def groupDone (tg : Option Int) : Option String :=
  match tg with
  | none => some "runtime error: invalid memory address or nil pointer dereference"
  | some c => if c - 1 < 0 then some "sync: negative WaitGroup counter" else none

/-- What a worker, `AddTask` or `ErrReload` does that the user can observe: the
invocation of the work closure and of each callback, and each decrement of the
task group (a call of `wg.Done()` that returned). -/
inductive Event where
  | task
  | onSuccess
  | onError (err : String)
  | onComplete
  | onTimeout
  | wgDone
  | afterFunc (err : Option String)
deriving DecidableEq, Repr

/-- Type `ListPool`.  Each channel is the list of the values it holds:
`task[n]` (capacity `jobQueuelen + 1`), `statusWorker[n]` (capacity 1), `idleRun`
(capacity `maxProcess * jobQueuelen`), `workRun` (capacity `maxProcess`), `idle`
(capacity `2 * maxProcess`).  `ctxDone` tells whether `cancel` was called.
`timeCount`, `quit` and `poolAction` belong to timing and to the disabled scaling
loop and are left out. -/
structure ListPool where
  task : List (List TaskOptions)
  numCount : List Int
  statusWorker : List (List Unit)
  close : Bool
  ctxDone : Bool
  idleRun : List Int
  workRun : List Int
  idle : List Int
  maxProcess : Int
  jobQueuelen : Int
  heap : IntHeap

/-! ## `pool.go`: the worker -/

/-- The body of the inner function of the task case of `run`, up to its end or
to the first panic, of the work closure or of `f.tg.wg.Done()`: the events, and
the value `recover()` will give (`none` when nothing panicked).  A nil closure
panics when it is called. -/
def runBody (f : TaskOptions) : List Event × Option String :=
  match f.task with
  | none => ([], some "runtime error: invalid memory address or nil pointer dereference")
  | some t =>
    match t 0 with
    | TaskResult.panicked c => ([Event.task], some c)
    | TaskResult.returned err =>
      let called := [Event.task] ++ (if f.onSuccess ∧ err = none then [Event.onSuccess] else [])
      match (if err = none ∧ f.autoDone then groupDone f.tg else none) with
      | some c => (called, some c)
      | none =>
        (called
          ++ (if err = none ∧ f.autoDone then [Event.wgDone] else [])
          ++ (match err with
              | some e => if f.onError then [Event.onError e] else []
              | none => []),
         none)

/-- The callbacks of the deferred function of the task case: `onComplete`, then
`onError` with the synthesized error when a panic was recovered. -/
def runDeferred (f : TaskOptions) (r : Option String) : List Event :=
  (if f.onComplete then [Event.onComplete] else [])
    ++ (match r with
        | some c => if f.onError then [Event.onError ("task panicked: " ++ c)] else []
        | none => [])

/-- Everything the worker invokes for one task, in order. -/
def runEvents (f : TaskOptions) : List Event :=
  (runBody f).1 ++ runDeferred f (runBody f).2

/-- The send `ch <- v` on a channel of capacity `cap`. -/
def chanSend {α : Type} (ch : List α) (cap : Int) (v : α) : Res (List α) :=
  if (ch.length : Int) < cap then Res.ok (ch ++ [v]) else Res.blocked

/-- The receive `<-ch`. -/
def chanRecv {α : Type} (ch : List α) : Res (α × List α) :=
  match ch with
  | [] => Res.blocked
  | v :: rest => Res.ok (v, rest)

/-- In the deferred function of the task case, unless the pool is closed: the
worker publishes itself to `idle` when its queue is empty, and one token to
`idleRun` otherwise. -/
def runPublish (lp : ListPool) (n : Int) : Res ListPool :=
  if !lp.close then do
    let q ← idx lp.task n
    if q.length = 0 then do
      let idle ← chanSend lp.idle (2 * lp.maxProcess) n
      pure { lp with idle := idle }
    else do
      let idleRun ← chanSend lp.idleRun (lp.maxProcess * lp.jobQueuelen) n
      pure { lp with idleRun := idleRun }
  else Res.ok lp

/-- The end of the deferred function of the task case: the publication, then
`lp.heap.Done(n)`. -/
def runBookkeeping (lp : ListPool) (n : Int) : Res ListPool := do
  let lp1 ← runPublish lp n
  let h ← lp1.heap.Done n
  pure { lp1 with heap := h }

/-- What the worker loop does next. -/
inductive Ctl where
  | next
  | exit
deriving DecidableEq, Repr

/-- The start of the case `f, ok := <-lp.task[n]` of the event loop of `run` for
worker `n`: the descriptor `f` is received from the queue and `numCount[n]` is
incremented.  No channel is ever closed, so `ok` is `true`. -/
def runReceive (lp : ListPool) (n : Int) : Res (ListPool × TaskOptions) :=
  match idx lp.task n with
  | Res.ok (f :: rest) =>
    match idx lp.numCount n with
    | Res.ok c =>
      Res.ok ({ lp with
        task := setIdx lp.task n rest
        numCount := setIdx lp.numCount n (wrap64 (c + 1)) }, f)
    | _ => Res.panic
  | Res.ok [] => Res.blocked
  | _ => Res.panic

/-- The rest of the task case for the received descriptor `f`: the task runs
under `recover`, the bookkeeping follows in the deferred function, after
`recover()`, and the loop goes to its next iteration.  `lp` is the pool when the
task ends.  The events are those invoked before the bookkeeping, whatever the
bookkeeping answers; a panic of the bookkeeping is not recovered. -/
def runFinish (lp : ListPool) (n : Int) (f : TaskOptions) : List Event × Res (ListPool × Ctl) :=
  (runEvents f, do
    let lp2 ← runBookkeeping lp n
    pure (lp2, Ctl.next))

/-- The whole task case `f, ok := <-lp.task[n]` of worker `n`, with nothing else
happening in the pool between the receipt of the descriptor and the end of the
bookkeeping. -/
def runTaskCase (lp : ListPool) (n : Int) : List Event × Res (ListPool × Ctl) :=
  match runReceive lp n with
  | Res.ok (lp1, f) => runFinish lp1 n f
  | Res.blocked => ([], Res.blocked)
  | _ => ([], Res.panic)

/-! ## `addtask.go`: submission -/

/-- The timer case of the `select` of `AddTask`: `onTimeout`, then the decrement
`opt.tg.wg.Done()` when `autoDone` is set; the error returned is "任务超时".
Nothing recovers a panic of the decrement: it leaves `AddTask`. -/
def addTaskTimeout (lp : ListPool) (opt : TaskOptions) :
    Res (ListPool × List Event × Option String) :=
  match (if opt.autoDone then groupDone opt.tg else none) with
  | some _ => Res.panic
  | none =>
    Res.ok (lp,
      (if opt.onTimeout then [Event.onTimeout] else [])
        ++ (if opt.autoDone then [Event.wgDone] else []),
      some "任务超时")

/-- The end of `AddTask`: the descriptor is sent to `task[n]`, and `heap.Add(n)`
is called when `add` is still `true`. -/
def addTaskPublish (lp : ListPool) (opt : TaskOptions) (n : Int) (add : Bool) :
    Res (ListPool × List Event × Option String) := do
  let q ← idx lp.task n
  let q1 ← chanSend q (lp.jobQueuelen + 1) opt
  let lp1 : ListPool := { lp with task := setIdx lp.task n q1 }
  if add then do
    let h ← lp1.heap.Add n
    pure ({ lp1 with heap := h }, [], none)
  else pure (lp1, [], none)

/-- The first part of `AddTask`, the choice of a worker: an id waiting in `idle`,
or else the worker `heap.Pop` returns, for which a slot token is received and
`add` becomes `false`, or else `-1`. -/
def addTaskPick (lp : ListPool) : Res (ListPool × Int × Bool) :=
  match lp.idle with
  | w :: rest => Res.ok ({ lp with idle := rest }, w, true)
  | [] => do
    let (h1, w) ← heap.Pop lp.heap
    match w with
    | some id => do
      let (_, rest) ← chanRecv lp.idleRun
      pure ({ lp with heap := h1, idleRun := rest }, id, false)
    | none => pure ({ lp with heap := h1 }, -1, true)

/-- The second part of `AddTask`: with no wait budget and no worker, a slot token
is awaited. -/
def addTaskWait (lp : ListPool) (opt : TaskOptions) (n : Int) : Res (ListPool × Int) :=
  if opt.waitTimeOut = 0 ∧ n = -1 then do
    let (w, rest) ← chanRecv lp.idleRun
    pure ({ lp with idleRun := rest }, w)
  else Res.ok (lp, n)

/-- Function `AddTask`.  The answer carries the pool, the callbacks invoked and
the returned error (`none` is `nil`).  `timerFirst` settles the `select` when a
slot token is ready: `true` when the timer has fired by then.  With no token
ready and nobody to publish one, the timer fires. -/
def AddTask (lp : ListPool) (opt : TaskOptions) (timerFirst : Bool) :
    Res (ListPool × List Event × Option String) :=
  if opt.task.isNone then Res.ok (lp, [], some "请添加任务") else do
    let (lp1, n, add) ← addTaskPick lp
    let (lp2, n2) ← addTaskWait lp1 opt n
    if n2 = -1 then
      match lp2.idleRun with
      | [] => addTaskTimeout lp2 opt
      | w :: rest =>
        if timerFirst then addTaskTimeout lp2 opt
        else addTaskPublish { lp2 with idleRun := rest } opt w add
    else addTaskPublish lp2 opt n2 add

/-! ### `AddTask`, one operation at a time

While a call of `AddTask` waits on a channel, and between two of its statements,
the workers go on.  The call is cut at the operations on the channels and at
`heap.Add`; what lies between two cuts touches only the variables of the call. -/

/-- The operation a call of `AddTask` in progress is about to perform, with the
values of its variables `n` and `add`:
`token n` is the receive `_ = <-lp.idleRun` that follows a `heap.Pop` which
returned `n` (`add` is `false`);
`slot add` is `n = <-lp.idleRun`, for `waitTimeOut == 0` and `n == -1`;
`select add` is the `select` on the timer and `lp.idleRun`, for `n == -1`;
`send n add` is `lp.task[n] <- opt`;
`count n` is `lp.heap.Add(n)`, `add` being `true`. -/
inductive Pending where
  | token (n : Int)
  | slot (add : Bool)
  | select (add : Bool)
  | send (n : Int) (add : Bool)
  | count (n : Int)
deriving DecidableEq, Repr

/-- A call of `AddTask`: in progress, or returned with the callbacks it invoked
and its error. -/
inductive Call where
  | pending (p : Pending)
  | returned (evs : List Event) (err : Option String)
deriving DecidableEq, Repr

/-- From the choice of `n` to the next operation of the call: the two tests
`opt.waitTimeOut == 0 && n == -1` and `n == -1`. -/
def addTaskNext (opt : TaskOptions) (n : Int) (add : Bool) : Pending :=
  if opt.waitTimeOut = 0 ∧ n = -1 then Pending.slot add
  else if n = -1 then Pending.select add
  else Pending.send n add

/-- The start of a call of `AddTask`, up to its first operation on `lp.idleRun` or
on a queue: the test of `opt.task`, then the id taken from `idle`, or else
`heap.Pop`. -/
def addTaskEnter (lp : ListPool) (opt : TaskOptions) : Res (ListPool × Call) :=
  if opt.task.isNone then Res.ok (lp, Call.returned [] (some "请添加任务")) else
    match lp.idle with
    | w :: rest => Res.ok ({ lp with idle := rest }, Call.pending (addTaskNext opt w true))
    | [] => do
      let (h1, w) ← heap.Pop lp.heap
      match w with
      | some id => pure ({ lp with heap := h1 }, Call.pending (Pending.token id))
      | none => pure ({ lp with heap := h1 }, Call.pending (addTaskNext opt (-1) true))

/-- The call performs the operation `p` it was about to perform, and goes on to
its next operation or to its return.  `timerFirst` settles the `select` as in
`AddTask`. -/
def addTaskAdvance (lp : ListPool) (opt : TaskOptions) (timerFirst : Bool) :
    Pending → Res (ListPool × Call)
  | Pending.token n => do
    let (_, rest) ← chanRecv lp.idleRun
    pure ({ lp with idleRun := rest }, Call.pending (addTaskNext opt n false))
  | Pending.slot add => do
    let (w, rest) ← chanRecv lp.idleRun
    pure ({ lp with idleRun := rest },
      Call.pending (if w = -1 then Pending.select add else Pending.send w add))
  | Pending.select add =>
    match lp.idleRun with
    | [] => do
      let r ← addTaskTimeout lp opt
      pure (r.1, Call.returned r.2.1 r.2.2)
    | w :: rest =>
      if timerFirst then do
        let r ← addTaskTimeout lp opt
        pure (r.1, Call.returned r.2.1 r.2.2)
      else Res.ok ({ lp with idleRun := rest }, Call.pending (Pending.send w add))
  | Pending.send n add => do
    let q ← idx lp.task n
    let q1 ← chanSend q (lp.jobQueuelen + 1) opt
    pure ({ lp with task := setIdx lp.task n q1 },
      if add then Call.pending (Pending.count n) else Call.returned [] none)
  | Pending.count n => do
    let h ← lp.heap.Add n
    pure ({ lp with heap := h }, Call.returned [] none)

/-- A call in the state `c` carried on to its return, with no step of a worker in
between; the first argument bounds the number of operations left (a call has
five at most). -/
def addTaskFinish : Nat → ListPool → TaskOptions → Bool → Call →
    Res (ListPool × List Event × Option String)
  | _, lp, _, _, Call.returned evs err => Res.ok (lp, evs, err)
  | 0, _, _, _, Call.pending _ => Res.fuel
  | k + 1, lp, opt, timerFirst, Call.pending p => do
    let r ← addTaskAdvance lp opt timerFirst p
    addTaskFinish k r.1 opt timerFirst r.2

/-! ## `task_options.go`: the retry handle -/

/-- How a retry loop of `ErrReload` ends. -/
inductive RetryEnd where
  | returned
  | panicked
  | fuel
deriving DecidableEq, Repr

/-- The retry loops of `ErrReload`: `k` attempts are left, the next attempt is the
`i`-th invocation of the closure, `err` is the variable `err`.  The loop stops at
the first `nil`; a panic leaves `err` as it was.  `bounded` is `false` for the
loop `for i := 1; i > -1; i++`, which only a success ends. -/
def retryLoop (t : Nat → TaskResult) (bounded : Bool) :
    Nat → Nat → Option String → List Event × Option String × RetryEnd
  | 0, _, err => ([], err, if bounded then RetryEnd.returned else RetryEnd.fuel)
  | k + 1, i, err =>
    match t i with
    | TaskResult.panicked _ => ([Event.task], err, RetryEnd.panicked)
    | TaskResult.returned none => ([Event.task], none, RetryEnd.returned)
    | TaskResult.returned (some e) =>
      let r := retryLoop t bounded k (i + 1) (some e)
      (Event.task :: r.1, r.2.1, r.2.2)

/-- Method `ErrReload` of the retry handle `eh` with `eh.lp = lp`, `eh.opt = opt`.
`afterFunc` is `true` when the callback is not nil.  A slot token is received
first; the deferred function calls `afterFunc(err)`, calls `eh.lp.Done()` when
`autoDone` is set and `err` is nil, and sends the token back.  `Done` is a method
of `ListPool` that is not among the sources (the spec has the retry handle
decrement the task group there); `lpDone` is what the call does: the value it
panics with, or `none` when it returns, which is recorded as a decrement.  `fuel`
bounds the unrolling of the endless loop taken when `reNum < 1`.  The events are
those invoked, also when a panic leaves the method; nothing in the method
recovers a panic. -/
def ErrReload (lp : ListPool) (opt : TaskOptions) (reNum : Int) (afterFunc : Bool)
    (lpDone : Option String) (fuel : Nat) : List Event × Res ListPool :=
  match lp.idleRun with
  | [] => ([], Res.blocked)
  | n :: rest =>
    let t : Nat → TaskResult := match opt.task with
      | some t => t
      | none => fun _ =>
        TaskResult.panicked "runtime error: invalid memory address or nil pointer dereference"
    let r := if reNum < 1 then retryLoop t false fuel 0 none
      else retryLoop t true reNum.toNat 0 none
    match r.2.2 with
    | RetryEnd.fuel => (r.1, Res.fuel)
    | fin =>
      let called := r.1 ++ (if afterFunc then [Event.afterFunc r.2.1] else [])
      match (if opt.autoDone ∧ r.2.1 = none then lpDone else none) with
      | some _ => (called, Res.panic)
      | none =>
        (called ++ (if opt.autoDone ∧ r.2.1 = none then [Event.wgDone] else []),
          match chanSend rest (lp.maxProcess * lp.jobQueuelen) n with
          | Res.ok ch => if fin = RetryEnd.panicked then Res.panic
              else Res.ok { lp with idleRun := ch }
          | _ => Res.blocked)

/-! ## `pool_new.go`, `pool.go`: construction -/

/-- The start of the goroutine of `run`: `k` more slot tokens of worker `n` are
sent to `idleRun`. -/
def publishTokens : Nat → List Int → Int → Int → Res (List Int)
  | 0, ch, _, _ => Res.ok ch
  | k + 1, ch, cap, n => do
    let ch1 ← chanSend ch cap n
    publishTokens k ch1 cap n

/-- Function `run`, up to the point where the new worker waits in its event
loop: the status token, `heap.Push` with job count 0, the id sent to `idle`, then
`jobQueuelen` slot tokens.  The answer carries the returned error. -/
def run (lp : ListPool) (n : Int) (index : Bool) : Res (ListPool × Option String) :=
  if lp.workRun.length = 0 ∧ index = false then Res.ok (lp, some "协程池满了") else do
    let _ ← idx lp.task n
    let st ← idx lp.statusWorker n
    let st1 ← chanSend st 1 ()
    let h ← heap.Push lp.heap { Id := n, JobCount := 0 }
    let idle ← chanSend lp.idle (2 * lp.maxProcess) n
    let idleRun ← publishTokens lp.jobQueuelen.toNat lp.idleRun
      (lp.maxProcess * lp.jobQueuelen) n
    pure ({ lp with
      statusWorker := setIdx lp.statusWorker n st1, heap := h, idle := idle,
      idleRun := idleRun }, none)

/-- The loop `for i := int64(0); i < maxProcess; i++ { g.run(i, true) }` with `k`
iterations left. -/
def startWorkers : Nat → Int → ListPool → Res ListPool
  | 0, _, lp => Res.ok lp
  | k + 1, i, lp => do
    let (lp1, _) ← run lp i true
    startWorkers k (i + 1) lp1

/-- Function `NewPool`.  `make` panics on a negative size. -/
def NewPool (maxProcess jobQueuelen : Int) : Res ListPool :=
  if maxProcess < 0 ∨ maxProcess * jobQueuelen < 0 then Res.panic else do
    let g : ListPool :=
      { task := List.replicate maxProcess.toNat []
        numCount := List.replicate maxProcess.toNat 0
        statusWorker := List.replicate maxProcess.toNat []
        close := false
        ctxDone := false
        idleRun := []
        workRun := []
        idle := []
        maxProcess := maxProcess
        jobQueuelen := jobQueuelen
        heap := NewIntHeap jobQueuelen }
    let h ← heap.Init g.heap
    startWorkers maxProcess.toNat 0 { g with heap := h }

/-! ## Runs of the pool -/

/-- Where the goroutine of a worker is: in the `select` of its event loop;
executing the task of the descriptor `f` it has received (or its callbacks); or in
the deferred function of the task case, past the publication to `idle` or
`idleRun` and before `lp.heap.Done(n)`. -/
inductive Worker where
  | waiting
  | executing (f : TaskOptions)
  | closing

/-- The state of a run of the pool: the pool, where each worker is, and the call
of `AddTask` in progress, if any, with its descriptor.  There is one submitter:
calls of `AddTask` do not overlap one another. -/
structure PoolState where
  lp : ListPool
  workers : List Worker
  call : Option (TaskOptions × Pending)

/-- The state when `NewPool` has returned `lp`: every worker waits in its event
loop and no call is in progress. -/
def PoolState.start (lp : ListPool) : PoolState :=
  { lp := lp, workers := List.replicate lp.maxProcess.toNat Worker.waiting, call := none }

/-- One step of a run of the pool.
`addTask` is a whole call of `AddTask` with no step of a worker in between;
`enter` and `advance` are the same call one operation at a time;
`receive n` is worker `n` receiving the next descriptor of its queue;
`endTask n` is the end of the task worker `n` is executing, with the callbacks and
the publication of the deferred function; `done n` is the call `lp.heap.Done(n)`
that ends the deferred function. -/
inductive PoolOp where
  | addTask (opt : TaskOptions) (timerFirst : Bool)
  | enter (opt : TaskOptions)
  | advance (timerFirst : Bool)
  | receive (n : Int)
  | endTask (n : Int)
  | done (n : Int)

/-- The call in progress after a step of `AddTask`. -/
def callOf (opt : TaskOptions) : Call → Option (TaskOptions × Pending)
  | Call.pending p => some (opt, p)
  | Call.returned _ _ => none

/-- The state after one step.  A call is entered only when none is in progress;
a worker receives only while it waits in its event loop; a step that cannot be
taken answers `Res.blocked`. -/
def stepPool (s : PoolState) : PoolOp → Res PoolState
  | PoolOp.addTask opt timerFirst =>
    match s.call with
    | none => do
      let r ← AddTask s.lp opt timerFirst
      pure { s with lp := r.1 }
    | some _ => Res.blocked
  | PoolOp.enter opt =>
    match s.call with
    | none => do
      let r ← addTaskEnter s.lp opt
      pure { s with lp := r.1, call := callOf opt r.2 }
    | some _ => Res.blocked
  | PoolOp.advance timerFirst =>
    match s.call with
    | some (opt, p) => do
      let r ← addTaskAdvance s.lp opt timerFirst p
      pure { s with lp := r.1, call := callOf opt r.2 }
    | none => Res.blocked
  | PoolOp.receive n =>
    match idx s.workers n with
    | Res.ok Worker.waiting => do
      let r ← runReceive s.lp n
      pure { s with lp := r.1, workers := setIdx s.workers n (Worker.executing r.2) }
    | _ => Res.blocked
  | PoolOp.endTask n =>
    match idx s.workers n with
    | Res.ok (Worker.executing _) => do
      let lp1 ← runPublish s.lp n
      pure { s with lp := lp1, workers := setIdx s.workers n Worker.closing }
    | _ => Res.blocked
  | PoolOp.done n =>
    match idx s.workers n with
    | Res.ok Worker.closing => do
      let h ← s.lp.heap.Done n
      pure { s with lp := { s.lp with heap := h }, workers := setIdx s.workers n Worker.waiting }
    | _ => Res.blocked

/-- The state after a sequence of steps. -/
def runPool : List PoolOp → PoolState → Res PoolState
  | [], s => Res.ok s
  | op :: ops, s => do
    let s1 ← stepPool s op
    runPool ops s1

/-! ## Runs of the heap -/

/-- The workers `0 .. n-1` pushed in order with load 0, as `NewPool` does. -/
def pushWorkers : Nat → IntHeap → Res IntHeap
  | 0, h => Res.ok h
  | n + 1, h => do
    let h1 ← pushWorkers n h
    heap.Push h1 { Id := n, JobCount := 0 }

/-- An operation on the load heap. -/
inductive HeapOp where
  | pop
  | add (n : Int)
  | done (n : Int)
deriving DecidableEq, Repr

/-- The heap after one operation. -/
def stepHeap (h : IntHeap) : HeapOp → Res IntHeap
  | HeapOp.pop => do
    let r ← heap.Pop h
    pure r.1
  | HeapOp.add n => h.Add n
  | HeapOp.done n => h.Done n

/-- The heap after a sequence of operations. -/
def runHeap : List HeapOp → IntHeap → Res IntHeap
  | [], h => Res.ok h
  | op :: ops, h => do
    let h1 ← stepHeap h op
    runHeap ops h1

/-! ## Concrete states used by the closed statements -/

/-- A heap on which `heap.Pop` succeeds: worker 1 is the least loaded. -/
def exHeap : IntHeap :=
  { Count := [1, 0, 2], Keys := [1, 0, 2], KeyMap := [(0, 0), (1, 0), (2, 0)],
    mutexLocked := false, jobQueuelen := 3 }

/-- A descriptor with every callback set and `autoDone`, whose closure always
gives `r`, and whose task group has the counter 1. -/
def exTask (r : TaskResult) : TaskOptions :=
  { task := some (fun _ => r), onSuccess := true, onError := true, onComplete := true,
    onTimeout := true, waitTimeOut := 5, reNum := 0, autoDone := true, tg := some 1 }

/-- A pool of one worker with queue length 1, whose worker 0 has `f` in its
queue. -/
def exPool (f : TaskOptions) : ListPool :=
  { task := [[f]], numCount := [0], statusWorker := [[()]], close := false, ctxDone := false,
    idleRun := [0], workRun := [], idle := [], maxProcess := 1, jobQueuelen := 1,
    heap := { Count := [1], Keys := [0], KeyMap := [(0, 0)], mutexLocked := false,
              jobQueuelen := 1 } }

/-- Worker `n`, whose queue is `q`, can do the bookkeeping that follows a task: if
the pool is open there is room in the channel the worker publishes to (`idle` for
an empty queue, `idleRun` otherwise), the heap is usable, `n` has a counter, and
the position `KeyMap` gives for `n`, if any, is a position of `Keys`. -/
def canBookkeep (lp : ListPool) (n : Int) (q : List TaskOptions) : Prop :=
  (lp.close = false →
    (q.length = 0 → (lp.idle.length : Int) < 2 * lp.maxProcess) ∧
    (q.length ≠ 0 → (lp.idleRun.length : Int) < lp.maxProcess * lp.jobQueuelen)) ∧
  lp.heap.Usable ∧ 0 ≤ n ∧ n < lp.heap.Count.length ∧
  ∀ index, mapGet lp.heap.KeyMap n = some index → 0 ≤ index ∧ index < lp.heap.Keys.length

/-- The heap `h'` is `h` except, possibly, for `Keys`. -/
def SameButKeys (h h' : IntHeap) : Prop :=
  h'.Count = h.Count ∧ h'.KeyMap = h.KeyMap ∧ h'.mutexLocked = h.mutexLocked ∧
    h'.jobQueuelen = h.jobQueuelen

/-- The pool of one worker with queue length 1 after two submissions: no idle
worker, no slot token, the counter of worker 0 above `jobQueuelen`. -/
def exSaturated : ListPool :=
  { task := [[exTask (TaskResult.returned none), exTask (TaskResult.returned none)]],
    numCount := [0], statusWorker := [[()]], close := false, ctxDone := false,
    idleRun := [], workRun := [], idle := [], maxProcess := 1, jobQueuelen := 1,
    heap := { Count := [2], Keys := [0], KeyMap := [(0, 0)], mutexLocked := false,
              jobQueuelen := 1 } }

/-- The heap of one worker after `Delete(0)`: worker 0 is in neither `Keys` nor
`KeyMap`, and its counter is still in `Count`. -/
def exDeleted : IntHeap :=
  { Count := [0], Keys := [], KeyMap := [], mutexLocked := false, jobQueuelen := 1 }

/-- The heap of four workers as `NewPool` pushes them. -/
def exFour : IntHeap :=
  { Count := [0, 0, 0, 0], Keys := [0, 1, 2, 3], KeyMap := [(0, 0), (1, 0), (2, 0), (3, 0)],
    mutexLocked := false, jobQueuelen := 2 }

/-- A descriptor with no callback, no wait budget, no task group, and a closure
returning nil. -/
def exPlain : TaskOptions :=
  { task := some (fun _ => TaskResult.returned none), onSuccess := false, onError := false,
    onComplete := false, onTimeout := false, waitTimeOut := 0, reNum := 0, autoDone := false,
    tg := none }

/-- A descriptor with `onSuccess`, `onError` and `onComplete` set, no `autoDone` and
no task group, whose closure panics with "boom". -/
def exBoom : TaskOptions :=
  { task := some (fun _ => TaskResult.panicked "boom"), onSuccess := true, onError := true,
    onComplete := true, onTimeout := false, waitTimeOut := 0, reNum := 0, autoDone := false,
    tg := none }

/-! ## The invariant of the runs of the pool -/

/-- The number of descriptors waiting in the queue of worker `w`. -/
def ListPool.queued (lp : ListPool) (w : Int) : Int :=
  ((lp.task.getD w.toNat []).length : Int)

/-- `1` at `n`, `0` elsewhere. -/
def unitAt (n : Int) : Int → Int := fun w => if w = n then 1 else 0

/-- The invariant of a pool of `N` workers with queue length `q`.  `δ w` is
what the counter of worker `w` is ahead of the length of its queue; between two
steps of a run it is `1` for a worker that has received a descriptor and not yet
called `Done`, `0` for a worker that waits in its event loop, corrected by what
the call of `AddTask` in progress has done (`aheadOf`). -/
structure PoolInv (N : Nat) (q : Int) (lp : ListPool) (δ : Int → Int) : Prop where
  qRange : 0 ≤ q ∧ q + 1 < 2 ^ 63
  notClosed : lp.close = false
  maxP : lp.maxProcess = N
  qlen : lp.jobQueuelen = q
  taskLen : lp.task.length = N
  numLen : lp.numCount.length = N
  countLen : lp.heap.Count.length = N
  heapQ : lp.heap.jobQueuelen = q
  usable : lp.heap.Usable
  keysPos : 0 < lp.heap.Keys.length
  keyMap : ∀ w : Int, 0 ≤ w → w < N → mapGet lp.heap.KeyMap w = some 0
  idleIds : ∀ w ∈ lp.idle, 0 ≤ w ∧ w < N
  idleRunIds : ∀ w ∈ lp.idleRun, 0 ≤ w ∧ w < N
  loadEq : ∀ w : Int, 0 ≤ w → w < N → lp.heap.load w = lp.queued w + δ w
  queueCap : ∀ w : Int, 0 ≤ w → w < N → lp.queued w ≤ q + 1

/-- The state of `AddTask` between its parts, with `n` and `add` as the code has
them, in a call that started with the invariant at `δ`: either the invariant
still holds at `δ` and `n` is `-1` or a worker, or `heap.Pop` has already counted
the task for worker `n` (`add` is `false`). -/
def Picked (N : Nat) (q : Int) (lp : ListPool) (δ : Int → Int) (n : Int) (add : Bool) : Prop :=
  (add = true ∧ PoolInv N q lp δ ∧ (n = -1 ∨ (0 ≤ n ∧ n < N))) ∨
  (add = false ∧ 0 ≤ n ∧ n < N ∧ PoolInv N q lp (fun w => δ w + unitAt n w))

/-- `1` for a worker that has received a descriptor and has not yet called
`lp.heap.Done`, `0` for any other id. -/
def PoolState.busy (s : PoolState) (w : Int) : Int :=
  match idx s.workers w with
  | Res.ok Worker.waiting => 0
  | Res.ok _ => 1
  | _ => 0

/-- What the call in progress has done to the counter of worker `w` without the
matching send, or to its queue without the matching count: `1` from `heap.Pop` to
the send, `-1` from the send to `heap.Add`. -/
def aheadOf (call : Option (TaskOptions × Pending)) (w : Int) : Int :=
  match call with
  | some (_, Pending.token n) => unitAt n w
  | some (_, Pending.send n false) => unitAt n w
  | some (_, Pending.count n) => -unitAt n w
  | _ => 0

/-- The variables of the call in progress are as the code can have them: `n` is a
worker, `add` is still `true` while no worker is chosen, and a worker chosen by
`heap.Pop` has its counter at `q` at most until the descriptor is sent. -/
def CallOk (N : Nat) (q : Int) (lp : ListPool) : Option (TaskOptions × Pending) → Prop
  | none => True
  | some (_, Pending.token n) => 0 ≤ n ∧ n < N ∧ lp.heap.load n ≤ q
  | some (_, Pending.slot add) => add = true
  | some (_, Pending.select add) => add = true
  | some (_, Pending.send n add) => 0 ≤ n ∧ n < N ∧ (add = false → lp.heap.load n ≤ q)
  | some (_, Pending.count n) => 0 ≤ n ∧ n < N

/-- The invariant of the states of a run: one entry of `workers` per worker, the
counter of each worker is the length of its queue, plus one for a worker that has
received a descriptor and not yet called `Done`, corrected by what the call in
progress has done; and the call in progress is well formed. -/
def RunInv (N : Nat) (q : Int) (s : PoolState) : Prop :=
  s.workers.length = N ∧ PoolInv N q s.lp (fun w => s.busy w + aheadOf s.call w) ∧
    CallOk N q s.lp s.call

/-- The heap after the method `Push` of the next worker `i` with job count 0. -/
def IntHeap.pushed (h : IntHeap) (i : Int) : IntHeap :=
  { h with
    Count := setIdx (h.Count ++ [0]) i 0
    Keys := h.Keys ++ [i]
    KeyMap := mapSet h.KeyMap i 0 }

/-- The invariant of `NewPool` while it starts the workers: workers `0 .. i-1`
are started, every queue is empty and every counter is 0. -/
structure StartInv (N : Nat) (q : Int) (i : Nat) (lp : ListPool) : Prop where
  qRange : 0 ≤ q ∧ q + 1 < 2 ^ 63
  iLe : i ≤ N
  notClosed : lp.close = false
  maxP : lp.maxProcess = N
  qlen : lp.jobQueuelen = q
  taskEmpty : lp.task = List.replicate N []
  numLen : lp.numCount.length = N
  statusLen : lp.statusWorker.length = N
  statusFree : ∀ w : Nat, i ≤ w → lp.statusWorker.getD w [] = []
  countLen : lp.heap.Count.length = i
  countZero : ∀ c ∈ lp.heap.Count, c = 0
  heapQ : lp.heap.jobQueuelen = q
  usable : lp.heap.Usable
  keysLen : lp.heap.Keys.length = i
  keyMap : ∀ w : Int, 0 ≤ w → w < i → mapGet lp.heap.KeyMap w = some 0
  idleLen : lp.idle.length = i
  idleIds : ∀ w ∈ lp.idle, 0 ≤ w ∧ w < i
  idleRunLen : (lp.idleRun.length : Int) = i * q
  idleRunIds : ∀ w ∈ lp.idleRun, 0 ≤ w ∧ w < i

/-! ## `pool_close.go`: shutdown -/

/-- The loop `for i := 0; i < len(ch); i++ { <-ch }` of `Close`: `len(ch)` is read
again at every iteration, while `i` grows. -/
def drainLoop {α : Type} : Nat → Int → List α → Res (List α)
  | 0, _, _ => Res.fuel
  | fuel + 1, i, ch =>
    if i < ch.length then do
      let (_, rest) ← chanRecv ch
      drainLoop fuel (i + 1) rest
    else Res.ok ch

/-- The drain loop of `Close` on one channel; it runs at most `len(ch)` times. -/
def drain {α : Type} (ch : List α) : Res (List α) := drainLoop (ch.length + 1) 0 ch

/-- The loop `for _, ch := range chans { ... }` of `Close` over a slice of
channels. -/
def drainAll {α : Type} : List (List α) → Res (List (List α))
  | [] => Res.ok []
  | ch :: chs => do
    let ch1 ← drain ch
    let chs1 ← drainAll chs
    pure (ch1 :: chs1)

/-- Method `Close` of `IntHeap`, on the fields of the model: `KeyMap` is emptied,
`Count` and `Keys` become nil. -/
def IntHeap.Close (h : IntHeap) : IntHeap :=
  { h with Count := [], Keys := [], KeyMap := [] }

/-- Method `Close` of `ListPool`.  `TaskGroupList` holds the counter of each
registered task group; `Wait` on a group whose counter is not zero never returns
in a sequential run.  Then `close` is set, the context is cancelled, the
channels are drained in the order of the source, and the heap is closed. -/
def Close (lp : ListPool) (TaskGroupList : List Int) : Res ListPool :=
  if TaskGroupList.any (fun c => decide (c ≠ 0)) then Res.blocked else do
    let task ← drainAll lp.task
    let statusWorker ← drainAll lp.statusWorker
    let idleRun ← drain lp.idleRun
    let workRun ← drain lp.workRun
    let idle ← drain lp.idle
    pure { lp with
      close := true
      ctxDone := true
      task := task
      statusWorker := statusWorker
      idleRun := idleRun
      workRun := workRun
      idle := idle
      heap := lp.heap.Close }

/-! ## More concrete states -/

/-- The pool `NewPool(1, 1)` returns. -/
def exNew : ListPool :=
  { task := [[]], numCount := [0], statusWorker := [[()]], close := false, ctxDone := false,
    idleRun := [0], workRun := [], idle := [0], maxProcess := 1, jobQueuelen := 1,
    heap := { Count := [0], Keys := [0], KeyMap := [(0, 0)], mutexLocked := false,
              jobQueuelen := 1 } }

/-- The pool `exNew` after the submission of `exPlain`. -/
def exNewAdded : ListPool :=
  { exNew with
    task := [[exPlain]]
    idle := []
    heap := { Count := [1], Keys := [0], KeyMap := [(0, 0)], mutexLocked := false,
              jobQueuelen := 1 } }

/-- The ids of the workers of a pool of `N` workers, `0 .. N-1`. -/
def workerIds (N : Nat) : List Int := (List.range N).map (fun (k : Nat) => (k : Int))

/-- The operation names a worker of a pool of `N` workers. -/
def HeapOp.valid (N : Nat) : HeapOp → Prop
  | HeapOp.pop => True
  | HeapOp.add n => 0 ≤ n ∧ n < N
  | HeapOp.done n => 0 ≤ n ∧ n < N

/-- The invariant of the load heap of a pool of `N` workers under `heap.Pop`,
`Add` and `Done`: the heap is usable, every worker has a counter, `Keys` is a
rearrangement of `0 .. N-1`, and `KeyMap` gives position 0 for every worker. -/
def HeapInv (N : Nat) (h : IntHeap) : Prop :=
  h.Usable ∧ h.Count.length = N ∧ h.Keys.Perm (workerIds N) ∧
    ∀ w : Int, 0 ≤ w → w < N → mapGet h.KeyMap w = some 0

/-! # Theorems -/

theorem idx_natCast {α : Type} (l : List α) (p : Nat) (d : α) (hp : p < l.length) :
    idx l (p : Int) = Res.ok (l.getD p d) := by
  simp [idx, List.getD, List.getElem?_eq_getElem hp]

theorem idx_of_range {α : Type} (l : List α) (i : Int) (d : α) (h0 : 0 ≤ i)
    (h1 : i < l.length) : idx l i = Res.ok (l.getD i.toNat d) := by
  have hp : i.toNat < l.length := by omega
  have := idx_natCast l i.toNat d hp
  rwa [Int.toNat_of_nonneg h0] at this

theorem length_swapKeys (l : List Int) (i j : Nat) : (swapKeys l i j).length = l.length := by
  simp [swapKeys]

theorem getD_swapKeys (l : List Int) (i j p : Nat) (hi : i < l.length) (hj : j < l.length) :
    (swapKeys l i j).getD p 0 =
      if p = j then l.getD i 0 else if p = i then l.getD j 0 else l.getD p 0 := by
  unfold swapKeys
  simp only [List.getD_eq_getElem?_getD, List.getElem?_set, List.length_set]
  by_cases h1 : j = p
  · subst h1; simp [hj]
  · by_cases h2 : i = p
    · subst h2; simp [h1, hi, Ne.symm h1]
    · simp [h1, h2, Ne.symm h1, Ne.symm h2]

theorem count_set_add (l : List Int) (i : Nat) (a b : Int) (hi : i < l.length) :
    (l.set i a).count b + (if l.getD i 0 = b then 1 else 0) =
      l.count b + (if a = b then 1 else 0) := by
  induction l generalizing i with
  | nil => simp at hi
  | cons x xs ih =>
    cases i with
    | zero =>
      simp only [List.set_cons_zero, List.count_cons, List.getD_cons_zero, beq_iff_eq]
      omega
    | succ k =>
      have hk : k < xs.length := by simpa using hi
      have := ih k hk
      simp only [List.set_cons_succ, List.count_cons, List.getD_cons_succ]
      omega

theorem perm_swapKeys (l : List Int) (i j : Nat) (hi : i < l.length) (hj : j < l.length) :
    (swapKeys l i j).Perm l := by
  rw [List.perm_iff_count]
  intro b
  unfold swapKeys
  have h1 := count_set_add l i (l.getD j 0) b hi
  have h2 := count_set_add (l.set i (l.getD j 0)) j (l.getD i 0) b (by simpa using hj)
  have h3 : (l.set i (l.getD j 0)).getD j 0 = l.getD j 0 := by
    simp only [List.getD_eq_getElem?_getD, List.getElem?_set]
    by_cases hij : i = j
    · subst hij; simp [hi]
    · simp [hij]
  rw [h3] at h2
  omega


@[simp] theorem Res.ok_bind {α β : Type} (a : α) (f : α → Res β) : (Res.ok a >>= f) = f a := rfl
@[simp] theorem Res.panic_bind {α β : Type} (f : α → Res β) : (Res.panic >>= f) = Res.panic := rfl
@[simp] theorem Res.blocked_bind {α β : Type} (f : α → Res β) :
    (Res.blocked >>= f) = Res.blocked := rfl
@[simp] theorem Res.fuel_bind {α β : Type} (f : α → Res β) : (Res.fuel >>= f) = Res.fuel := rfl
@[simp] theorem Res.pure_eq {α : Type} (a : α) : (pure a : Res α) = Res.ok a := rfl

theorem getD_mem_keys (h : IntHeap) (p : Nat) (hp : p < h.Keys.length) :
    h.Keys.getD p 0 ∈ h.Keys := by
  rw [List.getD_eq_getElem _ _ hp]
  exact List.getElem_mem hp

theorem idx_count (h : IntHeap) (id : Int) (h0 : 0 ≤ id) (h1 : id < h.Count.length) :
    idx h.Count id = Res.ok (h.load id) := by
  have hp : id.toNat < h.Count.length := by omega
  simp [idx, IntHeap.load, h0, List.getD, List.getElem?_eq_getElem hp]

theorem Less_ok (h : IntHeap) (i j : Nat) (hu : h.Usable) (hi : i < h.Keys.length)
    (hj : j < h.Keys.length) :
    h.Less i j = Res.ok (decide (h.keyAt i < h.keyAt j)) := by
  obtain ⟨hl, hv⟩ := hu
  have vi := hv _ (getD_mem_keys h i hi)
  have vj := hv _ (getD_mem_keys h j hj)
  unfold IntHeap.Less
  rw [if_neg (by simp [hl]), idx_natCast h.Keys i 0 hi, idx_natCast h.Keys j 0 hj]
  simp only [Res.ok_bind]
  rw [idx_count h _ vi.1 vi.2, idx_count h _ vj.1 vj.2]
  rfl

theorem Swap_ok (h : IntHeap) (i j : Nat) (hu : h.Usable) (hi : i < h.Keys.length)
    (hj : j < h.Keys.length) :
    h.Swap i j = Res.ok { h with Keys := swapKeys h.Keys i j } := by
  simp [IntHeap.Swap, hu.1, idx_natCast h.Keys i 0 hi, idx_natCast h.Keys j 0 hj, setIdx,
    swapKeys]

theorem Resift.rsRefl (h : IntHeap) : Resift h h := ⟨rfl, rfl, rfl, rfl, List.Perm.refl _⟩

theorem Resift.rsTrans {a b c : IntHeap} (h1 : Resift a b) (h2 : Resift b c) : Resift a c :=
  ⟨h2.1.trans h1.1, h2.2.1.trans h1.2.1, h2.2.2.1.trans h1.2.2.1,
    h2.2.2.2.1.trans h1.2.2.2.1, h2.2.2.2.2.trans h1.2.2.2.2⟩

theorem Resift.rsSwap (h : IntHeap) (i j : Nat) (hi : i < h.Keys.length)
    (hj : j < h.Keys.length) : Resift h { h with Keys := swapKeys h.Keys i j } :=
  ⟨rfl, rfl, rfl, rfl, perm_swapKeys _ _ _ hi hj⟩

theorem Resift.rsUsable {a b : IntHeap} (h1 : Resift a b) (hu : a.Usable) : b.Usable := by
  obtain ⟨hc, _, hm, _, hp⟩ := h1
  refine ⟨hm.trans hu.1, fun id hid => ?_⟩
  rw [hc]
  exact hu.2 id (hp.mem_iff.mp hid)

theorem Resift.rsLength {a b : IntHeap} (h1 : Resift a b) : b.Keys.length = a.Keys.length :=
  h1.2.2.2.2.length_eq

theorem keyAt_swap (h : IntHeap) (i j p : Nat) (hi : i < h.Keys.length)
    (hj : j < h.Keys.length) :
    IntHeap.keyAt { h with Keys := swapKeys h.Keys i j } p =
      if p = j then h.keyAt i else if p = i then h.keyAt j else h.keyAt p := by
  simp only [IntHeap.keyAt, getD_swapKeys _ _ _ _ hi hj, IntHeap.load]
  split_ifs <;> rfl


theorem tdiv_parent (j : Nat) : Int.tdiv ((j : Int) - 1) 2 = (((j - 1) / 2 : Nat) : Int) := by
  cases j with
  | zero => decide
  | succ k =>
    have : ((k + 1 : Nat) : Int) - 1 = (k : Int) := by push_cast; ring
    rw [this]
    simp [Int.tdiv]

theorem upLoop_spec : ∀ (fuel : Nat) (h : IntHeap) (j : Nat), h.Usable →
    j < h.Keys.length → j < fuel →
    ∃ h', heap.upLoop fuel h j = Res.ok h' ∧ Resift h h' ∧
      (UpInv h j h.Keys.length → h'.minHeap) := by
  intro fuel
  induction fuel with
  | zero => intro h j _ _ hf; omega
  | succ f ih =>
    intro h j hu hj hf
    unfold heap.upLoop
    simp only [tdiv_parent]
    by_cases h0 : (j - 1) / 2 = j
    · refine ⟨h, ?_, Resift.rsRefl h, ?_⟩
      · rw [if_pos (by exact_mod_cast h0)]
      · intro hinv p hp hp0
        exact hinv.1 p hp hp0 (by omega)
    · rw [if_neg (by exact_mod_cast h0)]
      have hi : (j - 1) / 2 < h.Keys.length := by omega
      rw [Less_ok h j ((j - 1) / 2) hu hj hi]
      simp only [Res.ok_bind]
      by_cases hlt : h.keyAt j < h.keyAt ((j - 1) / 2)
      · simp only [hlt, decide_True, Bool.not_true, Bool.false_eq_true, if_false]
        rw [Swap_ok h ((j - 1) / 2) j hu hi hj]
        simp only [Res.ok_bind]
        have hr := Resift.rsSwap h ((j - 1) / 2) j hi hj
        have hlen := hr.rsLength
        obtain ⟨h', he, hr', hheap⟩ := ih _ ((j - 1) / 2) (hr.rsUsable hu)
          (by rw [hlen]; exact hi) (by omega)
        refine ⟨h', he, hr.rsTrans hr', fun hinv => hheap ?_⟩
        rw [hlen]
        constructor
        · intro p hp hp0 hpi
          rw [keyAt_swap h _ _ _ hi hj, keyAt_swap h _ _ _ hi hj]
          by_cases c1 : p = j
          · subst c1
            simp only [if_true, if_neg h0]
            omega
          · rw [if_neg c1, if_neg hpi]
            by_cases c2 : (p - 1) / 2 = j
            · rw [if_pos c2]
              exact hinv.2 p hp hp0 c2 (by omega)
            · rw [if_neg c2]
              by_cases c3 : (p - 1) / 2 = (j - 1) / 2
              · rw [if_pos c3]
                have := hinv.1 p hp hp0 c1
                rw [c3] at this
                omega
              · rw [if_neg c3]
                exact hinv.1 p hp hp0 c1
        · intro p hp hp0 hpar hi0
          rw [keyAt_swap h _ _ _ hi hj, keyAt_swap h _ _ _ hi hj]
          have g1 : ((j - 1) / 2 - 1) / 2 ≠ j := by omega
          have g2 : ((j - 1) / 2 - 1) / 2 ≠ (j - 1) / 2 := by omega
          rw [if_neg g1, if_neg g2]
          have hg := hinv.1 ((j - 1) / 2) hi hi0 h0
          by_cases c1 : p = j
          · rw [if_pos c1]; exact hg
          · rw [if_neg c1, if_neg (by omega)]
            have := hinv.1 p hp hp0 c1
            rw [hpar] at this
            omega
      · simp only [hlt, decide_False, Bool.not_false, if_true]
        refine ⟨h, rfl, Resift.rsRefl h, ?_⟩
        intro hinv p hp hp0
        by_cases c1 : p = j
        · subst c1; omega
        · exact hinv.1 p hp hp0 c1

theorem downLoop_spec : ∀ (fuel : Nat) (h : IntHeap) (i n : Nat), h.Usable →
    n ≤ h.Keys.length → n ≤ fuel + i → 0 < fuel →
    ∃ h' i', heap.downLoop fuel h i n = Res.ok (h', i') ∧ Resift h h' ∧
      (DownInv h i n → h'.heapUpTo n) ∧
      (∀ p, n ≤ p → h'.Keys.getD p 0 = h.Keys.getD p 0) ∧ (i : Int) ≤ i' := by
  intro fuel
  induction fuel with
  | zero => intro h i n _ _ _ hf; omega
  | succ f ih =>
    intro h i n hu hn hfuel _
    unfold heap.downLoop
    simp only []
    by_cases hA : n ≤ 2 * i + 1
    · rw [if_pos (by omega)]
      refine ⟨h, i, rfl, Resift.rsRefl h, ?_, fun _ _ => rfl, le_refl _⟩
      intro hinv p hp hp0
      exact hinv.1 p hp hp0 (by omega)
    · rw [if_neg (by omega)]
      have hi : i < h.Keys.length := by omega
      have tail : ∀ j : Nat, j < n → 0 < j → (j - 1) / 2 = i →
          (∀ p < n, 0 < p → (p - 1) / 2 = i → h.keyAt j ≤ h.keyAt p) →
          ∃ h' i', (do
              let lt ← h.Less (j : Int) (i : Int)
              if !lt then pure (h, (i : Int)) else do
                let h1 ← h.Swap (i : Int) (j : Int)
                heap.downLoop f h1 (j : Int) (n : Int)) = Res.ok (h', i') ∧
            Resift h h' ∧ (DownInv h i n → h'.heapUpTo n) ∧
            (∀ p, n ≤ p → h'.Keys.getD p 0 = h.Keys.getD p 0) ∧ (i : Int) ≤ i' := by
        intro j hjn hj0 hpar hmin
        have hj : j < h.Keys.length := by omega
        rw [Less_ok h j i hu hj hi]
        simp only [Res.ok_bind]
        by_cases hlt : h.keyAt j < h.keyAt i
        · simp only [hlt, decide_True, Bool.not_true, Bool.false_eq_true, if_false]
          rw [Swap_ok h i j hu hi hj]
          simp only [Res.ok_bind]
          have hr := Resift.rsSwap h i j hi hj
          have hlen := hr.rsLength
          obtain ⟨h', i', he, hr', hheap, hfix, hle⟩ := ih _ j n (hr.rsUsable hu)
            (by rw [hlen]; exact hn) (by omega) (by omega)
          refine ⟨h', i', he, hr.rsTrans hr', fun hinv => hheap ?_, ?_, by omega⟩
          · constructor
            · intro p hp hp0 hpj
              rw [keyAt_swap h _ _ _ hi hj, keyAt_swap h _ _ _ hi hj]
              rw [if_neg hpj]
              by_cases c1 : p = j
              · rw [if_pos c1, if_pos (by omega)]; omega
              · rw [if_neg c1]
                by_cases c2 : p = i
                · rw [if_pos c2, if_neg (by omega)]
                  subst c2
                  exact hinv.2 j hjn hj0 hpar hp0
                · rw [if_neg c2]
                  by_cases c3 : (p - 1) / 2 = i
                  · rw [if_pos c3]
                    exact hmin p hp hp0 c3
                  · rw [if_neg c3]
                    exact hinv.1 p hp hp0 c3
            · intro p hp hp0 hpj _
              rw [keyAt_swap h _ _ _ hi hj, keyAt_swap h _ _ _ hi hj]
              rw [if_neg (by omega), if_pos (by omega), if_neg (by omega), if_neg (by omega)]
              have := hinv.1 p hp hp0 (by omega)
              rw [hpj] at this
              exact this
          · intro p hp
            rw [hfix p hp]
            show (swapKeys h.Keys i j).getD p 0 = _
            rw [getD_swapKeys _ _ _ _ hi hj, if_neg (by omega), if_neg (by omega)]
        · simp only [hlt, decide_False, Bool.not_false, if_true]
          refine ⟨h, i, rfl, Resift.rsRefl h, ?_, fun _ _ => rfl, le_refl _⟩
          intro hinv p hp hp0
          by_cases c : (p - 1) / 2 = i
          · rw [c]
            have := hmin p hp hp0 c
            omega
          · exact hinv.1 p hp hp0 c
      have e1 : (2 * (i : Int) + 1) = ((2 * i + 1 : Nat) : Int) := by push_cast; ring
      have e2 : (2 * (i : Int) + 1 + 1) = ((2 * i + 2 : Nat) : Int) := by push_cast; ring
      by_cases hB : 2 * i + 2 < n
      · rw [if_pos (by omega)]
        rw [e2, e1, Less_ok h (2 * i + 2) (2 * i + 1) hu (by omega) (by omega)]
        simp only [Res.ok_bind]
        by_cases hr : h.keyAt (2 * i + 2) < h.keyAt (2 * i + 1)
        · simp only [hr, decide_True, if_true]
          apply tail (2 * i + 2) hB (by omega) (by omega)
          intro p hp hp0 hpar
          have : p = 2 * i + 1 ∨ p = 2 * i + 2 := by omega
          rcases this with rfl | rfl <;> omega
        · simp only [hr, decide_False, Bool.false_eq_true, if_false]
          apply tail (2 * i + 1) (by omega) (by omega) (by omega)
          intro p hp hp0 hpar
          have : p = 2 * i + 1 ∨ p = 2 * i + 2 := by omega
          rcases this with rfl | rfl <;> omega
      · rw [if_neg (by omega)]
        simp only [Res.pure_eq, Res.ok_bind, Bool.false_eq_true, if_false]
        rw [e1]
        apply tail (2 * i + 1) (by omega) (by omega) (by omega)
        intro p hp hp0 hpar
        have : p = 2 * i + 1 := by omega
        subst this
        exact le_refl _

theorem down_leaf (h : IntHeap) (i n : Nat) (hleaf : n ≤ 2 * i + 1) :
    heap.down h i n = Res.ok (h, false) := by
  unfold heap.down
  simp only [Int.toNat_ofNat]
  unfold heap.downLoop
  simp only []
  rw [if_pos (by omega)]
  simp

theorem down_spec (h : IntHeap) (i n : Nat) (hu : h.Usable) (hn : n ≤ h.Keys.length) :
    ∃ h' b, heap.down h i n = Res.ok (h', b) ∧ Resift h h' ∧
      (DownInv h i n → h'.heapUpTo n) ∧
      (∀ p, n ≤ p → h'.Keys.getD p 0 = h.Keys.getD p 0) := by
  obtain ⟨h', i', he, hr, hheap, hfix, _⟩ :=
    downLoop_spec (n + 1) h i n hu hn (by omega) (by omega)
  refine ⟨h', decide (i' > (i : Int)), ?_, hr, hheap, hfix⟩
  unfold heap.down
  simp only [Int.toNat_ofNat]
  rw [he]
  rfl

theorem up_spec (h : IntHeap) (j : Nat) (hu : h.Usable) (hj : j < h.Keys.length) :
    ∃ h', heap.up h j = Res.ok h' ∧ Resift h h' ∧
      (UpInv h j h.Keys.length → h'.minHeap) := by
  obtain ⟨h', he, hr, hheap⟩ := upLoop_spec (j + 1) h j hu hj (by omega)
  refine ⟨h', ?_, hr, hheap⟩
  unfold heap.up
  simp only [Int.toNat_ofNat]
  exact he

theorem Fix_frame (h : IntHeap) (i : Nat) (hu : h.Usable) (hi : i < h.Keys.length) :
    ∃ h', heap.Fix h i = Res.ok h' ∧ Resift h h' := by
  obtain ⟨h1, b, he, hr, _, _⟩ := down_spec h i h.Keys.length hu (le_refl _)
  unfold heap.Fix IntHeap.Len
  rw [he]
  simp only [Res.ok_bind]
  cases b with
  | true => exact ⟨h1, rfl, hr⟩
  | false =>
    obtain ⟨h2, he2, hr2, _⟩ := up_spec h1 i (hr.rsUsable hu) (by rw [hr.rsLength]; exact hi)
    exact ⟨h2, by simpa using he2, hr.rsTrans hr2⟩

theorem Fix_last (h : IntHeap) (hu : h.Usable) (hlen : 0 < h.Keys.length) :
    ∃ h', heap.Fix h ((h.Keys.length : Int) - 1) = Res.ok h' ∧ Resift h h' ∧
      (UpInv h (h.Keys.length - 1) h.Keys.length → h'.minHeap) := by
  have e : ((h.Keys.length : Int) - 1) = ((h.Keys.length - 1 : Nat) : Int) := by omega
  rw [e]
  unfold heap.Fix IntHeap.Len
  rw [down_leaf h (h.Keys.length - 1) h.Keys.length (by omega)]
  simp only [Res.ok_bind]
  obtain ⟨h2, he2, hr2, hheap⟩ := up_spec h (h.Keys.length - 1) hu (by omega)
  exact ⟨h2, by simpa using he2, hr2, hheap⟩

theorem load_setCount (h : IntHeap) (id w v : Int) (h0 : 0 ≤ id)
    (h1 : id < h.Count.length) :
    (h.setCount id v).load w = if w = id then v else h.load w := by
  unfold IntHeap.load IntHeap.setCount setIdx
  simp only [if_pos h0, List.getD_eq_getElem?_getD, List.getElem?_set]
  by_cases hw : 0 ≤ w
  · simp only [if_pos hw]
    by_cases e : w = id
    · subst e
      have : w.toNat < h.Count.length := by omega
      simp [this]
    · have : id.toNat ≠ w.toNat := by omega
      simp [this, e]
  · have : w ≠ id := by omega
    simp [hw, this]

theorem length_setIdx {α : Type} (l : List α) (i : Int) (a : α) :
    (setIdx l i a).length = l.length := by
  unfold setIdx
  split <;> simp

theorem nodup_getD_inj (l : List Int) (hnd : l.Nodup) (p q : Nat) (hp : p < l.length)
    (hq : q < l.length) (he : l.getD p 0 = l.getD q 0) : p = q := by
  rw [List.getD_eq_getElem _ _ hp, List.getD_eq_getElem _ _ hq] at he
  exact (List.Nodup.getElem_inj_iff hnd).mp he

theorem root_le_of_minHeap (h : IntHeap) (hm : h.minHeap) :
    ∀ p, p < h.Keys.length → h.keyAt 0 ≤ h.keyAt p := by
  intro p
  induction p using Nat.strong_induction_on with
  | _ p ih =>
    intro hp
    by_cases h0 : p = 0
    · subst h0; exact le_refl _
    · have h1 := hm p hp (by omega)
      have h2 := ih ((p - 1) / 2) (by omega) (by omega)
      omega

theorem root_le_load (h : IntHeap) (hm : h.minHeap) (w : Int) (hw : w ∈ h.Keys) :
    h.load (h.Keys.getD 0 0) ≤ h.load w := by
  obtain ⟨p, hp, rfl⟩ := List.getElem_of_mem hw
  have := root_le_of_minHeap h hm p hp
  unfold IntHeap.keyAt at this
  rwa [List.getD_eq_getElem _ _ hp] at this

theorem pred_cast (n : Nat) (hn : 0 < n) : ((n : Int) - 1) = ((n - 1 : Nat) : Int) := by
  omega

theorem heapPop_prefix (h : IntHeap) (hu : h.Usable) (hlen : 0 < h.Keys.length) :
    ∃ h2, Resift h h2 ∧ h2.Keys.getD (h.Keys.length - 1) 0 = h.Keys.getD 0 0 ∧
      (h.minHeap → h2.heapUpTo (h.Keys.length - 1)) ∧ heap.Pop h = h2.Pop := by
  have hs := Swap_ok h 0 (h.Keys.length - 1) hu hlen (by omega)
  have hr := Resift.rsSwap h 0 (h.Keys.length - 1) hlen (by omega)
  obtain ⟨h2, b, he, hr2, hheap, hfix⟩ :=
    down_spec _ 0 (h.Keys.length - 1) (hr.rsUsable hu) (by rw [hr.rsLength]; omega)
  refine ⟨h2, hr.rsTrans hr2, ?_, ?_, ?_⟩
  · rw [hfix _ (le_refl _)]
    show (swapKeys h.Keys 0 (h.Keys.length - 1)).getD _ 0 = _
    rw [getD_swapKeys _ _ _ _ hlen (by omega), if_pos rfl]
  · intro hm
    apply hheap
    constructor
    · intro p hp hp0 hpar
      rw [keyAt_swap h _ _ _ hlen (by omega), keyAt_swap h _ _ _ hlen (by omega)]
      rw [if_neg (by omega), if_neg hpar, if_neg (by omega), if_neg (by omega)]
      exact hm p (by omega) hp0
    · intro p _ _ _ h00
      omega
  · unfold heap.Pop IntHeap.Len
    simp only []
    rw [pred_cast _ hlen]
    have hs' : h.Swap 0 ((h.Keys.length - 1 : Nat) : Int) = _ := hs
    rw [hs']
    simp only [Res.ok_bind]
    have he' : heap.down { h with Keys := swapKeys h.Keys 0 (h.Keys.length - 1) } 0
        ((h.Keys.length - 1 : Nat) : Int) = _ := he
    rw [he']
    rfl

theorem Pop_unfold (h : IntHeap) (hu : h.Usable) (hlen : 0 < h.Keys.length) :
    h.Pop =
      match mapGet h.KeyMap (h.Keys.getD (h.Keys.length - 1) 0) with
      | none => Res.ok (h, none)
      | some _ =>
        if h.load (h.Keys.getD (h.Keys.length - 1) 0) ≥ h.jobQueuelen then Res.ok (h, none)
        else
          (heap.Fix (h.setCount (h.Keys.getD (h.Keys.length - 1) 0)
            (wrap64 (h.load (h.Keys.getD (h.Keys.length - 1) 0) + 1)))
            ((h.Keys.length : Int) - 1)) >>=
          fun h2 => Res.ok (h2, some (h.Keys.getD (h.Keys.length - 1) 0)) := by
  have hv := hu.2 _ (getD_mem_keys h (h.Keys.length - 1) (by omega))
  unfold IntHeap.Pop
  rw [if_neg (by omega)]
  simp only []
  rw [pred_cast _ hlen, idx_natCast h.Keys _ 0 (by omega)]
  simp only [Res.ok_bind, hu.1, Bool.false_eq_true, if_false]
  cases hk : mapGet h.KeyMap (h.Keys.getD (h.Keys.length - 1) 0) with
  | none => rfl
  | some v =>
    simp only []
    rw [idx_count h _ hv.1 hv.2]
    simp only [Res.ok_bind]
    rfl

theorem setCount_usable (h : IntHeap) (id v : Int) (hu : h.Usable) :
    (h.setCount id v).Usable := by
  refine ⟨hu.1, fun w hw => ?_⟩
  have := hu.2 w hw
  simpa [IntHeap.setCount, length_setIdx] using this

theorem Pop_some (h : IntHeap) (hu : h.Usable) (hlen : 0 < h.Keys.length)
    (hk : (mapGet h.KeyMap (h.Keys.getD (h.Keys.length - 1) 0)).isSome)
    (hlt : h.load (h.Keys.getD (h.Keys.length - 1) 0) < h.jobQueuelen) :
    ∃ h', h.Pop = Res.ok (h', some (h.Keys.getD (h.Keys.length - 1) 0)) ∧
      Resift (h.setCount (h.Keys.getD (h.Keys.length - 1) 0)
        (wrap64 (h.load (h.Keys.getD (h.Keys.length - 1) 0) + 1))) h' ∧
      (UpInv (h.setCount (h.Keys.getD (h.Keys.length - 1) 0)
        (wrap64 (h.load (h.Keys.getD (h.Keys.length - 1) 0) + 1)))
        (h.Keys.length - 1) h.Keys.length → h'.minHeap) := by
  rw [Pop_unfold h hu hlen]
  obtain ⟨v, hv⟩ := Option.isSome_iff_exists.mp hk
  rw [hv]
  simp only []
  rw [if_neg (by omega)]
  obtain ⟨h', he, hr, hheap⟩ := Fix_last _ (setCount_usable h (h.Keys.getD (h.Keys.length - 1) 0)
    (wrap64 (h.load (h.Keys.getD (h.Keys.length - 1) 0) + 1)) hu) hlen
  refine ⟨h', ?_, hr, hheap⟩
  have he' : heap.Fix (h.setCount (h.Keys.getD (h.Keys.length - 1) 0)
      (wrap64 (h.load (h.Keys.getD (h.Keys.length - 1) 0) + 1)))
      ((h.Keys.length : Int) - 1) = Res.ok h' := he
  rw [he']
  rfl

theorem Pop_none (h : IntHeap) (hu : h.Usable) (hlen : 0 < h.Keys.length)
    (hk : mapGet h.KeyMap (h.Keys.getD (h.Keys.length - 1) 0) = none ∨
      h.jobQueuelen ≤ h.load (h.Keys.getD (h.Keys.length - 1) 0)) :
    h.Pop = Res.ok (h, none) := by
  rw [Pop_unfold h hu hlen]
  cases hm : mapGet h.KeyMap (h.Keys.getD (h.Keys.length - 1) 0) with
  | none => rfl
  | some v =>
    rcases hk with hk | hk
    · rw [hm] at hk; cases hk
    · simp only []
      rw [if_pos hk]

theorem wrap64_of_inInt64 (x : Int) (hx : inInt64 x) : wrap64 x = x := by
  unfold inInt64 at hx
  unfold wrap64
  omega

theorem load_mem_count (h : IntHeap) (id : Int) (h0 : 0 ≤ id) (h1 : id < h.Count.length) :
    h.load id ∈ h.Count := by
  have hp : id.toNat < h.Count.length := by omega
  unfold IntHeap.load
  rw [if_pos h0, List.getD_eq_getElem _ _ hp]
  exact List.getElem_mem hp

theorem load_congr (h h' : IntHeap) (hc : h'.Count = h.Count) (w : Int) :
    h'.load w = h.load w := by
  unfold IntHeap.load
  rw [hc]

theorem keyAt_setCount_of_ne (h : IntHeap) (id v : Int) (p : Nat) (h0 : 0 ≤ id)
    (h1 : id < h.Count.length) (hne : h.Keys.getD p 0 ≠ id) :
    (h.setCount id v).keyAt p = h.keyAt p := by
  unfold IntHeap.keyAt
  show (h.setCount id v).load (h.Keys.getD p 0) = _
  rw [load_setCount h id _ v h0 h1, if_neg hne]

/-- The whole of `heap.Pop` on a usable, non-empty heap whose first worker is
known to `KeyMap` and below `jobQueuelen`. -/
theorem heapPop_some (h : IntHeap) (hu : h.Usable) (hlen : 0 < h.Keys.length)
    (hk : (mapGet h.KeyMap (h.Keys.getD 0 0)).isSome)
    (hlt : h.load (h.Keys.getD 0 0) < h.jobQueuelen) :
    ∃ h', heap.Pop h = Res.ok (h', some (h.Keys.getD 0 0)) ∧
      Resift (h.setCount (h.Keys.getD 0 0) (wrap64 (h.load (h.Keys.getD 0 0) + 1))) h' ∧
      (h.minHeap → h.Keys.Nodup → h'.minHeap) := by
  obtain ⟨h2, hr, hlast, hup, hpop⟩ := heapPop_prefix h hu hlen
  have hu2 := hr.rsUsable hu
  have hl2 := hr.rsLength
  have hlast2 : h2.Keys.getD (h2.Keys.length - 1) 0 = h.Keys.getD 0 0 := by rw [hl2]; exact hlast
  have hload : ∀ w, h2.load w = h.load w := load_congr h h2 hr.1
  obtain ⟨h', he, hr', hheap⟩ := Pop_some h2 hu2 (by omega)
    (by rw [hlast2, hr.2.1]; exact hk) (by rw [hlast2, hload, hr.2.2.2.1]; exact hlt)
  rw [hlast2] at he
  rw [hlast2, hload] at hr' hheap
  have hv := hu.2 _ (getD_mem_keys h 0 hlen)
  refine ⟨h', hpop.trans he, ?_, ?_⟩
  · obtain ⟨a, b, c, d, e⟩ := hr'
    obtain ⟨a2, b2, c2, d2, e2⟩ := hr
    refine ⟨?_, ?_, ?_, ?_, ?_⟩
    · rw [a]; show setIdx h2.Count _ _ = setIdx h.Count _ _; rw [a2]
    · rw [b]; exact b2
    · rw [c]; exact c2
    · rw [d]; exact d2
    · exact e.trans e2
  · intro hm hnd
    apply hheap
    have hnd2 : h2.Keys.Nodup := hr.2.2.2.2.nodup_iff.mpr hnd
    have hc2 : (h.Keys.getD 0 0) < h2.Count.length := by rw [hr.1]; exact hv.2
    have key : ∀ p, p < h2.Keys.length - 1 →
        (h2.setCount (h.Keys.getD 0 0) (wrap64 (h.load (h.Keys.getD 0 0) + 1))).keyAt p =
          h2.keyAt p := by
      intro p hp
      apply keyAt_setCount_of_ne h2 _ _ p hv.1 hc2
      intro hEq
      have := nodup_getD_inj h2.Keys hnd2 p (h2.Keys.length - 1) (by omega) (by omega)
        (by rw [hEq, hlast2])
      omega
    constructor
    · intro p hp hp0 hpn
      rw [key p (by omega), key ((p - 1) / 2) (by omega)]
      exact hup hm p (by omega) hp0
    · intro p hp hp0 hpar _
      omega

/-! ## What the sifting loops never touch -/

theorem Res.bind_eq_ok {α β : Type} (x : Res α) (f : α → Res β) (b : β)
    (h : (x >>= f) = Res.ok b) : ∃ a, x = Res.ok a ∧ f a = Res.ok b := by
  cases x with
  | ok a => exact ⟨a, rfl, h⟩
  | panic => cases h
  | blocked => cases h
  | fuel => cases h

theorem SameButKeys.sbRefl (h : IntHeap) : SameButKeys h h := ⟨rfl, rfl, rfl, rfl⟩

theorem SameButKeys.sbTrans {a b c : IntHeap} (h1 : SameButKeys a b) (h2 : SameButKeys b c) :
    SameButKeys a c :=
  ⟨h2.1.trans h1.1, h2.2.1.trans h1.2.1, h2.2.2.1.trans h1.2.2.1, h2.2.2.2.trans h1.2.2.2⟩

theorem Swap_same (h h' : IntHeap) (i j : Int) (hs : h.Swap i j = Res.ok h') :
    SameButKeys h h' := by
  unfold IntHeap.Swap at hs
  split at hs
  · cases hs
  · obtain ⟨a, _, hs⟩ := Res.bind_eq_ok _ _ _ hs
    obtain ⟨b, _, hs⟩ := Res.bind_eq_ok _ _ _ hs
    cases hs
    exact ⟨rfl, rfl, rfl, rfl⟩

theorem downLoop_same : ∀ (fuel : Nat) (h h' : IntHeap) (i n i' : Int),
    heap.downLoop fuel h i n = Res.ok (h', i') → SameButKeys h h' := by
  intro fuel
  induction fuel with
  | zero => intro h h' i n i' hd; cases hd
  | succ f ih =>
    intro h h' i n i' hd
    unfold heap.downLoop at hd
    simp only [] at hd
    split at hd
    · cases hd; exact SameButKeys.sbRefl h
    · split at hd
      · obtain ⟨right, _, hd⟩ := Res.bind_eq_ok _ _ _ hd
        obtain ⟨lt, _, hd⟩ := Res.bind_eq_ok _ _ _ hd
        split at hd
        · cases hd; exact SameButKeys.sbRefl h
        · obtain ⟨h1, hs, hd⟩ := Res.bind_eq_ok _ _ _ hd
          exact (Swap_same _ _ _ _ hs).sbTrans (ih _ _ _ _ _ hd)
      · obtain ⟨right, _, hd⟩ := Res.bind_eq_ok _ _ _ hd
        obtain ⟨lt, _, hd⟩ := Res.bind_eq_ok _ _ _ hd
        split at hd
        · cases hd; exact SameButKeys.sbRefl h
        · obtain ⟨h1, hs, hd⟩ := Res.bind_eq_ok _ _ _ hd
          exact (Swap_same _ _ _ _ hs).sbTrans (ih _ _ _ _ _ hd)

theorem down_same (h h' : IntHeap) (i n : Int) (b : Bool)
    (hd : heap.down h i n = Res.ok (h', b)) : SameButKeys h h' := by
  unfold heap.down at hd
  obtain ⟨⟨h1, i1⟩, hl, hd⟩ := Res.bind_eq_ok _ _ _ hd
  cases hd
  exact downLoop_same _ _ _ _ _ _ hl

theorem Pop_none_same (h h' : IntHeap) (hp : h.Pop = Res.ok (h', none)) : h' = h := by
  unfold IntHeap.Pop at hp
  split at hp
  · cases hp; rfl
  · simp only [] at hp
    obtain ⟨id, _, hp⟩ := Res.bind_eq_ok _ _ _ hp
    split at hp
    · cases hp
    · split at hp
      · cases hp; rfl
      · obtain ⟨c, _, hp⟩ := Res.bind_eq_ok _ _ _ hp
        split at hp
        · cases hp; rfl
        · obtain ⟨h2, _, hp⟩ := Res.bind_eq_ok _ _ _ hp
          cases hp

/-- When `heap.Pop` returns no worker, only `Keys` may have changed. -/
theorem heapPop_none_same (h h' : IntHeap) (hp : heap.Pop h = Res.ok (h', none)) :
    SameButKeys h h' := by
  unfold heap.Pop at hp
  simp only [] at hp
  obtain ⟨h1, hs, hp⟩ := Res.bind_eq_ok _ _ _ hp
  obtain ⟨⟨h2, b⟩, hd, hp⟩ := Res.bind_eq_ok _ _ _ hp
  simp only [] at hp
  have := Pop_none_same h2 h' hp
  subst this
  exact (Swap_same _ _ _ _ hs).sbTrans (down_same _ _ _ _ _ hd)

theorem idx_ok_range {α : Type} (l : List α) (i : Int) (a : α) (h : idx l i = Res.ok a) :
    0 ≤ i ∧ i < l.length := by
  unfold idx at h
  by_cases h0 : 0 ≤ i
  · rw [if_pos h0] at h
    refine ⟨h0, ?_⟩
    by_contra hlt
    have : l.length ≤ i.toNat := by omega
    rw [List.getElem?_eq_none this] at h
    cases h
  · rw [if_neg h0] at h
    cases h

theorem idx_setIdx_same {α : Type} (l : List α) (i : Int) (a : α) (h0 : 0 ≤ i)
    (h1 : i < l.length) : idx (setIdx l i a) i = Res.ok a := by
  have hp : i.toNat < l.length := by omega
  unfold idx setIdx
  simp [h0, hp]

theorem Fix_frame_int (h : IntHeap) (i : Int) (hu : h.Usable) (h0 : 0 ≤ i)
    (h1 : i < h.Keys.length) : ∃ h', heap.Fix h i = Res.ok h' ∧ Resift h h' := by
  have := Fix_frame h i.toNat hu (by omega)
  rwa [Int.toNat_of_nonneg h0] at this

/-- `Add` and `Done`: the counter of `n` moves by `d`, then `Keys` is re-sifted at
the position `KeyMap` gives, if any. -/
theorem Add_spec (h : IntHeap) (n : Int) (hu : h.Usable) (h0 : 0 ≤ n)
    (h1 : n < h.Count.length)
    (hk : ∀ index, mapGet h.KeyMap n = some index → 0 ≤ index ∧ index < h.Keys.length) :
    ∃ h', h.Add n = Res.ok h' ∧ Resift (h.setCount n (wrap64 (h.load n + 1))) h' := by
  unfold IntHeap.Add
  rw [idx_count h n h0 h1]
  simp only [Res.ok_bind]
  show ∃ h', (match mapGet h.KeyMap n with
    | none => pure (h.setCount n (wrap64 (h.load n + 1)))
    | some index => heap.Fix (h.setCount n (wrap64 (h.load n + 1))) index) = Res.ok h' ∧ _
  cases hm : mapGet h.KeyMap n with
  | none => exact ⟨_, rfl, Resift.rsRefl _⟩
  | some index =>
    have := hk index hm
    exact Fix_frame_int _ index (setCount_usable h _ _ hu) this.1 this.2

theorem Done_spec (h : IntHeap) (n : Int) (hu : h.Usable) (h0 : 0 ≤ n)
    (h1 : n < h.Count.length)
    (hk : ∀ index, mapGet h.KeyMap n = some index → 0 ≤ index ∧ index < h.Keys.length) :
    ∃ h', h.Done n = Res.ok h' ∧ Resift (h.setCount n (wrap64 (h.load n - 1))) h' := by
  unfold IntHeap.Done
  rw [idx_count h n h0 h1]
  simp only [Res.ok_bind]
  show ∃ h', (match mapGet h.KeyMap n with
    | none => pure (h.setCount n (wrap64 (h.load n - 1)))
    | some index => heap.Fix (h.setCount n (wrap64 (h.load n - 1))) index) = Res.ok h' ∧ _
  cases hm : mapGet h.KeyMap n with
  | none => exact ⟨_, rfl, Resift.rsRefl _⟩
  | some index =>
    have := hk index hm
    exact Fix_frame_int _ index (setCount_usable h _ _ hu) this.1 this.2

theorem chanSend_ok {α : Type} (ch : List α) (cap : Int) (v : α) (h : (ch.length : Int) < cap) :
    chanSend ch cap v = Res.ok (ch ++ [v]) := by
  unfold chanSend
  rw [if_pos h]

/-- The bookkeeping of worker `n` returns when `canBookkeep` holds and the queue
of `n` can be read. -/
theorem runBookkeeping_ok (lp : ListPool) (n : Int) (q : List TaskOptions)
    (hq : idx lp.task n = Res.ok q) (hb : canBookkeep lp n q) :
    ∃ lp', runBookkeeping lp n = Res.ok lp' := by
  obtain ⟨hroom, hu, h0, h1, hk⟩ := hb
  obtain ⟨hd, he, _⟩ := Done_spec lp.heap n hu h0 h1 hk
  have hpub : ∃ lp1, runPublish lp n = Res.ok lp1 ∧ lp1.heap = lp.heap := by
    unfold runPublish
    cases hcl : lp.close with
    | true => exact ⟨lp, rfl, rfl⟩
    | false =>
      obtain ⟨hr1, hr2⟩ := hroom hcl
      simp only [Bool.not_false, if_true, hq, Res.ok_bind]
      by_cases hlen : q.length = 0
      · rw [if_pos hlen, chanSend_ok _ _ _ (hr1 hlen)]
        exact ⟨_, rfl, rfl⟩
      · rw [if_neg hlen, chanSend_ok _ _ _ (hr2 hlen)]
        exact ⟨_, rfl, rfl⟩
  obtain ⟨lp1, hp1, hh⟩ := hpub
  unfold runBookkeeping
  rw [hp1]
  simp only [Res.ok_bind, hh, he]
  exact ⟨_, rfl⟩

/-- The whole of `heap.Pop` on a usable, non-empty heap whose first worker is
unknown to `KeyMap` or has reached `jobQueuelen`: no worker, only `Keys`
rearranged. -/
theorem heapPop_none (h : IntHeap) (hu : h.Usable) (hlen : 0 < h.Keys.length)
    (hk : mapGet h.KeyMap (h.Keys.getD 0 0) = none ∨
      h.jobQueuelen ≤ h.load (h.Keys.getD 0 0)) :
    ∃ h', heap.Pop h = Res.ok (h', none) ∧ Resift h h' := by
  obtain ⟨h2, hr, hlast, _, hpop⟩ := heapPop_prefix h hu hlen
  have hlast2 : h2.Keys.getD (h2.Keys.length - 1) 0 = h.Keys.getD 0 0 := by
    rw [hr.rsLength]; exact hlast
  refine ⟨h2, ?_, hr⟩
  rw [hpop]
  apply Pop_none h2 (hr.rsUsable hu) (by rw [hr.rsLength]; exact hlen)
  rw [hlast2, hr.2.1, hr.2.2.2.1, load_congr h h2 hr.1]
  exact hk

/-! ## The invariant of the runs of the pool (C8) -/

theorem queued_setIdx (lp lp' : ListPool) (n w : Int) (x : List TaskOptions)
    (ht : lp'.task = setIdx lp.task n x) (h0 : 0 ≤ n) (h1 : n < lp.task.length)
    (hw : 0 ≤ w) : lp'.queued w = if w = n then (x.length : Int) else lp.queued w := by
  unfold ListPool.queued
  rw [ht]
  unfold setIdx
  simp only [if_pos h0, List.getD_eq_getElem?_getD, List.getElem?_set]
  by_cases e : w = n
  · subst e
    have : w.toNat < lp.task.length := by omega
    simp [this]
  · have : n.toNat ≠ w.toNat := by omega
    simp [this, e]

theorem queued_of_idx (lp : ListPool) (n : Int) (x : List TaskOptions)
    (h : idx lp.task n = Res.ok x) : lp.queued n = x.length := by
  have hr := idx_ok_range _ _ _ h
  rw [idx_of_range lp.task n [] hr.1 hr.2] at h
  cases h
  rfl

theorem queued_congr (lp lp' : ListPool) (ht : lp'.task = lp.task) (w : Int) :
    lp'.queued w = lp.queued w := by
  unfold ListPool.queued
  rw [ht]

/-- The invariant only looks at `δ` pointwise. -/
theorem PoolInv.delta_congr {N : Nat} {q : Int} {lp : ListPool} {δ δ' : Int → Int}
    (h : PoolInv N q lp δ) (hd : ∀ w, δ w = δ' w) : PoolInv N q lp δ' := by
  have : δ = δ' := funext hd
  rw [← this]
  exact h

/-- A receive from `idle` or `idleRun` keeps the invariant. -/
theorem PoolInv.recv {N : Nat} {q : Int} {lp : ListPool} {δ : Int → Int}
    (h : PoolInv N q lp δ) (idle idleRun : List Int) (hi : ∀ w ∈ idle, w ∈ lp.idle)
    (hr : ∀ w ∈ idleRun, w ∈ lp.idleRun) :
    PoolInv N q { lp with idle := idle, idleRun := idleRun } δ :=
  { h with
    idleIds := fun w hw => h.idleIds w (hi w hw)
    idleRunIds := fun w hw => h.idleRunIds w (hr w hw) }

/-- A send of a valid id to `idle` or `idleRun` keeps the invariant. -/
theorem PoolInv.publish {N : Nat} {q : Int} {lp : ListPool} {δ : Int → Int}
    (h : PoolInv N q lp δ) (idle idleRun : List Int) (n : Int) (h0 : 0 ≤ n) (h1 : n < N)
    (hi : ∀ w ∈ idle, w ∈ lp.idle ∨ w = n) (hr : ∀ w ∈ idleRun, w ∈ lp.idleRun ∨ w = n) :
    PoolInv N q { lp with idle := idle, idleRun := idleRun } δ :=
  { h with
    idleIds := fun w hw => by
      rcases hi w hw with h2 | h2
      · exact h.idleIds w h2
      · subst h2; exact ⟨h0, h1⟩
    idleRunIds := fun w hw => by
      rcases hr w hw with h2 | h2
      · exact h.idleRunIds w h2
      · subst h2; exact ⟨h0, h1⟩ }

/-- A re-sift of the heap keeps the invariant. -/
theorem PoolInv.resift {N : Nat} {q : Int} {lp : ListPool} {δ : Int → Int}
    (h : PoolInv N q lp δ) (h' : IntHeap) (hr : Resift lp.heap h') :
    PoolInv N q { lp with heap := h' } δ :=
  { h with
    countLen := by show h'.Count.length = N; rw [hr.1]; exact h.countLen
    heapQ := by show h'.jobQueuelen = q; rw [hr.2.2.2.1]; exact h.heapQ
    usable := hr.rsUsable h.usable
    keysPos := by show 0 < h'.Keys.length; rw [hr.rsLength]; exact h.keysPos
    keyMap := fun w hw0 hw1 => by
      show mapGet h'.KeyMap w = some 0
      rw [hr.2.1]; exact h.keyMap w hw0 hw1
    loadEq := fun w hw0 hw1 => by
      show h'.load w = _
      rw [load_congr lp.heap h' hr.1]
      exact h.loadEq w hw0 hw1 }

/-- The counter of worker `n` moved by `d`, then a re-sift: `δ` moves by `d` at
`n`. -/
theorem PoolInv.bump {N : Nat} {q : Int} {lp : ListPool} {δ : Int → Int}
    (h : PoolInv N q lp δ) (n d : Int) (h' : IntHeap) (h0 : 0 ≤ n) (h1 : n < N)
    (hrange : inInt64 (lp.heap.load n + d))
    (hr : Resift (lp.heap.setCount n (wrap64 (lp.heap.load n + d))) h') :
    PoolInv N q { lp with heap := h' } (fun w => δ w + d * unitAt n w) := by
  have hc : n < lp.heap.Count.length := by rw [h.countLen]; exact h1
  rw [wrap64_of_inInt64 _ hrange] at hr
  have hb : PoolInv N q { lp with heap := lp.heap.setCount n (lp.heap.load n + d) }
      (fun w => δ w + d * unitAt n w) :=
    { h with
      countLen := by
        show (setIdx lp.heap.Count n _).length = N
        rw [length_setIdx]; exact h.countLen
      usable := setCount_usable _ _ _ h.usable
      loadEq := fun w hw0 hw1 => by
        have e0 := h.loadEq w hw0 hw1
        show (lp.heap.setCount n (lp.heap.load n + d)).load w =
          lp.queued w + (δ w + d * unitAt n w)
        rw [load_setCount lp.heap n w _ h0 hc]
        unfold unitAt
        by_cases e : w = n
        · subst e
          rw [if_pos rfl, if_pos rfl]
          linarith
        · rw [if_neg e, if_neg e]
          linarith }
  exact hb.resift h' hr

/-- A descriptor sent to the queue of worker `n`: `δ` goes down by one at `n`. -/
theorem PoolInv.send {N : Nat} {q : Int} {lp : ListPool} {δ : Int → Int}
    (h : PoolInv N q lp δ) (n : Int) (qu : List TaskOptions) (x : TaskOptions)
    (hq : idx lp.task n = Res.ok qu) (hroom : (qu.length : Int) < q + 1) :
    PoolInv N q { lp with task := setIdx lp.task n (qu ++ [x]) }
      (fun w => δ w - unitAt n w) := by
  have hr := idx_ok_range _ _ _ hq
  have hqn := queued_of_idx lp n qu hq
  have key : ∀ w : Int, 0 ≤ w →
      ListPool.queued { lp with task := setIdx lp.task n (qu ++ [x]) } w =
        if w = n then ((qu ++ [x]).length : Int) else lp.queued w :=
    fun w hw => queued_setIdx lp _ n w (qu ++ [x]) rfl hr.1 hr.2 hw
  exact
    { h with
      taskLen := by
        show (setIdx lp.task n (qu ++ [x])).length = N
        rw [length_setIdx]; exact h.taskLen
      loadEq := fun w hw0 hw1 => by
        have e0 := h.loadEq w hw0 hw1
        show lp.heap.load w = _ + (δ w - unitAt n w)
        rw [key w hw0]
        unfold unitAt
        by_cases e : w = n
        · subst e
          rw [if_pos rfl, if_pos rfl]
          simp only [List.length_append, List.length_singleton, Nat.cast_add, Nat.cast_one]
          linarith
        · rw [if_neg e, if_neg e]
          linarith
      queueCap := fun w hw0 hw1 => by
        have e0 := h.queueCap w hw0 hw1
        rw [key w hw0]
        by_cases e : w = n
        · rw [if_pos e]
          simp only [List.length_append, List.length_singleton, Nat.cast_add, Nat.cast_one]
          omega
        · rw [if_neg e]
          exact e0 }

/-- A descriptor taken from the queue of worker `n`: `δ` goes up by one at `n`. -/
theorem PoolInv.take {N : Nat} {q : Int} {lp : ListPool} {δ : Int → Int}
    (h : PoolInv N q lp δ) (n v : Int) (f : TaskOptions) (rest : List TaskOptions)
    (hq : idx lp.task n = Res.ok (f :: rest)) :
    PoolInv N q { lp with task := setIdx lp.task n rest, numCount := setIdx lp.numCount n v }
      (fun w => δ w + unitAt n w) := by
  have hr := idx_ok_range _ _ _ hq
  have hqn := queued_of_idx lp n _ hq
  have key : ∀ w : Int, 0 ≤ w →
      ListPool.queued { lp with task := setIdx lp.task n rest,
                                numCount := setIdx lp.numCount n v } w =
        if w = n then (rest.length : Int) else lp.queued w :=
    fun w hw => queued_setIdx lp _ n w rest rfl hr.1 hr.2 hw
  exact
    { h with
      taskLen := by
        show (setIdx lp.task n rest).length = N
        rw [length_setIdx]; exact h.taskLen
      numLen := by
        show (setIdx lp.numCount n v).length = N
        rw [length_setIdx]; exact h.numLen
      loadEq := fun w hw0 hw1 => by
        have e0 := h.loadEq w hw0 hw1
        show lp.heap.load w = _ + (δ w + unitAt n w)
        rw [key w hw0]
        unfold unitAt
        by_cases e : w = n
        · subst e
          rw [if_pos rfl, if_pos rfl]
          simp only [List.length_cons, Nat.cast_add, Nat.cast_one] at hqn
          linarith
        · rw [if_neg e, if_neg e]
          linarith
      queueCap := fun w hw0 hw1 => by
        have e0 := h.queueCap w hw0 hw1
        rw [key w hw0]
        by_cases e : w = n
        · subst e
          rw [if_pos rfl]
          simp only [List.length_cons, Nat.cast_add, Nat.cast_one] at hqn
          omega
        · rw [if_neg e]
          exact e0 }

/-- What `heap.Pop` does to a usable, non-empty heap. -/
theorem heapPop_effect (h h1 : IntHeap) (w : Option Int) (hu : h.Usable)
    (hpos : 0 < h.Keys.length) (hp : heap.Pop h = Res.ok (h1, w)) :
    (w = none ∧ Resift h h1) ∨
    (∃ id, w = some id ∧ id ∈ h.Keys ∧ h.load id < h.jobQueuelen ∧
      Resift (h.setCount id (wrap64 (h.load id + 1))) h1) := by
  by_cases hc : (mapGet h.KeyMap (h.Keys.getD 0 0)).isSome ∧
      h.load (h.Keys.getD 0 0) < h.jobQueuelen
  · obtain ⟨h', he, hr, _⟩ := heapPop_some h hu hpos hc.1 hc.2
    rw [he] at hp
    cases hp
    exact Or.inr ⟨_, rfl, getD_mem_keys h 0 hpos, hc.2, hr⟩
  · have hk : mapGet h.KeyMap (h.Keys.getD 0 0) = none ∨
        h.jobQueuelen ≤ h.load (h.Keys.getD 0 0) := by
      by_cases hs : (mapGet h.KeyMap (h.Keys.getD 0 0)).isSome
      · right
        by_contra hlt
        exact hc ⟨hs, by omega⟩
      · left
        simpa using hs
    obtain ⟨h', he, hr⟩ := heapPop_none h hu hpos hk
    rw [he] at hp
    cases hp
    exact Or.inl ⟨rfl, hr⟩

theorem chanSend_inv {α : Type} (ch ch' : List α) (cap : Int) (v : α)
    (h : chanSend ch cap v = Res.ok ch') : (ch.length : Int) < cap ∧ ch' = ch ++ [v] := by
  unfold chanSend at h
  split at h
  · cases h
    exact ⟨by assumption, rfl⟩
  · cases h

theorem chanRecv_inv {α : Type} (ch rest : List α) (v : α)
    (h : chanRecv ch = Res.ok (v, rest)) : ch = v :: rest := by
  unfold chanRecv at h
  split at h
  · cases h
  · cases h
    rfl

theorem addTaskPick_inv (N : Nat) (q : Int) (lp lp1 : ListPool) (δ : Int → Int) (n : Int)
    (add : Bool) (h : PoolInv N q lp δ) (hδ : ∀ w, 0 ≤ δ w ∧ δ w ≤ 1)
    (hp : addTaskPick lp = Res.ok (lp1, n, add)) : Picked N q lp1 δ n add := by
  unfold addTaskPick at hp
  split at hp
  · rename_i w rest hidle
    have e := Res.ok.inj hp
    have e1 := congrArg Prod.fst e
    have e2 := congrArg (fun x => x.2.1) e
    have e3 := congrArg (fun x => x.2.2) e
    simp only [] at e1 e2 e3
    subst e1 e2 e3
    refine Or.inl ⟨rfl, ?_, Or.inr (h.idleIds w (by rw [hidle]; exact List.mem_cons_self _ _))⟩
    exact h.recv rest lp.idleRun (fun x hx => by rw [hidle]; exact List.mem_cons_of_mem _ hx)
      (fun x hx => hx)
  · obtain ⟨⟨h1, w⟩, hpop, hp⟩ := Res.bind_eq_ok _ _ _ hp
    simp only [] at hp
    rcases heapPop_effect lp.heap h1 w h.usable h.keysPos hpop with
      ⟨rfl, hr⟩ | ⟨wid, rfl, hid, hlt, hr⟩
    · have e := Res.ok.inj hp
      have e1 := congrArg Prod.fst e
      have e2 := congrArg (fun x => x.2.1) e
      have e3 := congrArg (fun x => x.2.2) e
      simp only [] at e1 e2 e3
      subst e1 e2 e3
      exact Or.inl ⟨rfl, h.resift h1 hr, Or.inl rfl⟩
    · simp only [] at hp
      obtain ⟨⟨tok, rest⟩, hrecv, hp⟩ := Res.bind_eq_ok _ _ _ hp
      have e := Res.ok.inj hp
      have e1 := congrArg Prod.fst e
      have e2 := congrArg (fun x => x.2.1) e
      have e3 := congrArg (fun x => x.2.2) e
      simp only [] at e1 e2 e3
      subst e1 e2 e3
      have hirun := chanRecv_inv _ _ _ hrecv
      have hv := h.usable.2 wid hid
      have hidN : wid < N := by have := h.countLen; omega
      have hl := h.loadEq wid hv.1 hidN
      have hq := h.heapQ
      have hqr := h.qRange
      have hql : 0 ≤ lp.queued wid := by unfold ListPool.queued; omega
      have hdw := hδ wid
      have hb := h.bump wid 1 h1 hv.1 hidN (by unfold inInt64; omega) hr
      have hb' : PoolInv N q { lp with heap := h1 } (fun w => δ w + unitAt wid w) :=
        hb.delta_congr (fun w => by simp)
      exact Or.inr ⟨rfl, hv.1, hidN,
        hb'.recv lp.idle rest (fun x hx => hx)
          (fun x hx => by
            show x ∈ lp.idleRun
            rw [hirun]; exact List.mem_cons_of_mem _ hx)⟩

theorem addTaskWait_inv (N : Nat) (q : Int) (lp1 lp2 : ListPool) (δ : Int → Int)
    (opt : TaskOptions) (n n2 : Int) (add : Bool) (h : Picked N q lp1 δ n add)
    (hw : addTaskWait lp1 opt n = Res.ok (lp2, n2)) : Picked N q lp2 δ n2 add := by
  unfold addTaskWait at hw
  split at hw
  · obtain ⟨⟨w, rest⟩, hrecv, hw⟩ := Res.bind_eq_ok _ _ _ hw
    have e := Res.ok.inj hw
    have e1 := congrArg Prod.fst e
    have e2 := congrArg Prod.snd e
    simp only [] at e1 e2
    subst e1 e2
    have hirun := chanRecv_inv _ _ _ hrecv
    rcases h with ⟨ha, hinv, _⟩ | ⟨_, h0, _, _⟩
    · refine Or.inl ⟨ha, ?_, Or.inr (hinv.idleRunIds w (by rw [hirun]; exact List.mem_cons_self _ _))⟩
      exact hinv.recv lp1.idle rest (fun x hx => hx)
        (fun x hx => by rw [hirun]; exact List.mem_cons_of_mem _ hx)
    · omega
  · cases hw
    exact h

theorem addTaskPublish_inv (N : Nat) (q : Int) (lp lp' : ListPool) (δ : Int → Int)
    (opt : TaskOptions) (n : Int) (add : Bool) (evs : List Event) (r : Option String)
    (h : Picked N q lp δ n add) (hδ : ∀ w, 0 ≤ δ w ∧ δ w ≤ 1) (hsize : q + 2 < 2 ^ 63)
    (hn : n ≠ -1) (hp : addTaskPublish lp opt n add = Res.ok (lp', evs, r)) :
    PoolInv N q lp' δ := by
  unfold addTaskPublish at hp
  obtain ⟨q0, hq0, hp⟩ := Res.bind_eq_ok _ _ _ hp
  obtain ⟨q1, hsend, hp⟩ := Res.bind_eq_ok _ _ _ hp
  obtain ⟨hroom, rfl⟩ := chanSend_inv _ _ _ _ hsend
  simp only [] at hp
  rcases h with ⟨rfl, hinv, hv⟩ | ⟨rfl, h0, h1, hinv⟩
  · have hv' : 0 ≤ n ∧ n < N := by
      rcases hv with hv | hv
      · exact absurd hv hn
      · exact hv
    rw [hinv.qlen] at hroom
    have hs := hinv.send n q0 opt hq0 hroom
    simp only [if_true] at hp
    obtain ⟨h', hadd, hp⟩ := Res.bind_eq_ok _ _ _ hp
    cases hp
    have hc : n < lp.heap.Count.length := by have := hinv.countLen; omega
    obtain ⟨hA, haddA, hr⟩ := Add_spec lp.heap n hinv.usable hv'.1 hc (fun index hi => by
      rw [hinv.keyMap n hv'.1 hv'.2] at hi
      cases hi
      exact ⟨le_refl _, by exact_mod_cast hinv.keysPos⟩)
    have hadd2 : lp.heap.Add n = Res.ok h' := hadd
    rw [haddA] at hadd2
    have ehA : hA = h' := Res.ok.inj hadd2
    subst ehA
    have hl := hs.loadEq n hv'.1 hv'.2
    have hcap := hs.queueCap n hv'.1 hv'.2
    have hqr := hinv.qRange
    have hql : (0 : Int) ≤ lp.queued n := by unfold ListPool.queued; omega
    have hqn := queued_of_idx lp n q0 hq0
    have hqs : ListPool.queued { lp with task := setIdx lp.task n (q0 ++ [opt]) } n =
        lp.queued n + 1 := by
      have hr0 := idx_ok_range _ _ _ hq0
      rw [queued_setIdx lp _ n n (q0 ++ [opt]) rfl hr0.1 hr0.2 hv'.1, if_pos rfl, hqn]
      simp
    have hun : unitAt n n = 1 := by simp [unitAt]
    simp only [hun] at hl
    have hdn := hδ n
    have hl' : lp.heap.load n = lp.queued n + δ n := by
      have : ({ lp with task := setIdx lp.task n (q0 ++ [opt]) } : ListPool).heap.load n =
          lp.heap.load n := rfl
      rw [this, hqs] at hl
      omega
    rw [hqs] at hcap
    have hb := hs.bump n 1 hA hv'.1 hv'.2 (by
      show inInt64 (lp.heap.load n + 1)
      unfold inInt64; omega) hr
    exact hb.delta_congr (fun w => by simp)
  · rw [hinv.qlen] at hroom
    have hs := hinv.send n q0 opt hq0 hroom
    simp only [Bool.false_eq_true, if_false] at hp
    cases hp
    exact hs.delta_congr (fun w => by simp)

/-- `AddTask` keeps the invariant. -/
theorem AddTask_inv (N : Nat) (q : Int) (lp lp' : ListPool) (δ : Int → Int)
    (opt : TaskOptions) (timerFirst : Bool) (evs : List Event) (r : Option String)
    (h : PoolInv N q lp δ) (hδ : ∀ w, 0 ≤ δ w ∧ δ w ≤ 1) (hsize : q + 2 < 2 ^ 63)
    (hp : AddTask lp opt timerFirst = Res.ok (lp', evs, r)) :
    PoolInv N q lp' δ := by
  unfold AddTask at hp
  split at hp
  · have e := congrArg Prod.fst (Res.ok.inj hp)
    simp only [] at e
    subst e
    exact h
  · obtain ⟨⟨lp1, n, add⟩, hpick, hp⟩ := Res.bind_eq_ok _ _ _ hp
    simp only [] at hp
    obtain ⟨⟨lp2, n2⟩, hwait, hp⟩ := Res.bind_eq_ok _ _ _ hp
    simp only [] at hp
    have hpk := addTaskWait_inv N q lp1 lp2 δ opt n n2 add
      (addTaskPick_inv N q lp lp1 δ n add h hδ hpick) hwait
    have htimeout : ∀ lpx, addTaskTimeout lp2 opt = Res.ok (lpx, evs, r) → n2 = -1 →
        PoolInv N q lpx δ := by
      intro lpx ht hn2
      unfold addTaskTimeout at ht
      split at ht
      · cases ht
      · have e := congrArg Prod.fst (Res.ok.inj ht)
        simp only [] at e
        subst e
        rcases hpk with ⟨_, hinv, _⟩ | ⟨_, h0, _, _⟩
        · exact hinv
        · omega
    split at hp
    · rename_i hn2
      split at hp
      · exact htimeout lp' hp hn2
      · rename_i w rest hirun
        split at hp
        · exact htimeout lp' hp hn2
        · rcases hpk with ⟨ha, hinv, _⟩ | ⟨_, h0, _, _⟩
          · have hw := hinv.idleRunIds w (by rw [hirun]; exact List.mem_cons_self _ _)
            refine addTaskPublish_inv N q _ lp' δ opt w add evs r
              (Or.inl ⟨ha, ?_, Or.inr hw⟩) hδ hsize (by omega) hp
            exact hinv.recv lp2.idle rest (fun x hx => hx)
              (fun x hx => by rw [hirun]; exact List.mem_cons_of_mem _ hx)
          · omega
    · rename_i hn2
      exact addTaskPublish_inv N q lp2 lp' δ opt n2 add evs r hpk hδ hsize hn2 hp

/-- The bookkeeping of worker `n` at the end of its task: the counter of `n` is no
longer ahead of its queue. -/
theorem runBookkeeping_inv (N : Nat) (q : Int) (lp lp' : ListPool) (δ : Int → Int) (n : Int)
    (h0 : 0 ≤ n) (h1 : n < N) (h : PoolInv N q lp δ) (hδn : δ n = 1)
    (hp : runBookkeeping lp n = Res.ok lp') :
    PoolInv N q lp' (fun w => δ w - unitAt n w) := by
  unfold runBookkeeping at hp
  obtain ⟨lp1, hpub, hp⟩ := Res.bind_eq_ok _ _ _ hp
  obtain ⟨hd, hdone, hp⟩ := Res.bind_eq_ok _ _ _ hp
  have e := Res.ok.inj hp
  subst e
  have hinv1 : PoolInv N q lp1 δ := by
    unfold runPublish at hpub
    split at hpub
    · obtain ⟨qu, _, hpub⟩ := Res.bind_eq_ok _ _ _ hpub
      split at hpub
      · obtain ⟨idle, hsend, hpub⟩ := Res.bind_eq_ok _ _ _ hpub
        have e := Res.ok.inj hpub
        subst e
        obtain ⟨_, rfl⟩ := chanSend_inv _ _ _ _ hsend
        exact h.publish (lp.idle ++ [n]) lp.idleRun n h0 h1
          (fun w hw => by
            rcases List.mem_append.mp hw with h2 | h2
            · exact Or.inl h2
            · exact Or.inr (List.mem_singleton.mp h2))
          (fun w hw => Or.inl hw)
      · obtain ⟨idleRun, hsend, hpub⟩ := Res.bind_eq_ok _ _ _ hpub
        have e := Res.ok.inj hpub
        subst e
        obtain ⟨_, rfl⟩ := chanSend_inv _ _ _ _ hsend
        exact h.publish lp.idle (lp.idleRun ++ [n]) n h0 h1
          (fun w hw => Or.inl hw)
          (fun w hw => by
            rcases List.mem_append.mp hw with h2 | h2
            · exact Or.inl h2
            · exact Or.inr (List.mem_singleton.mp h2))
    · have e := Res.ok.inj hpub
      subst e
      exact h
  have hc : n < lp1.heap.Count.length := by have := hinv1.countLen; omega
  obtain ⟨hA, hdoneA, hr⟩ := Done_spec lp1.heap n hinv1.usable h0 hc (fun index hi => by
    rw [hinv1.keyMap n h0 h1] at hi
    cases hi
    exact ⟨le_refl _, by exact_mod_cast hinv1.keysPos⟩)
  rw [hdoneA] at hdone
  have ehA : hA = hd := Res.ok.inj hdone
  subst ehA
  have hl := hinv1.loadEq n h0 h1
  have hcap := hinv1.queueCap n h0 h1
  have hqr := hinv1.qRange
  have hql : (0 : Int) ≤ lp1.queued n := by unfold ListPool.queued; omega
  rw [hδn] at hl
  have hb := hinv1.bump n (-1) hA h0 h1 (by unfold inInt64; omega) hr
  exact hb.delta_congr (fun w => by ring)

/-- The receipt of a descriptor by worker `n`: the counter of `n` is now one ahead
of its queue. -/
theorem runReceive_inv (N : Nat) (q : Int) (lp lp1 : ListPool) (δ : Int → Int) (n : Int)
    (f : TaskOptions) (h : PoolInv N q lp δ) (hp : runReceive lp n = Res.ok (lp1, f)) :
    0 ≤ n ∧ n < N ∧ PoolInv N q lp1 (fun w => δ w + unitAt n w) := by
  unfold runReceive at hp
  split at hp
  · rename_i f0 rest hq
    split at hp
    · rename_i c hc
      have e := congrArg Prod.fst (Res.ok.inj hp)
      simp only [] at e
      subst e
      have hr := idx_ok_range _ _ _ hq
      have hN : n < N := by have := h.taskLen; omega
      exact ⟨hr.1, hN, h.take n (wrap64 (c + 1)) f0 rest hq⟩
    · cases hp
  · cases hp
  · cases hp

/-- The end of the task of worker `n` keeps the invariant, the worker no longer
counting as executing. -/
theorem runFinish_inv (N : Nat) (q : Int) (lp lp' : ListPool) (δ : Int → Int) (n : Int)
    (f : TaskOptions) (ctl : Ctl) (h0 : 0 ≤ n) (h1 : n < N) (h : PoolInv N q lp δ)
    (hδn : δ n = 1) (hp : (runFinish lp n f).2 = Res.ok (lp', ctl)) :
    PoolInv N q lp' (fun w => δ w - unitAt n w) := by
  unfold runFinish at hp
  simp only [] at hp
  obtain ⟨lp2, hbk, hp⟩ := Res.bind_eq_ok _ _ _ hp
  have e := congrArg Prod.fst (Res.ok.inj hp)
  simp only [] at e
  subst e
  exact runBookkeeping_inv N q lp lp2 δ n h0 h1 h hδn hbk

/-- The whole task case of worker `n`, taken in one piece, keeps the invariant. -/
theorem runTaskCase_inv (N : Nat) (q : Int) (lp lp' : ListPool) (δ : Int → Int) (n : Int)
    (ctl : Ctl) (h : PoolInv N q lp δ) (hδn : δ n = 0)
    (hp : (runTaskCase lp n).2 = Res.ok (lp', ctl)) : PoolInv N q lp' δ := by
  unfold runTaskCase at hp
  split at hp
  · rename_i lp1 f hrecv
    obtain ⟨h0, h1, hinv1⟩ := runReceive_inv N q lp lp1 δ n f h hrecv
    have hfin := runFinish_inv N q lp1 lp' (fun w => δ w + unitAt n w) n f ctl h0 h1 hinv1
      (by simp [unitAt, hδn]) hp
    exact hfin.delta_congr (fun w => by ring)
  · cases hp
  · cases hp

/-! ## `AddTask` is its operations in sequence -/

theorem addTaskFinish_returned (k : Nat) (lp : ListPool) (opt : TaskOptions) (tf : Bool)
    (evs : List Event) (err : Option String) :
    addTaskFinish k lp opt tf (Call.returned evs err) = Res.ok (lp, evs, err) := by
  cases k <;> rfl

theorem addTaskFinish_pending (k : Nat) (lp : ListPool) (opt : TaskOptions) (tf : Bool)
    (p : Pending) :
    addTaskFinish (k + 1) lp opt tf (Call.pending p) =
      (addTaskAdvance lp opt tf p >>= fun r => addTaskFinish k r.1 opt tf r.2) := rfl

/-- The end of `AddTask`, from the send on, is the operations `send` and `count`. -/
theorem addTaskPublish_steps (k : Nat) (lp : ListPool) (opt : TaskOptions) (tf : Bool)
    (n : Int) (add : Bool) :
    addTaskFinish (k + 2) lp opt tf (Call.pending (Pending.send n add)) =
      addTaskPublish lp opt n add := by
  rw [addTaskFinish_pending]
  unfold addTaskPublish
  simp only [addTaskAdvance]
  cases idx lp.task n with
  | ok q =>
    simp only [Res.ok_bind]
    cases chanSend q (lp.jobQueuelen + 1) opt with
    | ok q1 =>
      simp only [Res.ok_bind]
      cases add with
      | true =>
        simp only [if_true, Res.pure_eq, Res.ok_bind, addTaskFinish_pending, addTaskAdvance]
        cases IntHeap.Add lp.heap n with
        | ok h => simp only [Res.ok_bind, Res.pure_eq, addTaskFinish_returned]
        | panic => rfl
        | blocked => rfl
        | fuel => rfl
      | false =>
        simp only [Bool.false_eq_true, if_false, Res.pure_eq, Res.ok_bind,
          addTaskFinish_returned]
    | panic => rfl
    | blocked => rfl
    | fuel => rfl
  | panic => rfl
  | blocked => rfl
  | fuel => rfl

theorem addTaskTimeout_steps (k : Nat) (lp : ListPool) (opt : TaskOptions) (tf : Bool) :
    ((addTaskTimeout lp opt >>= fun r => (pure (r.1, Call.returned r.2.1 r.2.2) :
        Res (ListPool × Call))) >>= fun r => addTaskFinish k r.1 opt tf r.2) =
      addTaskTimeout lp opt := by
  cases addTaskTimeout lp opt with
  | ok r => simp only [Res.ok_bind, Res.pure_eq, addTaskFinish_returned]
  | panic => rfl
  | blocked => rfl
  | fuel => rfl

/-- The `select` of `AddTask` and what follows it. -/
theorem addTaskSelect_steps (k : Nat) (lp : ListPool) (opt : TaskOptions) (tf : Bool)
    (add : Bool) :
    addTaskFinish (k + 3) lp opt tf (Call.pending (Pending.select add)) =
      (match lp.idleRun with
        | [] => addTaskTimeout lp opt
        | w :: rest =>
          if tf then addTaskTimeout lp opt
          else addTaskPublish { lp with idleRun := rest } opt w add) := by
  rw [addTaskFinish_pending]
  simp only [addTaskAdvance]
  cases hir : lp.idleRun with
  | nil =>
    simp only []
    exact addTaskTimeout_steps _ lp opt tf
  | cons w rest =>
    simp only []
    cases tf with
    | true =>
      simp only [if_true]
      exact addTaskTimeout_steps _ lp opt true
    | false =>
      simp only [Bool.false_eq_true, if_false, Res.ok_bind]
      exact addTaskPublish_steps k _ opt false w add

/-- `AddTask` from the choice of `n` on. -/
theorem addTaskNext_steps (k : Nat) (lp : ListPool) (opt : TaskOptions) (tf : Bool)
    (n : Int) (add : Bool) :
    addTaskFinish (k + 4) lp opt tf (Call.pending (addTaskNext opt n add)) =
      (addTaskWait lp opt n >>= fun r =>
        if r.2 = -1 then
          match r.1.idleRun with
          | [] => addTaskTimeout r.1 opt
          | w :: rest =>
            if tf then addTaskTimeout r.1 opt
            else addTaskPublish { r.1 with idleRun := rest } opt w add
        else addTaskPublish r.1 opt r.2 add) := by
  unfold addTaskNext addTaskWait
  by_cases hc : opt.waitTimeOut = 0 ∧ n = -1
  · rw [if_pos hc, if_pos hc, addTaskFinish_pending]
    simp only [addTaskAdvance]
    cases hir : lp.idleRun with
    | nil => rfl
    | cons w rest =>
      simp only [chanRecv, Res.ok_bind, Res.pure_eq]
      by_cases hw : w = -1
      · rw [if_pos hw, if_pos hw]
        exact addTaskSelect_steps k _ opt tf add
      · rw [if_neg hw, if_neg hw]
        exact addTaskPublish_steps (k + 1) _ opt tf w add
  · rw [if_neg hc, if_neg hc]
    simp only [Res.ok_bind]
    by_cases hn : n = -1
    · rw [if_pos hn, if_pos hn]
      exact addTaskSelect_steps (k + 1) lp opt tf add
    · rw [if_neg hn, if_neg hn]
      exact addTaskPublish_steps (k + 2) lp opt tf n add

/-- `AddTask` is the start of the call followed by its operations, when no worker
takes a step in between. -/
theorem AddTask_steps (lp : ListPool) (opt : TaskOptions) (tf : Bool) :
    AddTask lp opt tf =
      (addTaskEnter lp opt >>= fun r => addTaskFinish 5 r.1 opt tf r.2) := by
  unfold AddTask addTaskEnter addTaskPick
  by_cases ht : opt.task.isNone
  · rw [if_pos ht, if_pos ht]
    rfl
  · rw [if_neg ht, if_neg ht]
    cases hidle : lp.idle with
    | nil =>
      simp only []
      cases hpop : heap.Pop lp.heap with
      | ok r =>
        obtain ⟨h1, w⟩ := r
        cases w with
        | some id =>
          simp only [Res.ok_bind, Res.pure_eq, addTaskFinish_pending, addTaskAdvance]
          cases hir : lp.idleRun with
          | nil => rfl
          | cons tok rest =>
            simp only [chanRecv, Res.ok_bind, Res.pure_eq]
            exact (addTaskNext_steps 0 _ opt tf id false).symm
        | none =>
          simp only [Res.ok_bind, Res.pure_eq]
          exact (addTaskNext_steps 1 _ opt tf (-1) true).symm
      | panic => rfl
      | blocked => rfl
      | fuel => rfl
    | cons w rest =>
      simp only [Res.ok_bind]
      exact (addTaskNext_steps 1 _ opt tf w true).symm

/-! ## The invariant of the runs, step by step -/

theorem busy_range (s : PoolState) (w : Int) : 0 ≤ s.busy w ∧ s.busy w ≤ 1 := by
  unfold PoolState.busy
  split <;> omega

theorem aheadOf_range (call : Option (TaskOptions × Pending)) (w : Int) :
    -1 ≤ aheadOf call w ∧ aheadOf call w ≤ 1 := by
  unfold aheadOf unitAt
  split
  · split <;> omega
  · split <;> omega
  · split <;> omega
  · omega

theorem idx_setIdx {α : Type} (l : List α) (i w : Int) (a : α) (h0 : 0 ≤ i)
    (h1 : i < l.length) : idx (setIdx l i a) w = if w = i then Res.ok a else idx l w := by
  by_cases e : w = i
  · subst e
    rw [if_pos rfl]
    exact idx_setIdx_same l w a h0 h1
  · rw [if_neg e]
    unfold idx setIdx
    rw [if_pos h0]
    by_cases hw : 0 ≤ w
    · have hne : i.toNat ≠ w.toNat := by omega
      simp only [if_pos hw, List.getElem?_set_ne hne]
    · simp only [if_neg hw]

/-- Worker `n` moves on: `busy` changes at `n` only. -/
theorem busy_setIdx (s : PoolState) (lp : ListPool) (call : Option (TaskOptions × Pending))
    (n w : Int) (x : Worker) (h0 : 0 ≤ n) (h1 : n < s.workers.length) :
    PoolState.busy { lp := lp, workers := setIdx s.workers n x, call := call } w =
      if w = n then (match x with | Worker.waiting => 0 | _ => 1) else s.busy w := by
  unfold PoolState.busy
  simp only [idx_setIdx s.workers n w x h0 h1]
  by_cases e : w = n
  · simp only [if_pos e]
    cases x <;> rfl
  · simp only [if_neg e]

theorem addTaskNext_true (opt : TaskOptions) (n : Int) (w : Int) :
    aheadOf (some (opt, addTaskNext opt n true)) w = 0 := by
  unfold addTaskNext
  split
  · rfl
  · split <;> rfl

theorem addTaskNext_false (opt : TaskOptions) (n : Int) (hn : n ≠ -1) :
    addTaskNext opt n false = Pending.send n false := by
  unfold addTaskNext
  rw [if_neg (fun h => hn h.2), if_neg hn]

theorem CallOk_next_true (N : Nat) (q : Int) (lp : ListPool) (opt : TaskOptions) (n : Int)
    (hn : n = -1 ∨ (0 ≤ n ∧ n < N)) :
    CallOk N q lp (some (opt, addTaskNext opt n true)) := by
  unfold addTaskNext
  split
  · rfl
  · split
    · rfl
    · rename_i hne
      rcases hn with hn | hn
      · exact absurd hn hne
      · exact ⟨hn.1, hn.2, fun h => by cases h⟩

/-- The well-formedness of the call looks at the pool through the load counters
only, and survives their decrease. -/
theorem CallOk_mono (N : Nat) (q : Int) (lp lp' : ListPool)
    (call : Option (TaskOptions × Pending))
    (hl : ∀ w, lp'.heap.load w ≤ lp.heap.load w) (h : CallOk N q lp call) :
    CallOk N q lp' call := by
  match call, h with
  | none, _ => trivial
  | some (_, Pending.token n), h => exact ⟨h.1, h.2.1, le_trans (hl n) h.2.2⟩
  | some (_, Pending.slot _), h => exact h
  | some (_, Pending.select _), h => exact h
  | some (_, Pending.send n add), h =>
    exact ⟨h.1, h.2.1, fun ha => le_trans (hl n) (h.2.2 ha)⟩
  | some (_, Pending.count n), h => exact h

/-- The start of a call keeps the invariant. -/
theorem addTaskEnter_inv (N : Nat) (q : Int) (lp lp1 : ListPool) (δ : Int → Int)
    (opt : TaskOptions) (c : Call) (h : PoolInv N q lp δ) (hδ : ∀ w, 0 ≤ δ w ∧ δ w ≤ 1)
    (hp : addTaskEnter lp opt = Res.ok (lp1, c)) :
    PoolInv N q lp1 (fun w => δ w + aheadOf (callOf opt c) w) ∧
      CallOk N q lp1 (callOf opt c) := by
  unfold addTaskEnter at hp
  split at hp
  · have e := Res.ok.inj hp
    have e1 := congrArg Prod.fst e
    have e2 := congrArg Prod.snd e
    simp only [] at e1 e2
    subst e1 e2
    exact ⟨h.delta_congr (fun w => by simp [callOf, aheadOf]), trivial⟩
  · split at hp
    · rename_i w rest hidle
      have e := Res.ok.inj hp
      have e1 := congrArg Prod.fst e
      have e2 := congrArg Prod.snd e
      simp only [] at e1 e2
      subst e1 e2
      have hw := h.idleIds w (by rw [hidle]; exact List.mem_cons_self _ _)
      have hr := h.recv rest lp.idleRun
        (fun x hx => by rw [hidle]; exact List.mem_cons_of_mem _ hx) (fun x hx => hx)
      refine ⟨hr.delta_congr (fun x => ?_), CallOk_next_true N q _ opt w (Or.inr hw)⟩
      simp only [callOf, addTaskNext_true, add_zero]
    · obtain ⟨⟨h1, w⟩, hpop, hp⟩ := Res.bind_eq_ok _ _ _ hp
      simp only [] at hp
      rcases heapPop_effect lp.heap h1 w h.usable h.keysPos hpop with
        ⟨rfl, hr⟩ | ⟨wid, rfl, hid, hlt, hr⟩
      · have e := Res.ok.inj hp
        have e1 := congrArg Prod.fst e
        have e2 := congrArg Prod.snd e
        simp only [] at e1 e2
        subst e1 e2
        refine ⟨(h.resift h1 hr).delta_congr (fun x => ?_),
          CallOk_next_true N q _ opt (-1) (Or.inl rfl)⟩
        simp only [callOf, addTaskNext_true, add_zero]
      · have e := Res.ok.inj hp
        have e1 := congrArg Prod.fst e
        have e2 := congrArg Prod.snd e
        simp only [] at e1 e2
        subst e1 e2
        have hv := h.usable.2 wid hid
        have hidN : wid < N := by have := h.countLen; omega
        have hl := h.loadEq wid hv.1 hidN
        have hq := h.heapQ
        have hqr := h.qRange
        have hql : 0 ≤ lp.queued wid := by unfold ListPool.queued; omega
        have hdw := hδ wid
        have hb := h.bump wid 1 h1 hv.1 hidN (by unfold inInt64; omega) hr
        have hb' : PoolInv N q { lp with heap := h1 }
            (fun w => δ w + aheadOf (callOf opt (Call.pending (Pending.token wid))) w) :=
          hb.delta_congr (fun w => by simp [callOf, aheadOf])
        refine ⟨hb', hv.1, hidN, ?_⟩
        have hl1 := hb'.loadEq wid hv.1 hidN
        have hq1 : ListPool.queued { lp with heap := h1 } wid = lp.queued wid := rfl
        have hu : unitAt wid wid = 1 := by simp [unitAt]
        simp only [callOf, aheadOf, hu, hq1] at hl1
        show h1.load wid ≤ q
        have hl1' : h1.load wid = lp.queued wid + (δ wid + 1) := hl1
        omega

theorem addTaskTimeout_pool (lp : ListPool) (opt : TaskOptions)
    (r : ListPool × List Event × Option String) (hp : addTaskTimeout lp opt = Res.ok r) :
    r.1 = lp := by
  unfold addTaskTimeout at hp
  split at hp
  · cases hp
  · have e := Res.ok.inj hp
    rw [← e]

/-- Every operation of a call keeps the invariant. -/
theorem addTaskAdvance_inv (N : Nat) (q : Int) (lp lp1 : ListPool) (δ : Int → Int)
    (opt : TaskOptions) (tf : Bool) (p : Pending) (c : Call)
    (h : PoolInv N q lp (fun w => δ w + aheadOf (some (opt, p)) w))
    (hok : CallOk N q lp (some (opt, p))) (hδ : ∀ w, 0 ≤ δ w ∧ δ w ≤ 1)
    (hsize : q + 2 < 2 ^ 63) (hp : addTaskAdvance lp opt tf p = Res.ok (lp1, c)) :
    PoolInv N q lp1 (fun w => δ w + aheadOf (callOf opt c) w) ∧
      CallOk N q lp1 (callOf opt c) := by
  cases p with
  | token n =>
    obtain ⟨h0, h1, hload⟩ := hok
    simp only [addTaskAdvance] at hp
    obtain ⟨⟨tok, rest⟩, hrecv, hp⟩ := Res.bind_eq_ok _ _ _ hp
    have e := Res.ok.inj hp
    have e1 := congrArg Prod.fst e
    have e2 := congrArg Prod.snd e
    simp only [] at e1 e2
    subst e1 e2
    have hirun := chanRecv_inv _ _ _ hrecv
    have hr := h.recv lp.idle rest (fun x hx => hx)
      (fun x hx => by rw [hirun]; exact List.mem_cons_of_mem _ hx)
    rw [addTaskNext_false opt n (by omega)]
    exact ⟨hr.delta_congr (fun w => by simp [callOf, aheadOf]), h0, h1, fun _ => hload⟩
  | slot add =>
    have ha : add = true := hok
    subst ha
    simp only [addTaskAdvance] at hp
    obtain ⟨⟨w, rest⟩, hrecv, hp⟩ := Res.bind_eq_ok _ _ _ hp
    have e := Res.ok.inj hp
    have e1 := congrArg Prod.fst e
    have e2 := congrArg Prod.snd e
    simp only [] at e1 e2
    subst e1 e2
    have hirun := chanRecv_inv _ _ _ hrecv
    have hw := h.idleRunIds w (by rw [hirun]; exact List.mem_cons_self _ _)
    have hr := h.recv lp.idle rest (fun x hx => hx)
      (fun x hx => by rw [hirun]; exact List.mem_cons_of_mem _ hx)
    rw [if_neg (by omega)]
    exact ⟨hr.delta_congr (fun x => by simp [callOf, aheadOf]), hw.1, hw.2,
      fun hf => by cases hf⟩
  | select add =>
    have ha : add = true := hok
    subst ha
    have htimeout : ∀ (r : ListPool × List Event × Option String),
        addTaskTimeout lp opt = Res.ok r →
        PoolInv N q r.1 (fun w => δ w + aheadOf (callOf opt (Call.returned r.2.1 r.2.2)) w) ∧
          CallOk N q r.1 (callOf opt (Call.returned r.2.1 r.2.2)) := by
      intro r hr
      rw [addTaskTimeout_pool lp opt r hr]
      exact ⟨h.delta_congr (fun x => by simp [callOf, aheadOf]), trivial⟩
    simp only [addTaskAdvance] at hp
    split at hp
    · obtain ⟨r, hr, hp⟩ := Res.bind_eq_ok _ _ _ hp
      have e := Res.ok.inj hp
      have e1 := congrArg Prod.fst e
      have e2 := congrArg Prod.snd e
      simp only [] at e1 e2
      subst e1 e2
      exact htimeout r hr
    · rename_i w rest hirun
      split at hp
      · obtain ⟨r, hr, hp⟩ := Res.bind_eq_ok _ _ _ hp
        have e := Res.ok.inj hp
        have e1 := congrArg Prod.fst e
        have e2 := congrArg Prod.snd e
        simp only [] at e1 e2
        subst e1 e2
        exact htimeout r hr
      · have e := Res.ok.inj hp
        have e1 := congrArg Prod.fst e
        have e2 := congrArg Prod.snd e
        simp only [] at e1 e2
        subst e1 e2
        have hw := h.idleRunIds w (by rw [hirun]; exact List.mem_cons_self _ _)
        have hr := h.recv lp.idle rest (fun x hx => hx)
          (fun x hx => by rw [hirun]; exact List.mem_cons_of_mem _ hx)
        exact ⟨hr.delta_congr (fun x => by simp [callOf, aheadOf]), hw.1, hw.2,
          fun hf => by cases hf⟩
  | send n add =>
    obtain ⟨h0, h1, hload⟩ := hok
    simp only [addTaskAdvance] at hp
    obtain ⟨q0, hq0, hp⟩ := Res.bind_eq_ok _ _ _ hp
    obtain ⟨q1, hsend, hp⟩ := Res.bind_eq_ok _ _ _ hp
    obtain ⟨hroom, rfl⟩ := chanSend_inv _ _ _ _ hsend
    have e := Res.ok.inj hp
    have e1 := congrArg Prod.fst e
    have e2 := congrArg Prod.snd e
    simp only [] at e1 e2
    subst e1 e2
    rw [h.qlen] at hroom
    have hs := h.send n q0 opt hq0 hroom
    cases add with
    | true =>
      refine ⟨hs.delta_congr (fun x => ?_), h0, h1⟩
      simp only [callOf, aheadOf, if_true]
      ring
    | false =>
      refine ⟨hs.delta_congr (fun x => ?_), trivial⟩
      simp only [callOf, aheadOf, Bool.false_eq_true, if_false]
      ring
  | count n =>
    obtain ⟨h0, h1⟩ := hok
    simp only [addTaskAdvance] at hp
    obtain ⟨h', hadd, hp⟩ := Res.bind_eq_ok _ _ _ hp
    have e := Res.ok.inj hp
    have e1 := congrArg Prod.fst e
    have e2 := congrArg Prod.snd e
    simp only [] at e1 e2
    subst e1 e2
    have hc : n < lp.heap.Count.length := by have := h.countLen; omega
    obtain ⟨hA, haddA, hr⟩ := Add_spec lp.heap n h.usable h0 hc (fun index hi => by
      rw [h.keyMap n h0 h1] at hi
      cases hi
      exact ⟨le_refl _, by exact_mod_cast h.keysPos⟩)
    rw [haddA] at hadd
    have ehA : hA = h' := Res.ok.inj hadd
    subst ehA
    have hl := h.loadEq n h0 h1
    have hcap := h.queueCap n h0 h1
    have hqr := h.qRange
    have hql : (0 : Int) ≤ lp.queued n := by unfold ListPool.queued; omega
    have hdn := hδ n
    have hun : unitAt n n = 1 := by simp [unitAt]
    simp only [aheadOf, hun] at hl
    have hb := h.bump n 1 hA h0 h1 (by unfold inInt64; omega) hr
    refine ⟨hb.delta_congr (fun x => ?_), trivial⟩
    simp only [callOf, aheadOf]
    ring

theorem runReceive_heap (lp lp1 : ListPool) (n : Int) (f : TaskOptions)
    (hp : runReceive lp n = Res.ok (lp1, f)) : lp1.heap = lp.heap := by
  unfold runReceive at hp
  split at hp
  · split at hp
    · have e := congrArg Prod.fst (Res.ok.inj hp)
      simp only [] at e
      subst e
      rfl
    · cases hp
  · cases hp
  · cases hp

/-- The publication of the deferred function keeps the invariant and the heap. -/
theorem runPublish_inv (N : Nat) (q : Int) (lp lp1 : ListPool) (δ : Int → Int) (n : Int)
    (h0 : 0 ≤ n) (h1 : n < N) (h : PoolInv N q lp δ) (hpub : runPublish lp n = Res.ok lp1) :
    PoolInv N q lp1 δ ∧ lp1.heap = lp.heap := by
  unfold runPublish at hpub
  split at hpub
  · obtain ⟨qu, _, hpub⟩ := Res.bind_eq_ok _ _ _ hpub
    split at hpub
    · obtain ⟨idle, hsend, hpub⟩ := Res.bind_eq_ok _ _ _ hpub
      have e := Res.ok.inj hpub
      subst e
      obtain ⟨_, rfl⟩ := chanSend_inv _ _ _ _ hsend
      exact ⟨h.publish (lp.idle ++ [n]) lp.idleRun n h0 h1
        (fun w hw => by
          rcases List.mem_append.mp hw with h2 | h2
          · exact Or.inl h2
          · exact Or.inr (List.mem_singleton.mp h2))
        (fun w hw => Or.inl hw), rfl⟩
    · obtain ⟨idleRun, hsend, hpub⟩ := Res.bind_eq_ok _ _ _ hpub
      have e := Res.ok.inj hpub
      subst e
      obtain ⟨_, rfl⟩ := chanSend_inv _ _ _ _ hsend
      exact ⟨h.publish lp.idle (lp.idleRun ++ [n]) n h0 h1
        (fun w hw => Or.inl hw)
        (fun w hw => by
          rcases List.mem_append.mp hw with h2 | h2
          · exact Or.inl h2
          · exact Or.inr (List.mem_singleton.mp h2)), rfl⟩
  · have e := Res.ok.inj hpub
    subst e
    exact ⟨h, rfl⟩

/-- The call `lp.heap.Done(n)` of a worker that had received a descriptor: its
counter goes down by one, no counter goes up. -/
theorem heapDone_inv (N : Nat) (q : Int) (lp : ListPool) (hd : IntHeap) (δ : Int → Int)
    (n : Int) (h0 : 0 ≤ n) (h1 : n < N) (h : PoolInv N q lp δ)
    (hrange : inInt64 (lp.heap.load n - 1)) (hdone : lp.heap.Done n = Res.ok hd) :
    PoolInv N q { lp with heap := hd } (fun w => δ w - unitAt n w) ∧
      ∀ w, hd.load w ≤ lp.heap.load w := by
  have hc : n < lp.heap.Count.length := by have := h.countLen; omega
  obtain ⟨hA, hdoneA, hr⟩ := Done_spec lp.heap n h.usable h0 hc (fun index hi => by
    rw [h.keyMap n h0 h1] at hi
    cases hi
    exact ⟨le_refl _, by exact_mod_cast h.keysPos⟩)
  rw [hdoneA] at hdone
  have ehA : hA = hd := Res.ok.inj hdone
  subst ehA
  have hb := h.bump n (-1) hA h0 h1 hrange hr
  refine ⟨hb.delta_congr (fun w => by ring), fun w => ?_⟩
  have hw64 : wrap64 (lp.heap.load n - 1) = lp.heap.load n - 1 := wrap64_of_inInt64 _ hrange
  rw [load_congr _ hA hr.1 w, load_setCount lp.heap n w _ h0 hc, hw64]
  split
  · rename_i e
    rw [e]
    omega
  · exact le_refl _

/-- Every step of a run keeps the invariant. -/
theorem stepPool_inv (N : Nat) (q : Int) (s s' : PoolState) (op : PoolOp)
    (hsize : q + 2 < 2 ^ 63) (h : RunInv N q s) (hp : stepPool s op = Res.ok s') :
    RunInv N q s' := by
  obtain ⟨hlen, hinv, hok⟩ := h
  cases op with
  | addTask opt timerFirst =>
    simp only [stepPool] at hp
    split at hp
    · rename_i hcall
      obtain ⟨⟨lp1, evs, r⟩, hadd, hp⟩ := Res.bind_eq_ok _ _ _ hp
      have e := Res.ok.inj hp
      subst e
      rw [hcall] at hinv
      have hinv0 : PoolInv N q s.lp s.busy := hinv.delta_congr (fun w => by simp [aheadOf])
      have := AddTask_inv N q s.lp lp1 s.busy opt timerFirst evs r hinv0 (busy_range s) hsize
        hadd
      refine ⟨hlen, ?_, ?_⟩
      · show PoolInv N q lp1 (fun w => s.busy w + aheadOf s.call w)
        rw [hcall]
        exact this.delta_congr (fun w => by simp [aheadOf])
      · show CallOk N q lp1 s.call
        rw [hcall]
        trivial
    · cases hp
  | enter opt =>
    simp only [stepPool] at hp
    split at hp
    · rename_i hcall
      obtain ⟨⟨lp1, c⟩, henter, hp⟩ := Res.bind_eq_ok _ _ _ hp
      have e := Res.ok.inj hp
      subst e
      rw [hcall] at hinv
      have hinv0 : PoolInv N q s.lp s.busy := hinv.delta_congr (fun w => by simp [aheadOf])
      obtain ⟨hi1, hc1⟩ := addTaskEnter_inv N q s.lp lp1 s.busy opt c hinv0 (busy_range s) henter
      exact ⟨hlen, hi1, hc1⟩
    · cases hp
  | advance timerFirst =>
    simp only [stepPool] at hp
    split at hp
    · rename_i opt p hcall
      obtain ⟨⟨lp1, c⟩, hadv, hp⟩ := Res.bind_eq_ok _ _ _ hp
      have e := Res.ok.inj hp
      subst e
      rw [hcall] at hinv hok
      obtain ⟨hi1, hc1⟩ := addTaskAdvance_inv N q s.lp lp1 s.busy opt timerFirst p c hinv hok
        (busy_range s) hsize hadv
      exact ⟨hlen, hi1, hc1⟩
    · cases hp
  | receive n =>
    simp only [stepPool] at hp
    split at hp
    · rename_i hrun
      obtain ⟨⟨lp1, f⟩, hrecv, hp⟩ := Res.bind_eq_ok _ _ _ hp
      have e := Res.ok.inj hp
      subst e
      have hr := idx_ok_range _ _ _ hrun
      obtain ⟨h0, h1, hinv1⟩ := runReceive_inv N q s.lp lp1 _ n f hinv hrecv
      have hheap := runReceive_heap s.lp lp1 n f hrecv
      refine ⟨by show (setIdx s.workers n (Worker.executing f)).length = N
                 rw [length_setIdx]; exact hlen, ?_, ?_⟩
      · refine hinv1.delta_congr (fun w => ?_)
        show s.busy w + aheadOf s.call w + unitAt n w =
          PoolState.busy { lp := lp1, workers := setIdx s.workers n (Worker.executing f),
                           call := s.call } w + aheadOf s.call w
        rw [busy_setIdx s lp1 s.call n w (Worker.executing f) hr.1 hr.2]
        unfold unitAt
        by_cases e : w = n
        · subst e
          have hb : s.busy w = 0 := by
            unfold PoolState.busy
            rw [hrun]
          rw [if_pos rfl, if_pos rfl, hb]
          ring
        · rw [if_neg e, if_neg e]
          ring
      · exact CallOk_mono N q s.lp lp1 s.call (fun w => by rw [hheap]) hok
    · cases hp
  | endTask n =>
    simp only [stepPool] at hp
    split at hp
    · rename_i f hrun
      obtain ⟨lp1, hpub, hp⟩ := Res.bind_eq_ok _ _ _ hp
      have e := Res.ok.inj hp
      subst e
      have hr := idx_ok_range _ _ _ hrun
      obtain ⟨hinv1, hheap⟩ := runPublish_inv N q s.lp lp1 _ n hr.1 (by omega) hinv hpub
      refine ⟨by show (setIdx s.workers n Worker.closing).length = N
                 rw [length_setIdx]; exact hlen, ?_, ?_⟩
      · refine hinv1.delta_congr (fun w => ?_)
        show s.busy w + aheadOf s.call w =
          PoolState.busy { lp := lp1, workers := setIdx s.workers n Worker.closing,
                           call := s.call } w + aheadOf s.call w
        rw [busy_setIdx s lp1 s.call n w Worker.closing hr.1 hr.2]
        by_cases e : w = n
        · subst e
          have hb : s.busy w = 1 := by
            unfold PoolState.busy
            rw [hrun]
          rw [if_pos rfl, hb]
        · rw [if_neg e]
      · exact CallOk_mono N q s.lp lp1 s.call (fun w => by rw [hheap]) hok
    · cases hp
  | done n =>
    simp only [stepPool] at hp
    split at hp
    · rename_i hrun
      obtain ⟨hd, hdone, hp⟩ := Res.bind_eq_ok _ _ _ hp
      have e := Res.ok.inj hp
      subst e
      have hr := idx_ok_range _ _ _ hrun
      have hnN : n < N := by omega
      have hb : s.busy n = 1 := by
        unfold PoolState.busy
        rw [hrun]
      have hl := hinv.loadEq n hr.1 hnN
      have hcap := hinv.queueCap n hr.1 hnN
      have hqr := hinv.qRange
      have hql : (0 : Int) ≤ s.lp.queued n := by unfold ListPool.queued; omega
      have ha := aheadOf_range s.call n
      simp only [hb] at hl
      obtain ⟨hinv1, hmono⟩ := heapDone_inv N q s.lp hd _ n hr.1 hnN hinv
        (by unfold inInt64; omega) hdone
      refine ⟨by show (setIdx s.workers n Worker.waiting).length = N
                 rw [length_setIdx]; exact hlen, ?_, ?_⟩
      · refine hinv1.delta_congr (fun w => ?_)
        show s.busy w + aheadOf s.call w - unitAt n w =
          PoolState.busy { lp := { s.lp with heap := hd },
                           workers := setIdx s.workers n Worker.waiting,
                           call := s.call } w + aheadOf s.call w
        rw [busy_setIdx s _ s.call n w Worker.waiting hr.1 hr.2]
        unfold unitAt
        by_cases e : w = n
        · subst e
          rw [if_pos rfl, if_pos rfl, hb]
          ring
        · rw [if_neg e, if_neg e]
          ring
      · exact CallOk_mono N q s.lp _ s.call hmono hok
    · cases hp

/-- Every run keeps the invariant. -/
theorem runPool_inv (N : Nat) (q : Int) (hsize : q + 2 < 2 ^ 63) :
    ∀ (ops : List PoolOp) (s s' : PoolState),
    RunInv N q s → runPool ops s = Res.ok s' → RunInv N q s' := by
  intro ops
  induction ops with
  | nil =>
    intro s s' h hp
    have e := Res.ok.inj hp
    subst e
    exact h
  | cons op ops ih =>
    intro s s' h hp
    unfold runPool at hp
    obtain ⟨s1, hstep, hp⟩ := Res.bind_eq_ok _ _ _ hp
    exact ih s1 s' (stepPool_inv N q s s1 op hsize h hstep) hp

/-- The state in which `NewPool` leaves the pool satisfies the invariant of the
runs, once the pool does. -/
theorem start_inv (N : Nat) (q : Int) (lp : ListPool) (h : PoolInv N q lp (fun _ => 0)) :
    RunInv N q (PoolState.start lp) := by
  refine ⟨by simp [PoolState.start, h.maxP], ?_, trivial⟩
  refine h.delta_congr (fun w => ?_)
  have hb : (PoolState.start lp).busy w = 0 := by
    unfold PoolState.busy
    cases hi : idx (PoolState.start lp).workers w with
    | ok x =>
      have hr := idx_ok_range _ _ _ hi
      have hp : w.toNat < (PoolState.start lp).workers.length := by omega
      rw [idx_of_range _ w Worker.waiting hr.1 hr.2, List.getD_eq_getElem _ _ hp] at hi
      have hm : x ∈ (PoolState.start lp).workers := by
        rw [← Res.ok.inj hi]
        exact List.getElem_mem hp
      have hx : x = Worker.waiting := (List.mem_replicate.mp hm).2
      rw [hx]
    | panic => rfl
    | blocked => rfl
    | fuel => rfl
  rw [hb]
  rfl

/-- What the invariant says of the load counters: the counter of a worker is never
above `q + 2` nor below `-1`, and it is not negative while no call of `AddTask` is
between its send and its `heap.Add`. -/
theorem RunInv_bounds (N : Nat) (q : Int) (s : PoolState) (h : RunInv N q s) (w : Int)
    (hw0 : 0 ≤ w) (hw1 : w < N) :
    s.lp.heap.load w = s.lp.queued w + s.busy w + aheadOf s.call w ∧
      -1 ≤ s.lp.heap.load w ∧ s.lp.heap.load w ≤ q + 2 ∧
      (s.call = none → 0 ≤ s.lp.heap.load w) := by
  obtain ⟨_, hinv, hok⟩ := h
  have hl := hinv.loadEq w hw0 hw1
  have hcap := hinv.queueCap w hw0 hw1
  have hqr := hinv.qRange
  have hql : (0 : Int) ≤ s.lp.queued w := by unfold ListPool.queued; omega
  have hb := busy_range s w
  have ha := aheadOf_range s.call w
  refine ⟨by rw [hl]; ring, by omega, ?_, ?_⟩
  · by_cases h1 : aheadOf s.call w = 1
    · have hle : s.lp.heap.load w ≤ q := by
        match hc : s.call, hok with
        | none, _ => rw [hc] at h1; simp [aheadOf] at h1
        | some (_, Pending.token n), hok =>
          rw [hc] at h1
          simp only [aheadOf, unitAt] at h1
          split at h1
          · rename_i e; rw [e]; exact hok.2.2
          · omega
        | some (_, Pending.slot _), _ => rw [hc] at h1; simp [aheadOf] at h1
        | some (_, Pending.select _), _ => rw [hc] at h1; simp [aheadOf] at h1
        | some (_, Pending.send n true), _ => rw [hc] at h1; simp [aheadOf] at h1
        | some (_, Pending.send n false), hok =>
          rw [hc] at h1
          simp only [aheadOf, unitAt] at h1
          split at h1
          · rename_i e; rw [e]; exact hok.2.2 rfl
          · omega
        | some (_, Pending.count n), _ =>
          rw [hc] at h1
          simp only [aheadOf, unitAt] at h1
          split at h1 <;> omega
      omega
    · omega
  · intro hc
    rw [hc] at hl
    simp only [aheadOf, add_zero] at hl
    omega

/-! ## `NewPool` establishes the invariant -/

theorem find_mapDel_same (m : List (Int × Int)) (k : Int) :
    List.find? (fun p => p.1 == k) (mapDel m k) = none := by
  rw [List.find?_eq_none]
  intro x hx
  unfold mapDel at hx
  have := (List.mem_filter.mp hx).2
  simpa using this

theorem find_mapDel_ne (m : List (Int × Int)) (k w : Int) (hne : w ≠ k) :
    List.find? (fun p => p.1 == w) (mapDel m k) = List.find? (fun p => p.1 == w) m := by
  induction m with
  | nil => rfl
  | cons x xs ih =>
    unfold mapDel at ih ⊢
    by_cases h1 : x.1 = k
    · have h2 : ¬ x.1 = w := fun h => hne (h.symm.trans h1)
      simp only [List.filter_cons, h1, beq_self_eq_true, Bool.not_true, Bool.false_eq_true,
        if_false, List.find?_cons]
      rw [ih]
      have : (k == w) = false := by
        rw [beq_eq_false_iff_ne]
        exact fun h => hne h.symm
      rw [this]
    · have hb : (x.1 == k) = false := by rw [beq_eq_false_iff_ne]; exact h1
      simp only [List.filter_cons, hb, Bool.not_false, if_true, List.find?_cons]
      rw [ih]

theorem mapGet_mapSet (m : List (Int × Int)) (k v w : Int) :
    mapGet (mapSet m k v) w = if w = k then some v else mapGet m w := by
  unfold mapGet mapSet
  rw [List.find?_append]
  by_cases e : w = k
  · subst e
    rw [if_pos rfl, find_mapDel_same]
    simp
  · rw [if_neg e, find_mapDel_ne m k w e]
    have hb : (k == w) = false := by
      rw [beq_eq_false_iff_ne]
      exact fun h => e h.symm
    cases hf : List.find? (fun p => p.1 == w) m with
    | some p => simp
    | none => simp [hb]

theorem publishTokens_ok : ∀ (k : Nat) (ch : List Int) (cap n : Int),
    (ch.length : Int) + k ≤ cap →
    publishTokens k ch cap n = Res.ok (ch ++ List.replicate k n) := by
  intro k
  induction k with
  | zero => intro ch cap n _; simp [publishTokens]
  | succ k ih =>
    intro ch cap n hcap
    unfold publishTokens
    rw [chanSend_ok ch cap n (by push_cast at hcap; omega)]
    simp only [Res.ok_bind]
    rw [ih (ch ++ [n]) cap n (by simp only [List.length_append, List.length_singleton]; push_cast at hcap ⊢; omega)]
    simp [List.replicate_succ]

theorem heapPush_spec (h : IntHeap) (i : Nat) (hu : h.Usable) (hc : h.Count.length = i) :
    ∃ h', heap.Push h { Id := i, JobCount := 0 } = Res.ok h' ∧ Resift (h.pushed i) h' ∧
      h'.Usable := by
  have hpush : h.Push { Id := i, JobCount := 0 } = Res.ok (h.pushed i) := by
    unfold IntHeap.Push IntHeap.pushed
    have hw : wrap64 0 = 0 := by decide
    simp only [hu.1, Bool.false_eq_true, if_false, hw, hc, le_refl, if_true]
    rw [if_pos]
    constructor
    · omega
    · simp only [List.length_append, List.length_singleton, hc]
      push_cast
      omega
  have hu1 : (h.pushed i).Usable := by
    refine ⟨hu.1, fun id hid => ?_⟩
    show 0 ≤ id ∧ id < ((setIdx (h.Count ++ [0]) i 0).length : Int)
    rw [length_setIdx]
    simp only [List.length_append, List.length_singleton]
    push_cast
    have hid2 : id ∈ h.Keys ++ [(i : Int)] := hid
    rcases List.mem_append.mp hid2 with h1 | h1
    · have := hu.2 id h1
      omega
    · rw [List.mem_singleton] at h1
      omega
  have hlen : (h.pushed i).Keys.length = h.Keys.length + 1 := by
    show (h.Keys ++ [(i : Int)]).length = _
    simp
  obtain ⟨h', he, hr, _⟩ := up_spec (h.pushed i) (h.Keys.length) hu1 (by omega)
  refine ⟨h', ?_, hr, hr.rsUsable hu1⟩
  unfold heap.Push
  rw [hpush]
  simp only [Res.ok_bind]
  have e : (h.pushed i).Len - 1 = ((h.Keys.length : Nat) : Int) := by
    unfold IntHeap.Len
    rw [hlen]
    push_cast
    omega
  rw [e]
  exact he

theorem run_spec (N : Nat) (q : Int) (i : Nat) (lp : ListPool) (h : StartInv N q i lp)
    (hi : i < N) :
    ∃ lp1, run lp i true = Res.ok (lp1, none) ∧ StartInv N q (i + 1) lp1 := by
  have htl : lp.task.length = N := by rw [h.taskEmpty]; simp
  have htask := idx_of_range lp.task i [] (by omega) (by rw [htl]; exact_mod_cast hi)
  have hst := idx_of_range lp.statusWorker i [] (by omega)
    (by rw [h.statusLen]; exact_mod_cast hi)
  rw [Int.toNat_ofNat, h.statusFree i (le_refl _)] at hst
  obtain ⟨hp, hpush, hr, hup⟩ := heapPush_spec lp.heap i h.usable h.countLen
  have hidle := chanSend_ok lp.idle (2 * lp.maxProcess) (i : Int)
    (by rw [h.idleLen, h.maxP]; omega)
  have hq0 := h.qRange.1
  have hqn : ((lp.jobQueuelen.toNat : Nat) : Int) = q := by
    rw [h.qlen]; exact Int.toNat_of_nonneg hq0
  have hmul : ((i : Int) + 1) * q ≤ (N : Int) * q :=
    mul_le_mul_of_nonneg_right (by exact_mod_cast hi) hq0
  have htok := publishTokens_ok lp.jobQueuelen.toNat lp.idleRun
    (lp.maxProcess * lp.jobQueuelen) (i : Int)
    (by rw [h.idleRunLen, h.maxP, hqn, h.qlen]; linarith)
  refine ⟨{ lp with
      statusWorker := setIdx lp.statusWorker i [()], heap := hp, idle := lp.idle ++ [(i : Int)],
      idleRun := lp.idleRun ++ List.replicate lp.jobQueuelen.toNat (i : Int) }, ?_, ?_⟩
  · unfold run
    rw [if_neg (by simp), htask, hst]
    simp only [Res.ok_bind]
    rw [chanSend_ok [] 1 () (by decide), hpush, hidle, htok]
    rfl
  · exact
      { qRange := h.qRange
        iLe := hi
        notClosed := h.notClosed
        maxP := h.maxP
        qlen := h.qlen
        taskEmpty := h.taskEmpty
        numLen := h.numLen
        statusLen := by
          show (setIdx lp.statusWorker i [()]).length = N
          rw [length_setIdx]; exact h.statusLen
        statusFree := fun w hw => by
          show (setIdx lp.statusWorker i [()]).getD w [] = []
          unfold setIdx
          rw [if_pos (by omega), Int.toNat_ofNat]
          simp only [List.getD_eq_getElem?_getD, List.getElem?_set]
          rw [if_neg (by omega)]
          have := h.statusFree w (by omega)
          simpa [List.getD_eq_getElem?_getD] using this
        countLen := by
          rw [hr.1]
          show (setIdx (lp.heap.Count ++ [0]) i 0).length = i + 1
          rw [length_setIdx]
          simp [h.countLen]
        countZero := fun c hc => by
          rw [hr.1] at hc
          have hc2 : c ∈ setIdx (lp.heap.Count ++ [0]) (i : Int) 0 := hc
          unfold setIdx at hc2
          rw [if_pos (by omega)] at hc2
          rcases List.mem_or_eq_of_mem_set hc2 with h1 | h1
          · rcases List.mem_append.mp h1 with h2 | h2
            · exact h.countZero c h2
            · exact List.mem_singleton.mp h2
          · exact h1
        heapQ := by rw [hr.2.2.2.1]; exact h.heapQ
        usable := hup
        keysLen := by
          rw [hr.rsLength]
          show (lp.heap.Keys ++ [(i : Int)]).length = i + 1
          simp [h.keysLen]
        keyMap := fun w hw0 hw1 => by
          rw [hr.2.1]
          show mapGet (mapSet lp.heap.KeyMap i 0) w = some 0
          rw [mapGet_mapSet]
          by_cases e : w = i
          · rw [if_pos e]
          · rw [if_neg e]
            exact h.keyMap w hw0 (by push_cast at hw1; omega)
        idleLen := by
          show (lp.idle ++ [(i : Int)]).length = i + 1
          simp [h.idleLen]
        idleIds := fun w hw => by
          have hw2 : w ∈ lp.idle ++ [(i : Int)] := hw
          rcases List.mem_append.mp hw2 with h1 | h1
          · have := h.idleIds w h1
            push_cast
            omega
          · rw [List.mem_singleton] at h1
            push_cast
            omega
        idleRunLen := by
          show ((lp.idleRun ++ List.replicate lp.jobQueuelen.toNat (i : Int)).length : Int) = _
          simp only [List.length_append, List.length_replicate]
          push_cast
          rw [h.idleRunLen, hqn]
          ring
        idleRunIds := fun w hw => by
          have hw2 : w ∈ lp.idleRun ++ List.replicate lp.jobQueuelen.toNat (i : Int) := hw
          rcases List.mem_append.mp hw2 with h1 | h1
          · have := h.idleRunIds w h1
            push_cast
            omega
          · have := (List.mem_replicate.mp h1).2
            push_cast
            omega }

theorem startWorkers_spec (N : Nat) (q : Int) : ∀ (k i : Nat) (lp : ListPool),
    StartInv N q i lp → i + k = N →
    ∃ lp', startWorkers k i lp = Res.ok lp' ∧ StartInv N q N lp' := by
  intro k
  induction k with
  | zero =>
    intro i lp h hik
    have : i = N := by omega
    subst this
    exact ⟨lp, rfl, h⟩
  | succ k ih =>
    intro i lp h hik
    obtain ⟨lp1, hrun, h1⟩ := run_spec N q i lp h (by omega)
    obtain ⟨lp2, hs, h2⟩ := ih (i + 1) lp1 h1 (by omega)
    refine ⟨lp2, ?_, h2⟩
    unfold startWorkers
    rw [hrun]
    simp only [Res.ok_bind]
    have e : ((i : Int) + 1) = ((i + 1 : Nat) : Int) := by push_cast; rfl
    rw [e]
    exact hs

/-- `NewPool(N, q)` returns a pool, and the invariant holds there. -/
theorem NewPool_spec (N : Nat) (q : Int) (hN : 1 ≤ N) (hq : 0 ≤ q) (hsize : q + 1 < 2 ^ 63) :
    ∃ lp0, NewPool N q = Res.ok lp0 ∧ PoolInv N q lp0 (fun _ => 0) := by
  have hinit : heap.Init (NewIntHeap q) = Res.ok (NewIntHeap q) := by
    unfold heap.Init IntHeap.Len NewIntHeap
    simp only [List.length_nil, Nat.cast_zero, Int.toNat_zero, zero_add]
    unfold heap.initLoop
    rw [if_neg (by decide)]
  have hmul : (0 : Int) ≤ (N : Int) * q := mul_nonneg (by omega) hq
  have h0 : StartInv N q 0
      { task := List.replicate N [], numCount := List.replicate N 0,
        statusWorker := List.replicate N [], close := false, ctxDone := false, idleRun := [],
        workRun := [], idle := [], maxProcess := N, jobQueuelen := q, heap := NewIntHeap q } :=
    { qRange := ⟨hq, hsize⟩
      iLe := Nat.zero_le _
      notClosed := rfl
      maxP := rfl
      qlen := rfl
      taskEmpty := rfl
      numLen := by simp
      statusLen := by simp
      statusFree := fun w _ => by
        simp only [List.getD_eq_getElem?_getD, List.getElem?_replicate]
        split <;> rfl
      countLen := rfl
      countZero := fun c hc => by cases hc
      heapQ := rfl
      usable := ⟨rfl, fun id hid => by cases hid⟩
      keysLen := rfl
      keyMap := fun w hw0 hw1 => by
        have : w < 0 := hw1
        omega
      idleLen := rfl
      idleIds := fun w hw => by cases hw
      idleRunLen := by simp
      idleRunIds := fun w hw => by cases hw }
  obtain ⟨lp0, hs, hN0⟩ := startWorkers_spec N q N 0 _ h0 (by omega)
  refine ⟨lp0, ?_, ?_⟩
  · unfold NewPool
    rw [if_neg (by omega)]
    simp only [Int.toNat_ofNat, hinit, Res.ok_bind]
    exact hs
  · have hload : ∀ w : Int, lp0.heap.load w = 0 := by
      intro w
      unfold IntHeap.load
      split
      · rw [List.getD_eq_getElem?_getD]
        cases hg : lp0.heap.Count[w.toNat]? with
        | none => rfl
        | some c =>
          have := List.getElem?_mem hg
          exact hN0.countZero c this
      · rfl
    have hqueued : ∀ w : Int, lp0.queued w = 0 := by
      intro w
      unfold ListPool.queued
      rw [hN0.taskEmpty]
      simp only [List.getD_eq_getElem?_getD, List.getElem?_replicate]
      split <;> rfl
    exact
      { qRange := ⟨hq, hsize⟩
        notClosed := hN0.notClosed
        maxP := hN0.maxP
        qlen := hN0.qlen
        taskLen := by rw [hN0.taskEmpty]; simp
        numLen := hN0.numLen
        countLen := hN0.countLen
        heapQ := hN0.heapQ
        usable := hN0.usable
        keysPos := by rw [hN0.keysLen]; omega
        keyMap := hN0.keyMap
        idleIds := hN0.idleIds
        idleRunIds := hN0.idleRunIds
        loadEq := fun w _ _ => by rw [hload, hqueued]; rfl
        queueCap := fun w _ _ => by rw [hqueued]; omega }

/-! ## `Keys` stays a rearrangement of the workers (C13) -/

theorem workerIds_succ (i : Nat) : workerIds (i + 1) = workerIds i ++ [(i : Int)] := by
  unfold workerIds
  rw [List.range_succ, List.map_append]
  rfl

theorem workerIds_length (N : Nat) : (workerIds N).length = N := by
  unfold workerIds
  simp

theorem workerIds_nodup (N : Nat) : (workerIds N).Nodup := by
  unfold workerIds
  exact List.Nodup.map (fun a b h => by exact_mod_cast h) (List.nodup_range N)

theorem HeapInv.hiResift {N : Nat} {h h1 : IntHeap} (hi : HeapInv N h) (hr : Resift h h1) :
    HeapInv N h1 := by
  obtain ⟨hu, hc, hp, hk⟩ := hi
  refine ⟨hr.rsUsable hu, by rw [hr.1]; exact hc, hr.2.2.2.2.trans hp, fun w h0 h1 => ?_⟩
  rw [hr.2.1]
  exact hk w h0 h1

theorem HeapInv.hiSetCount {N : Nat} {h : IntHeap} (hi : HeapInv N h) (n v : Int) :
    HeapInv N (h.setCount n v) := by
  obtain ⟨hu, hc, hp, hk⟩ := hi
  refine ⟨setCount_usable h n v hu, ?_, hp, hk⟩
  show (setIdx h.Count n v).length = N
  rw [length_setIdx]
  exact hc

theorem HeapInv.hiKeysLen {N : Nat} {h : IntHeap} (hi : HeapInv N h) : h.Keys.length = N := by
  rw [hi.2.2.1.length_eq, workerIds_length]

/-- `heap.Pop` returns on a usable, non-empty heap. -/
theorem heapPop_total (h : IntHeap) (hu : h.Usable) (hpos : 0 < h.Keys.length) :
    ∃ h1 w, heap.Pop h = Res.ok (h1, w) := by
  by_cases hc : (mapGet h.KeyMap (h.Keys.getD 0 0)).isSome ∧
      h.load (h.Keys.getD 0 0) < h.jobQueuelen
  · obtain ⟨h1, he, _⟩ := heapPop_some h hu hpos hc.1 hc.2
    exact ⟨h1, _, he⟩
  · have hk : mapGet h.KeyMap (h.Keys.getD 0 0) = none ∨
        h.jobQueuelen ≤ h.load (h.Keys.getD 0 0) := by
      by_cases hs : (mapGet h.KeyMap (h.Keys.getD 0 0)).isSome
      · right
        by_contra hlt
        exact hc ⟨hs, by omega⟩
      · left
        simpa using hs
    obtain ⟨h1, he, _⟩ := heapPop_none h hu hpos hk
    exact ⟨h1, _, he⟩

/-- Every operation that returns keeps the invariant of the heap. -/
theorem stepHeap_inv (N : Nat) (h h1 : IntHeap) (op : HeapOp) (hN : 1 ≤ N) (hi : HeapInv N h)
    (hs : stepHeap h op = Res.ok h1) : HeapInv N h1 := by
  have hlen := hi.hiKeysLen
  cases op with
  | pop =>
    have hs1 : (heap.Pop h >>= fun r => pure r.1) = Res.ok h1 := hs
    obtain ⟨⟨h2, w⟩, hp, hs⟩ := Res.bind_eq_ok _ _ _ hs1
    have e := Res.ok.inj hs
    simp only [] at e
    subst e
    rcases heapPop_effect h h2 w hi.1 (by omega) hp with ⟨_, hr⟩ | ⟨wid, _, _, _, hr⟩
    · exact hi.hiResift hr
    · exact (hi.hiSetCount _ _).hiResift hr
  | add n =>
    have hs : h.Add n = Res.ok h1 := hs
    have hs2 := hs
    unfold IntHeap.Add at hs2
    obtain ⟨c, hc, _⟩ := Res.bind_eq_ok _ _ _ hs2
    have hr := idx_ok_range _ _ _ hc
    obtain ⟨hA, hadd, hrs⟩ := Add_spec h n hi.1 hr.1 hr.2 (fun index hx => by
      rw [hi.2.2.2 n hr.1 (by rw [← hi.2.1]; exact hr.2)] at hx
      cases hx
      exact ⟨le_refl _, by omega⟩)
    rw [hadd] at hs
    have e := Res.ok.inj hs
    subst e
    exact (hi.hiSetCount _ _).hiResift hrs
  | done n =>
    have hs : h.Done n = Res.ok h1 := hs
    have hs2 := hs
    unfold IntHeap.Done at hs2
    obtain ⟨c, hc, _⟩ := Res.bind_eq_ok _ _ _ hs2
    have hr := idx_ok_range _ _ _ hc
    obtain ⟨hA, hdone, hrs⟩ := Done_spec h n hi.1 hr.1 hr.2 (fun index hx => by
      rw [hi.2.2.2 n hr.1 (by rw [← hi.2.1]; exact hr.2)] at hx
      cases hx
      exact ⟨le_refl _, by omega⟩)
    rw [hdone] at hs
    have e := Res.ok.inj hs
    subst e
    exact (hi.hiSetCount _ _).hiResift hrs

/-- Every operation on a worker of the pool returns. -/
theorem stepHeap_total (N : Nat) (h : IntHeap) (op : HeapOp) (hN : 1 ≤ N) (hi : HeapInv N h)
    (hv : op.valid N) : ∃ h1, stepHeap h op = Res.ok h1 := by
  have hlen := hi.hiKeysLen
  cases op with
  | pop =>
    obtain ⟨h1, w, hp⟩ := heapPop_total h hi.1 (by omega)
    refine ⟨h1, ?_⟩
    show (heap.Pop h >>= fun r => pure r.1) = Res.ok h1
    rw [hp]
    rfl
  | add n =>
    have hv2 : 0 ≤ n ∧ n < N := hv
    obtain ⟨hA, hadd, _⟩ := Add_spec h n hi.1 hv2.1 (by rw [hi.2.1]; exact hv2.2)
      (fun index hx => by
        rw [hi.2.2.2 n hv2.1 hv2.2] at hx
        cases hx
        exact ⟨le_refl _, by omega⟩)
    exact ⟨hA, hadd⟩
  | done n =>
    have hv2 : 0 ≤ n ∧ n < N := hv
    obtain ⟨hA, hdone, _⟩ := Done_spec h n hi.1 hv2.1 (by rw [hi.2.1]; exact hv2.2)
      (fun index hx => by
        rw [hi.2.2.2 n hv2.1 hv2.2] at hx
        cases hx
        exact ⟨le_refl _, by omega⟩)
    exact ⟨hA, hdone⟩

theorem runHeap_inv (N : Nat) (hN : 1 ≤ N) : ∀ (ops : List HeapOp) (h h1 : IntHeap),
    HeapInv N h → runHeap ops h = Res.ok h1 → HeapInv N h1 := by
  intro ops
  induction ops with
  | nil =>
    intro h h1 hi hr
    have e := Res.ok.inj hr
    subst e
    exact hi
  | cons op ops ih =>
    intro h h1 hi hr
    unfold runHeap at hr
    obtain ⟨h2, hs, hr⟩ := Res.bind_eq_ok _ _ _ hr
    exact ih h2 h1 (stepHeap_inv N h h2 op hN hi hs) hr

theorem runHeap_total (N : Nat) (hN : 1 ≤ N) : ∀ (ops : List HeapOp) (h : IntHeap),
    HeapInv N h → (∀ op ∈ ops, op.valid N) → ∃ h1, runHeap ops h = Res.ok h1 := by
  intro ops
  induction ops with
  | nil => intro h _ _; exact ⟨h, rfl⟩
  | cons op ops ih =>
    intro h hi hv
    obtain ⟨h2, hs⟩ := stepHeap_total N h op hN hi (hv op (List.mem_cons_self _ _))
    obtain ⟨h1, hr⟩ := ih h2 (stepHeap_inv N h h2 op hN hi hs)
      (fun o ho => hv o (List.mem_cons_of_mem _ ho))
    refine ⟨h1, ?_⟩
    unfold runHeap
    rw [hs]
    exact hr

theorem run_keys (N : Nat) (q : Int) (i : Nat) (lp lp1 : ListPool) (e : Option String)
    (h : StartInv N q i lp) (hrun : run lp i true = Res.ok (lp1, e)) :
    lp1.heap.Keys.Perm (lp.heap.Keys ++ [(i : Int)]) := by
  obtain ⟨hp, hpush, hr, _⟩ := heapPush_spec lp.heap i h.usable h.countLen
  unfold run at hrun
  rw [if_neg (by simp)] at hrun
  obtain ⟨_, _, hrun⟩ := Res.bind_eq_ok _ _ _ hrun
  obtain ⟨st, _, hrun⟩ := Res.bind_eq_ok _ _ _ hrun
  obtain ⟨st1, _, hrun⟩ := Res.bind_eq_ok _ _ _ hrun
  obtain ⟨hB, hpushB, hrun⟩ := Res.bind_eq_ok _ _ _ hrun
  obtain ⟨idle, _, hrun⟩ := Res.bind_eq_ok _ _ _ hrun
  obtain ⟨idleRun, _, hrun⟩ := Res.bind_eq_ok _ _ _ hrun
  have e1 := congrArg Prod.fst (Res.ok.inj hrun)
  simp only [] at e1
  subst e1
  rw [hpush] at hpushB
  have e2 : hp = hB := Res.ok.inj hpushB
  subst e2
  exact hr.2.2.2.2

theorem startWorkers_keys (N : Nat) (q : Int) : ∀ (k i : Nat) (lp lp1 : ListPool),
    StartInv N q i lp → i + k = N → lp.heap.Keys.Perm (workerIds i) →
    startWorkers k i lp = Res.ok lp1 → lp1.heap.Keys.Perm (workerIds N) := by
  intro k
  induction k with
  | zero =>
    intro i lp lp1 _ hik hp hs
    have e := Res.ok.inj hs
    subst e
    have : i = N := by omega
    subst this
    exact hp
  | succ k ih =>
    intro i lp lp1 h hik hp hs
    unfold startWorkers at hs
    obtain ⟨⟨lp2, e⟩, hrun, hs⟩ := Res.bind_eq_ok _ _ _ hs
    simp only [] at hs
    obtain ⟨lpA, hrunA, hA⟩ := run_spec N q i lp h (by omega)
    have hk := run_keys N q i lp lp2 e h hrun
    rw [hrunA] at hrun
    have e1 := congrArg Prod.fst (Res.ok.inj hrun)
    simp only [] at e1
    subst e1
    have e2 : ((i : Int) + 1) = ((i + 1 : Nat) : Int) := by push_cast; rfl
    rw [e2] at hs
    refine ih (i + 1) lpA lp1 hA (by omega) ?_ hs
    rw [workerIds_succ]
    exact hk.trans (List.Perm.append_right _ hp)

theorem startInv_zero (N : Nat) (q : Int) (hq : 0 ≤ q) (hsize : q + 1 < 2 ^ 63) :
    StartInv N q 0
      { task := List.replicate N [], numCount := List.replicate N 0,
        statusWorker := List.replicate N [], close := false, ctxDone := false, idleRun := [],
        workRun := [], idle := [], maxProcess := N, jobQueuelen := q, heap := NewIntHeap q } :=
  { qRange := ⟨hq, hsize⟩
    iLe := Nat.zero_le _
    notClosed := rfl
    maxP := rfl
    qlen := rfl
    taskEmpty := rfl
    numLen := by simp
    statusLen := by simp
    statusFree := fun w _ => by
      simp only [List.getD_eq_getElem?_getD, List.getElem?_replicate]
      split <;> rfl
    countLen := rfl
    countZero := fun c hc => by cases hc
    heapQ := rfl
    usable := ⟨rfl, fun id hid => by cases hid⟩
    keysLen := rfl
    keyMap := fun w hw0 hw1 => by
      have : w < 0 := hw1
      omega
    idleLen := rfl
    idleIds := fun w hw => by cases hw
    idleRunLen := by simp
    idleRunIds := fun w hw => by cases hw }

/-- The heap of the pool `NewPool(N, q)` returns holds the workers `0 .. N-1`. -/
theorem NewPool_heapInv (N : Nat) (q : Int) (lp0 : ListPool) (hq : 0 ≤ q)
    (hsize : q + 1 < 2 ^ 63) (hnew : NewPool N q = Res.ok lp0) : HeapInv N lp0.heap := by
  have hinit : heap.Init (NewIntHeap q) = Res.ok (NewIntHeap q) := by
    unfold heap.Init IntHeap.Len NewIntHeap
    simp only [List.length_nil, Nat.cast_zero, Int.toNat_zero, zero_add]
    unfold heap.initLoop
    rw [if_neg (by decide)]
  have hmul : (0 : Int) ≤ (N : Int) * q := mul_nonneg (by omega) hq
  have h0 := startInv_zero N q hq hsize
  unfold NewPool at hnew
  rw [if_neg (by omega)] at hnew
  simp only [Int.toNat_ofNat, hinit, Res.ok_bind] at hnew
  obtain ⟨lpA, hsA, hN0⟩ := startWorkers_spec N q N 0 _ h0 (by omega)
  have hk := startWorkers_keys N q N 0 _ lp0 h0 (by omega) (List.Perm.refl _) hnew
  have e : lpA = lp0 := Res.ok.inj (hsA.symm.trans hnew)
  subst e
  exact ⟨hN0.usable, hN0.countLen, hk, hN0.keyMap⟩

/-! ## The drain loops of `Close` -/

theorem drainLoop_eq {α : Type} : ∀ (fuel i : Nat) (ch : List α), 0 < fuel →
    ch.length + 1 ≤ fuel + i →
    drainLoop fuel (i : Int) ch = Res.ok (ch.drop ((ch.length + 1 - i) / 2)) := by
  intro fuel
  induction fuel with
  | zero => intro i ch hf; omega
  | succ f ih =>
    intro i ch _ hfuel
    unfold drainLoop
    by_cases hlt : i < ch.length
    · rw [if_pos (by exact_mod_cast hlt)]
      cases ch with
      | nil => simp at hlt
      | cons x xs =>
        simp only [chanRecv, Res.ok_bind]
        have e : ((i : Int) + 1) = ((i + 1 : Nat) : Int) := by push_cast; rfl
        simp only [List.length_cons] at hlt hfuel
        rw [e, ih (i + 1) xs (by omega) (by omega)]
        have e2 : (xs.length + 1 + 1 - i) / 2 = (xs.length + 1 - (i + 1)) / 2 + 1 := by omega
        simp only [List.length_cons, e2, List.drop_succ_cons]
    · rw [if_neg (by exact_mod_cast hlt)]
      have e : (ch.length + 1 - i) / 2 = 0 := by omega
      rw [e, List.drop_zero]

/-- The drain loop of `Close` removes the first half of the channel, rounded up,
and leaves the rest. -/
theorem drain_eq {α : Type} (ch : List α) :
    drain ch = Res.ok (ch.drop ((ch.length + 1) / 2)) := by
  have := drainLoop_eq (ch.length + 1) 0 ch (by omega) (by omega)
  simpa [drain] using this

theorem drainAll_eq {α : Type} : ∀ chs : List (List α),
    drainAll chs = Res.ok (chs.map (fun ch => ch.drop ((ch.length + 1) / 2))) := by
  intro chs
  induction chs with
  | nil => rfl
  | cons ch chs ih =>
    unfold drainAll
    rw [drain_eq, ih]
    rfl

/-! ## The worker: callbacks of one task (C1, C2, C3) -/

theorem runTaskCase_events (lp : ListPool) (n c : Int) (f : TaskOptions)
    (rest : List TaskOptions) (hq : idx lp.task n = Res.ok (f :: rest))
    (hc : idx lp.numCount n = Res.ok c) :
    (runTaskCase lp n).1 = runEvents f := by
  unfold runTaskCase runReceive
  rw [hq]
  simp only []
  rw [hc]
  rfl

/-- C1, as the claim states it, fails: for a closure that returns the error "e",
with `onError` and `onComplete` set, the worker calls `onError` before
`onComplete`, not after. -/
theorem C1_error_order_counterexample :
    (runTaskCase (exPool (exTask (TaskResult.returned (some "e")))) 0).1 =
        [Event.task, Event.onError "e", Event.onComplete] ∧
      (runTaskCase (exPool (exTask (TaskResult.returned (some "e")))) 0).1 ≠
        [Event.task, Event.onComplete, Event.onError "e"] := by
  decide

/-- C1, amended. When the work closure of the descriptor that worker `n` receives
returns a non-nil error `e` without panicking, the worker invokes, in this order:
the work closure, then `onError` (if set) with exactly `e`, then `onComplete` (if
set); `onSuccess` is not invoked and the task group is not decremented. -/
theorem C1_error_callbacks (lp : ListPool) (n c : Int) (f : TaskOptions)
    (rest : List TaskOptions) (t : Nat → TaskResult) (e : String)
    (hq : idx lp.task n = Res.ok (f :: rest)) (hc : idx lp.numCount n = Res.ok c)
    (ht : f.task = some t) (hr : t 0 = TaskResult.returned (some e)) :
    (runTaskCase lp n).1 =
        [Event.task] ++ (if f.onError then [Event.onError e] else [])
          ++ (if f.onComplete then [Event.onComplete] else []) ∧
      Event.onSuccess ∉ (runTaskCase lp n).1 ∧ Event.wgDone ∉ (runTaskCase lp n).1 := by
  rw [runTaskCase_events lp n c f rest hq hc]
  have he : runEvents f = [Event.task] ++ (if f.onError then [Event.onError e] else [])
      ++ (if f.onComplete then [Event.onComplete] else []) := by
    unfold runEvents runBody runDeferred
    rw [ht]
    simp only [hr]
    cases f.onError <;> cases f.onComplete <;> simp
  rw [he]
  refine ⟨rfl, ?_, ?_⟩ <;> cases f.onError <;> cases f.onComplete <;> simp

/-- C1 amended, at a pool whose worker 0 receives a descriptor with every callback
set and a closure returning the error "e". -/
theorem C1_error_callbacks_witness :
    (runTaskCase (exPool (exTask (TaskResult.returned (some "e")))) 0).1 =
        [Event.task] ++ (if (exTask (TaskResult.returned (some "e"))).onError
            then [Event.onError "e"] else [])
          ++ (if (exTask (TaskResult.returned (some "e"))).onComplete
            then [Event.onComplete] else []) ∧
      Event.onSuccess ∉ (runTaskCase (exPool (exTask (TaskResult.returned (some "e")))) 0).1 ∧
      Event.wgDone ∉ (runTaskCase (exPool (exTask (TaskResult.returned (some "e")))) 0).1 :=
  C1_error_callbacks (exPool (exTask (TaskResult.returned (some "e")))) 0 0
    (exTask (TaskResult.returned (some "e"))) [] (fun _ => TaskResult.returned (some "e")) "e"
    rfl rfl rfl rfl

/-- C2, as the claim states it, fails for a descriptor with `autoDone` whose task
group cannot be decremented.  With a group whose counter is already 0, and with no
group at all, `f.tg.wg.Done()` panics inside the recovered body after `onSuccess`:
no decrement is made, and the deferred function calls `onComplete` and then
`onError` with the recovered panic. -/
theorem C2_group_decrement_counterexample :
    (runTaskCase (exPool { exTask (TaskResult.returned none) with tg := some 0 }) 0).1 =
        [Event.task, Event.onSuccess, Event.onComplete,
          Event.onError "task panicked: sync: negative WaitGroup counter"] ∧
      (runTaskCase (exPool { exTask (TaskResult.returned none) with tg := some 0 }) 0).1 ≠
        [Event.task, Event.onSuccess, Event.wgDone, Event.onComplete] ∧
      (runTaskCase (exPool { exTask (TaskResult.returned none) with tg := none }) 0).1 =
        [Event.task, Event.onSuccess, Event.onComplete,
          Event.onError
            "task panicked: runtime error: invalid memory address or nil pointer dereference"] := by
  refine ⟨by decide, by decide, by decide⟩

/-- C2, amended. When the work closure of the descriptor that worker `n` receives
returns nil without panicking and, if `autoDone` is set, the task group of the
descriptor is there with a counter of at least one, the worker invokes exactly:
the work closure, `onSuccess` (if set), one decrement of the task group (if
`autoDone` is set), `onComplete` (if set), in this order; `onError` is not
invoked. -/
theorem C2_success_callbacks (lp : ListPool) (n c : Int) (f : TaskOptions)
    (rest : List TaskOptions) (t : Nat → TaskResult)
    (hq : idx lp.task n = Res.ok (f :: rest)) (hc : idx lp.numCount n = Res.ok c)
    (ht : f.task = some t) (hr : t 0 = TaskResult.returned none)
    (hg : f.autoDone = true → ∃ g : Int, f.tg = some g ∧ 1 ≤ g) :
    (runTaskCase lp n).1 =
        [Event.task] ++ (if f.onSuccess then [Event.onSuccess] else [])
          ++ (if f.autoDone then [Event.wgDone] else [])
          ++ (if f.onComplete then [Event.onComplete] else []) ∧
      ∀ e, Event.onError e ∉ (runTaskCase lp n).1 := by
  rw [runTaskCase_events lp n c f rest hq hc]
  have hd : (if f.autoDone then groupDone f.tg else none) = none := by
    cases ha : f.autoDone with
    | false => rfl
    | true =>
      obtain ⟨g, hg1, hg2⟩ := hg ha
      simp only [if_true, hg1, groupDone]
      rw [if_neg (by omega)]
  have he : runEvents f = [Event.task] ++ (if f.onSuccess then [Event.onSuccess] else [])
      ++ (if f.autoDone then [Event.wgDone] else [])
      ++ (if f.onComplete then [Event.onComplete] else []) := by
    unfold runEvents runBody runDeferred
    rw [ht]
    simp only [hr, true_and, and_true, hd]
    cases f.onSuccess <;> cases f.autoDone <;> cases f.onComplete <;> simp
  rw [he]
  refine ⟨rfl, fun e => ?_⟩
  cases f.onSuccess <;> cases f.autoDone <;> cases f.onComplete <;> simp

/-- C2 amended, at a pool whose worker 0 receives a descriptor with every callback
set, `autoDone`, a task group of counter 1, and a closure returning nil. -/
theorem C2_success_callbacks_witness :
    ((exTask (TaskResult.returned none)).autoDone = true →
      ∃ g : Int, (exTask (TaskResult.returned none)).tg = some g ∧ 1 ≤ g) ∧
    ((runTaskCase (exPool (exTask (TaskResult.returned none))) 0).1 =
        [Event.task] ++ (if (exTask (TaskResult.returned none)).onSuccess
            then [Event.onSuccess] else [])
          ++ (if (exTask (TaskResult.returned none)).autoDone then [Event.wgDone] else [])
          ++ (if (exTask (TaskResult.returned none)).onComplete
            then [Event.onComplete] else []) ∧
      ∀ e, Event.onError e ∉ (runTaskCase (exPool (exTask (TaskResult.returned none))) 0).1) :=
  ⟨fun _ => ⟨1, rfl, le_refl _⟩,
    C2_success_callbacks (exPool (exTask (TaskResult.returned none))) 0 0
      (exTask (TaskResult.returned none)) [] (fun _ => TaskResult.returned none) rfl rfl rfl rfl
      (fun _ => ⟨1, rfl, le_refl _⟩)⟩

/-- The recovery of a panicking task.  When the work closure of the descriptor that
worker `n` receives panics with cause `c`, the worker recovers: it invokes the work
closure, then `onComplete` (if set), then `onError` (if set) with the error whose
text is "task panicked: " followed by `c`; it invokes neither `onSuccess` nor the
decrement of the task group; and, when the bookkeeping of the worker can proceed
(`canBookkeep`), the case ends with the loop going to its next iteration. -/
theorem runTaskCase_panic_recovered (lp : ListPool) (n c : Int) (f : TaskOptions)
    (rest : List TaskOptions) (t : Nat → TaskResult) (cause : String)
    (hq : idx lp.task n = Res.ok (f :: rest)) (hc : idx lp.numCount n = Res.ok c)
    (ht : f.task = some t) (hr : t 0 = TaskResult.panicked cause) :
    (runTaskCase lp n).1 =
        [Event.task] ++ (if f.onComplete then [Event.onComplete] else [])
          ++ (if f.onError then [Event.onError ("task panicked: " ++ cause)] else []) ∧
      Event.onSuccess ∉ (runTaskCase lp n).1 ∧ Event.wgDone ∉ (runTaskCase lp n).1 ∧
      (canBookkeep lp n rest → ∃ lp', (runTaskCase lp n).2 = Res.ok (lp', Ctl.next)) := by
  have hev := runTaskCase_events lp n c f rest hq hc
  have he : runEvents f = [Event.task] ++ (if f.onComplete then [Event.onComplete] else [])
      ++ (if f.onError then [Event.onError ("task panicked: " ++ cause)] else []) := by
    unfold runEvents runBody runDeferred
    rw [ht]
    simp only [hr]
    cases f.onError <;> cases f.onComplete <;> simp
  rw [hev, he]
  refine ⟨rfl, ?_, ?_, ?_⟩
  · cases f.onError <;> cases f.onComplete <;> simp
  · cases f.onError <;> cases f.onComplete <;> simp
  · intro hb
    have hrange := idx_ok_range _ _ _ hq
    obtain ⟨lp', hlp⟩ := runBookkeeping_ok
      { lp with task := setIdx lp.task n rest, numCount := setIdx lp.numCount n (wrap64 (c + 1)) }
      n rest (idx_setIdx_same _ _ _ hrange.1 hrange.2) hb
    refine ⟨lp', ?_⟩
    unfold runTaskCase runReceive
    rw [hq]
    simp only []
    rw [hc]
    simp only [runFinish]
    rw [hlp]
    rfl

/-- After `Close`, the pool is closed and the heap has no counter left. -/
theorem Close_closed (lp lp2 : ListPool) (groups : List Int) (hc : Close lp groups = Res.ok lp2) :
    lp2.close = true ∧ lp2.heap.Count = [] := by
  unfold Close at hc
  split at hc
  · cases hc
  · simp only [drain_eq, drainAll_eq, Res.ok_bind] at hc
    have e := Res.ok.inj hc
    subst e
    exact ⟨rfl, rfl⟩

/-- In a closed pool whose heap was closed, the bookkeeping at the end of a task
panics: nothing is published, and `lp.heap.Done(n)` indexes the nil `Count`. -/
theorem runFinish_closed (lp : ListPool) (n : Int) (f : TaskOptions) (hcl : lp.close = true)
    (hcount : lp.heap.Count = []) : (runFinish lp n f).2 = Res.panic := by
  have hpub : runPublish lp n = Res.ok lp := by
    unfold runPublish
    rw [hcl]
    rfl
  have hdone : lp.heap.Done n = Res.panic := by
    unfold IntHeap.Done idx
    rw [hcount]
    split <;> rfl
  unfold runFinish runBookkeeping
  simp only [hpub, Res.ok_bind, hdone]
  rfl

/-- C3 at the failing input.  `NewPool(1, 1)`; a descriptor whose closure panics
with "boom" is submitted and received by worker 0; `Close()` is called (no task
group is registered, so it does not wait) while the task is executing; the task
panics.  The worker recovers and calls `onComplete` and `onError("task panicked:
boom")`, but then, still in the deferred function and after `recover()`, it calls
`lp.heap.Done(0)` outside the `!lp.close` guard: `Close` has set `Count` to nil,
the index panics, and the worker does not reach its next iteration.  In the same
state without `Close`, the loop goes on.  The same holds for every worker and
every descriptor once `Close` has returned. -/
theorem C3_worker_dies_after_close :
    (∃ lp0 s lp2, NewPool 1 1 = Res.ok lp0 ∧
        runPool [PoolOp.addTask exBoom false, PoolOp.receive 0] (PoolState.start lp0) =
          Res.ok s ∧
        s.workers = [Worker.executing exBoom] ∧
        (∃ lp3, (runFinish s.lp 0 exBoom).2 = Res.ok (lp3, Ctl.next)) ∧
        Close s.lp [] = Res.ok lp2 ∧
        runFinish lp2 0 exBoom =
          ([Event.task, Event.onComplete, Event.onError "task panicked: boom"], Res.panic)) ∧
      ∀ (lp lp2 : ListPool) (groups : List Int) (n : Int) (f : TaskOptions),
        Close lp groups = Res.ok lp2 → (runFinish lp2 n f).2 = Res.panic := by
  refine ⟨⟨_, _, _, rfl, rfl, rfl, ⟨_, rfl⟩, rfl, rfl⟩, ?_⟩
  intro lp lp2 groups n f hc
  obtain ⟨hcl, hcount⟩ := Close_closed lp lp2 groups hc
  exact runFinish_closed lp2 n f hcl hcount

/-! ## Submission: the timer case (C4) -/

/-- C4, as the claim states it, fails for a descriptor with `autoDone` whose task
group cannot be decremented.  On the saturated pool `exSaturated` (no idle worker,
`heap.Pop` returns no worker, no slot token) a submission with a wait of 5 reaches
the timer case; with a task group of counter 1 it returns the timeout error, but
with no task group, or one whose counter is 0, `opt.tg.wg.Done()` panics and
`AddTask` does not return the timeout error. -/
theorem C4_timeout_decrement_counterexample :
    exSaturated.idle = [] ∧ exSaturated.idleRun = [] ∧
      heap.Pop exSaturated.heap = Res.ok (exSaturated.heap, none) ∧
      (0 : Int) < (exTask (TaskResult.returned none)).waitTimeOut ∧
      AddTask exSaturated (exTask (TaskResult.returned none)) false =
        Res.ok (exSaturated, [Event.onTimeout, Event.wgDone], some "任务超时") ∧
      AddTask exSaturated { exTask (TaskResult.returned none) with tg := none } false =
        Res.panic ∧
      AddTask exSaturated { exTask (TaskResult.returned none) with tg := some 0 } false =
        Res.panic := by
  refine ⟨rfl, rfl, by decide, by decide, rfl, rfl, rfl⟩

/-- C4, amended. A submission that reaches the saturated path of `AddTask` (a work
closure is set, `idle` is empty, `heap.Pop` returned no worker) with
`waitTimeOut > 0`, whose timer fires before a slot token is taken (no token is
there, or the timer is first), and whose task group, if `autoDone` is set, is there
with a counter of at least one, invokes `onTimeout` once if it is set, decrements
the task group once if `autoDone` is set, returns the timeout error, and leaves
every worker queue, every load counter and the slot tokens as they were. -/
theorem C4_timeout_path (lp : ListPool) (opt : TaskOptions) (timerFirst : Bool)
    (h1 : IntHeap) (htask : opt.task.isSome) (hidle : lp.idle = [])
    (hpop : heap.Pop lp.heap = Res.ok (h1, none)) (hwait : 0 < opt.waitTimeOut)
    (htimer : lp.idleRun = [] ∨ timerFirst = true)
    (hg : opt.autoDone = true → ∃ g : Int, opt.tg = some g ∧ 1 ≤ g) :
    ∃ lp', AddTask lp opt timerFirst = Res.ok (lp',
        (if opt.onTimeout then [Event.onTimeout] else [])
          ++ (if opt.autoDone then [Event.wgDone] else []),
        some "任务超时") ∧
      lp'.task = lp.task ∧ lp'.idleRun = lp.idleRun ∧ lp'.heap.Count = lp.heap.Count := by
  have hsame := heapPop_none_same _ _ hpop
  refine ⟨{ lp with heap := h1 }, ?_, rfl, rfl, hsame.1⟩
  have hd : (if opt.autoDone then groupDone opt.tg else none) = none := by
    cases ha : opt.autoDone with
    | false => rfl
    | true =>
      obtain ⟨g, hg1, hg2⟩ := hg ha
      simp only [if_true, hg1, groupDone]
      rw [if_neg (by omega)]
  have htime : ∀ lpx : ListPool, addTaskTimeout lpx opt = Res.ok (lpx,
      (if opt.onTimeout then [Event.onTimeout] else [])
        ++ (if opt.autoDone then [Event.wgDone] else []),
      some "任务超时") := by
    intro lpx
    unfold addTaskTimeout
    rw [hd]
  unfold AddTask
  have hn : opt.task.isNone = false := by
    cases ht : opt.task with
    | none => rw [ht] at htask; cases htask
    | some t => rfl
  have hw : opt.waitTimeOut ≠ 0 := by omega
  have hpick : addTaskPick lp = Res.ok ({ lp with heap := h1 }, -1, true) := by
    unfold addTaskPick
    rw [hidle]
    simp only [hpop, Res.ok_bind]
    rfl
  have hwait : addTaskWait { lp with heap := h1 } opt (-1) =
      Res.ok ({ lp with heap := h1 }, -1) := by
    unfold addTaskWait
    rw [if_neg (fun h => hw h.1)]
  rw [hn]
  simp only [Bool.false_eq_true, if_false, hpick, hwait, Res.ok_bind, if_true]
  cases hir : lp.idleRun with
  | nil => exact htime _
  | cons w rest =>
    rcases htimer with ht | ht
    · rw [hir] at ht; cases ht
    · subst ht
      exact htime _

/-- C4 amended, at the saturated pool `exSaturated`, for a descriptor with
`onTimeout` and `autoDone` set, a task group of counter 1 and a wait of 5. -/
theorem C4_timeout_path_witness :
    ((exTask (TaskResult.returned none)).autoDone = true →
      ∃ g : Int, (exTask (TaskResult.returned none)).tg = some g ∧ 1 ≤ g) ∧
    ∃ lp', AddTask exSaturated (exTask (TaskResult.returned none)) false = Res.ok (lp',
        (if (exTask (TaskResult.returned none)).onTimeout then [Event.onTimeout] else [])
          ++ (if (exTask (TaskResult.returned none)).autoDone then [Event.wgDone] else []),
        some "任务超时") ∧
      lp'.task = exSaturated.task ∧ lp'.idleRun = exSaturated.idleRun ∧
      lp'.heap.Count = exSaturated.heap.Count :=
  ⟨fun _ => ⟨1, rfl, le_refl _⟩,
    C4_timeout_path exSaturated (exTask (TaskResult.returned none)) false exSaturated.heap
      rfl rfl (by decide) (by decide) (Or.inl rfl) (fun _ => ⟨1, rfl, le_refl _⟩)⟩

/-! ## The retry handle (C5) -/

/-- The bounded retry loop on a closure that always returns: it makes `m` attempts,
stops at the first nil, and leaves in `err` what the last attempt returned. -/
theorem retryLoop_returned (errs : Nat → Option String) : ∀ (k i : Nat) (err : Option String),
    ∃ m, m ≤ k ∧ (k = 0 ∨ 0 < m) ∧
      retryLoop (fun j => TaskResult.returned (errs j)) true k i err =
        (List.replicate m Event.task, (if m = 0 then err else errs (i + m - 1)),
          RetryEnd.returned) ∧
      (∀ j, j + 1 < m → errs (i + j) ≠ none) ∧ (m = k ∨ errs (i + m - 1) = none) := by
  intro k
  induction k with
  | zero =>
    intro i err
    exact ⟨0, le_refl _, Or.inl rfl, rfl, fun j hj => by omega, Or.inl rfl⟩
  | succ k ih =>
    intro i err
    cases he : errs i with
    | none =>
      refine ⟨1, by omega, Or.inr (by omega), ?_, fun j hj => by omega, Or.inr ?_⟩
      · unfold retryLoop
        simp [he]
      · simpa using he
    | some e =>
      obtain ⟨m, hm, _, hloop, hall, hlast⟩ := ih (i + 1) (some e)
      refine ⟨m + 1, by omega, Or.inr (by omega), ?_, ?_, ?_⟩
      · unfold retryLoop
        simp only [he, hloop, List.replicate_succ]
        by_cases h0 : m = 0
        · subst h0
          simp [he]
        · have e1 : i + 1 + m - 1 = i + (m + 1) - 1 := by omega
          simp [h0, e1]
      · intro j hj
        cases j with
        | zero => simp [he]
        | succ j =>
          have := hall j (by omega)
          have e2 : i + 1 + j = i + (j + 1) := by omega
          rwa [e2] at this
      · rcases hlast with h1 | h1
        · exact Or.inl (by omega)
        · by_cases h0 : m = 0
          · exact Or.inl (by omega)
          · have e1 : i + 1 + m - 1 = i + (m + 1) - 1 := by omega
            rw [e1] at h1
            exact Or.inr h1

/-- C5, as the claim states it, fails for a sequence of outcomes with a panic.
With two attempts allowed and a closure that panics at its first attempt, the
closure is invoked once, not twice; the deferred function calls `afterFunc` with
nil (`err` was never assigned) although no attempt succeeded; and the panic leaves
`ErrReload`, which recovers nothing. -/
theorem C5_panicking_attempt_counterexample :
    (exPool exPlain).idleRun = [0] ∧ exBoom.task = some (fun _ => TaskResult.panicked "boom") ∧
      ErrReload (exPool exPlain) exBoom 2 true none 0 =
        ([Event.task, Event.afterFunc none], Res.panic) :=
  ⟨rfl, rfl, rfl⟩

/-- C5, amended. For `reNum ≥ 1` and every sequence `errs` of values returned by
the work closure (no attempt panics), `ErrReload`, having taken the slot token
`n`, invokes the closure exactly `k` times, where attempt `k` is the first that
returns nil among the first `reNum` attempts, or `k = reNum` if none does; then it
invokes `afterFunc` (if set) once, with what attempt `k` returned (nil on success,
else the error of the last attempt), decrements the group if `autoDone` is set and
that value is nil (the call `eh.lp.Done()` returning), and sends the token `n` back
to `idleRun`. -/
theorem C5_ErrReload_retries (lp : ListPool) (opt : TaskOptions) (reNum : Int)
    (afterFunc : Bool) (fuel : Nat) (errs : Nat → Option String) (n : Int) (rest : List Int)
    (hre : 1 ≤ reNum) (ht : opt.task = some (fun i => TaskResult.returned (errs i)))
    (hir : lp.idleRun = n :: rest)
    (hcap : (lp.idleRun.length : Int) ≤ lp.maxProcess * lp.jobQueuelen) :
    ∃ k : Nat, 1 ≤ k ∧ (k : Int) ≤ reNum ∧ (∀ j, j + 1 < k → errs j ≠ none) ∧
      (errs (k - 1) = none ∨ (k : Int) = reNum) ∧
      ErrReload lp opt reNum afterFunc none fuel =
        (List.replicate k Event.task
            ++ (if afterFunc then [Event.afterFunc (errs (k - 1))] else [])
            ++ (if opt.autoDone ∧ errs (k - 1) = none then [Event.wgDone] else []),
          Res.ok { lp with idleRun := rest ++ [n] }) := by
  obtain ⟨m, hm, hpos, hloop, hall, hlast⟩ := retryLoop_returned errs reNum.toNat 0 none
  have hm0 : 0 < m := by
    rcases hpos with h | h
    · omega
    · exact h
  refine ⟨m, hm0, by omega, ?_, ?_, ?_⟩
  · intro j hj
    have := hall j hj
    simpa using this
  · rcases hlast with h | h
    · exact Or.inr (by omega)
    · exact Or.inl (by simpa using h)
  · have hsend : chanSend rest (lp.maxProcess * lp.jobQueuelen) n = Res.ok (rest ++ [n]) := by
      apply chanSend_ok
      rw [hir] at hcap
      simp only [List.length_cons] at hcap
      omega
    unfold ErrReload
    rw [hir]
    simp only [ht, if_neg (not_lt.mpr hre), hloop, hsend]
    have h0 : m ≠ 0 := by omega
    simp [h0]

/-- C5 amended, at a pool with one slot token, for three retries of a closure that fails
twice and then succeeds. -/
theorem C5_ErrReload_retries_witness :
    ∃ k : Nat, 1 ≤ k ∧ (k : Int) ≤ 3 ∧
      (∀ j, j + 1 < k → (fun i => if i < 2 then some "e" else none) j ≠ none) ∧
      ((fun i => if i < 2 then some "e" else none) (k - 1) = none ∨ (k : Int) = 3) ∧
      ErrReload (exPool (exTask (TaskResult.returned none)))
          { exTask (TaskResult.returned none) with
            task := some (fun i => TaskResult.returned
              ((fun i => if i < 2 then some "e" else none) i)) } 3 true none 0 =
        (List.replicate k Event.task
            ++ (if true then
                [Event.afterFunc ((fun i => if i < 2 then some "e" else none) (k - 1))]
              else [])
            ++ (if ({ exTask (TaskResult.returned none) with
                  task := some (fun i => TaskResult.returned
                    ((fun i => if i < 2 then some "e" else none) i)) } : TaskOptions).autoDone ∧
                (fun i => if i < 2 then some "e" else none) (k - 1) = none
              then [Event.wgDone] else []),
          Res.ok { exPool (exTask (TaskResult.returned none)) with idleRun := [] ++ [0] }) :=
  C5_ErrReload_retries (exPool (exTask (TaskResult.returned none))) _ 3 true 0
    (fun i => if i < 2 then some "e" else none) 0 [] (by decide) rfl rfl (by decide)

/-- C6. On a non-empty, well-formed load heap in min-heap order whose least load is
below `jobQueuelen` (some worker of `Keys` is below it), `heap.Pop` returns a
worker of the heap whose counter was the minimum over the workers of the heap,
increments exactly that counter by one, leaves the other counters alone, and
leaves `Keys` (a rearrangement of the old `Keys`) in min-heap order. -/
theorem C6_pop_returns_min_and_increments (h : IntHeap) (hwf : h.WF) (hne : h.Keys ≠ [])
    (hheap : h.minHeap) (hmin : ∃ w ∈ h.Keys, h.load w < h.jobQueuelen) :
    ∃ h' id, heap.Pop h = Res.ok (h', some id) ∧ id ∈ h.Keys ∧
      (∀ w ∈ h.Keys, h.load id ≤ h.load w) ∧
      h'.load id = h.load id + 1 ∧
      (∀ w, w ≠ id → h'.load w = h.load w) ∧
      h'.Count.length = h.Count.length ∧
      h'.Keys.Perm h.Keys ∧ h'.minHeap := by
  obtain ⟨hu, hnd, hkm, hc64, hq64⟩ := hwf
  have hlen : 0 < h.Keys.length := List.length_pos.mpr hne
  have hmem := getD_mem_keys h 0 hlen
  have hv := hu.2 _ hmem
  obtain ⟨w, hw, hwlt⟩ := hmin
  have hroot := root_le_load h hheap
  have hlt : h.load (h.Keys.getD 0 0) < h.jobQueuelen := lt_of_le_of_lt (hroot w hw) hwlt
  obtain ⟨h', he, hr, hm⟩ := heapPop_some h hu hlen (hkm _ hmem) hlt
  have h64 : inInt64 (h.load (h.Keys.getD 0 0) + 1) := by
    have := hc64 _ (load_mem_count h _ hv.1 hv.2)
    unfold inInt64 at *
    omega
  rw [wrap64_of_inInt64 _ h64] at hr
  refine ⟨h', h.Keys.getD 0 0, he, hmem, hroot, ?_, ?_, ?_, hr.2.2.2.2, hm hheap hnd⟩
  · rw [load_congr _ h' hr.1, load_setCount h _ _ _ hv.1 hv.2, if_pos rfl]
  · intro w hne
    rw [load_congr _ h' hr.1, load_setCount h _ _ _ hv.1 hv.2, if_neg hne]
  · rw [hr.1]
    exact length_setIdx _ _ _

/-- C6 at `exHeap`: the hypotheses hold there. -/
theorem C6_pop_returns_min_and_increments_witness :
    exHeap.WF ∧ exHeap.Keys ≠ [] ∧ exHeap.minHeap ∧
    (∃ w ∈ exHeap.Keys, exHeap.load w < exHeap.jobQueuelen) ∧
    ∃ h' id, heap.Pop exHeap = Res.ok (h', some id) ∧ id ∈ exHeap.Keys ∧
      (∀ w ∈ exHeap.Keys, exHeap.load id ≤ exHeap.load w) ∧
      h'.load id = exHeap.load id + 1 ∧
      (∀ w, w ≠ id → h'.load w = exHeap.load w) ∧
      h'.Count.length = exHeap.Count.length ∧
      h'.Keys.Perm exHeap.Keys ∧ h'.minHeap :=
  ⟨by decide, by decide, by decide, ⟨1, by decide, by decide⟩,
    C6_pop_returns_min_and_increments exHeap (by decide) (by decide) (by decide)
      ⟨1, by decide, by decide⟩⟩

/-! ## `heap.Pop` at its limits (C7) -/

theorem load_of_idx (h : IntHeap) (id c : Int) (hc : idx h.Count id = Res.ok c) :
    h.load id = c := by
  have hr := idx_ok_range _ _ _ hc
  rw [idx_count h id hr.1 hr.2] at hc
  cases hc
  rfl

theorem Pop_some_below (h h' : IntHeap) (id : Int) (hp : h.Pop = Res.ok (h', some id)) :
    h.load id < h.jobQueuelen := by
  unfold IntHeap.Pop at hp
  split at hp
  · cases hp
  · simp only [] at hp
    obtain ⟨id', _, hp⟩ := Res.bind_eq_ok _ _ _ hp
    split at hp
    · cases hp
    · split at hp
      · cases hp
      · obtain ⟨c, hc, hp⟩ := Res.bind_eq_ok _ _ _ hp
        split at hp
        · cases hp
        · rename_i hlt
          obtain ⟨h2, _, hp⟩ := Res.bind_eq_ok _ _ _ hp
          cases hp
          rw [load_of_idx h id c hc]
          omega

/-- The worker `heap.Pop` returns had its counter below `jobQueuelen`. -/
theorem heapPop_some_below (h h' : IntHeap) (id : Int)
    (hp : heap.Pop h = Res.ok (h', some id)) : h.load id < h.jobQueuelen := by
  unfold heap.Pop at hp
  simp only [] at hp
  obtain ⟨h1, hs, hp⟩ := Res.bind_eq_ok _ _ _ hp
  obtain ⟨⟨h2, b⟩, hd, hp⟩ := Res.bind_eq_ok _ _ _ hp
  simp only [] at hp
  have hsame := (Swap_same _ _ _ _ hs).sbTrans (down_same _ _ _ _ _ hd)
  have := Pop_some_below h2 h' id hp
  rwa [load_congr h h2 hsame.1, hsame.2.2.2] at this

/-- On a usable, non-empty heap whose first worker has reached `jobQueuelen`,
`heap.Pop` returns no worker and changes no counter. -/
theorem heapPop_full (h : IntHeap) (hu : h.Usable) (hne : h.Keys ≠ [])
    (hfull : h.jobQueuelen ≤ h.load (h.Keys.getD 0 0)) :
    ∃ h', heap.Pop h = Res.ok (h', none) ∧ h'.Count = h.Count := by
  obtain ⟨h', he, hr⟩ := heapPop_none h hu (List.length_pos.mpr hne) (Or.inr hfull)
  exact ⟨h', he, hr.1⟩

/-- C7 at the failing input, the heap without worker.  The method `Pop` alone
returns nil there, but `heap.Pop`, which `AddTask` calls, first calls `Swap(0, -1)`
and panics; so does `AddTask` on the pool of `NewPool(0, 1)`. -/
theorem C7_pop_on_empty_heap_panics :
    (∀ q : Int, (NewIntHeap q).Pop = Res.ok (NewIntHeap q, none) ∧
        heap.Pop (NewIntHeap q) = Res.panic) ∧
      ∃ lp, NewPool 0 1 = Res.ok lp ∧ lp.heap = NewIntHeap 1 ∧
        AddTask lp exPlain false = Res.panic :=
  ⟨fun _ => ⟨rfl, rfl⟩, _, rfl, rfl, rfl⟩

/-! ## The bounds of the load counters (C8) -/

/-- C8, as the claim states it, fails.  In the pool of `NewPool(1, 1)` two
submissions, the first to the idle worker and the second on a slot token, leave
the counter of worker 0 at 2, above the queue length 1.  In the pool of
`NewPool(2, 2)`, with both workers executing a task, four more submissions leave
the counter of worker 1 at 4: one task executing and three in its queue.  And in
the pool of `NewPool(1, 1)`, when worker 0 receives and completes the task between
the send of `AddTask` and its `heap.Add`, the counter of worker 0 is `-1` until
`heap.Add` is called. -/
theorem C8_load_above_queue_len_counterexample :
    (∃ lp0 s, NewPool 1 1 = Res.ok lp0 ∧
      runPool [PoolOp.addTask exPlain false, PoolOp.addTask exPlain false]
        (PoolState.start lp0) = Res.ok s ∧
      s.lp.jobQueuelen = 1 ∧ s.call = none ∧ s.lp.heap.load 0 = 2) ∧
    (∃ lp0 s, NewPool 2 2 = Res.ok lp0 ∧
      runPool [PoolOp.addTask exPlain false, PoolOp.receive 0, PoolOp.addTask exPlain false,
          PoolOp.receive 1, PoolOp.addTask exPlain false, PoolOp.addTask exPlain false,
          PoolOp.addTask exPlain false, PoolOp.addTask exPlain false]
        (PoolState.start lp0) = Res.ok s ∧
      s.lp.jobQueuelen = 2 ∧ s.call = none ∧ s.lp.heap.load 1 = 4 ∧ s.lp.queued 1 = 3 ∧
      s.busy 1 = 1) ∧
    (∃ lp0 s, NewPool 1 1 = Res.ok lp0 ∧
      runPool [PoolOp.enter exPlain, PoolOp.advance false, PoolOp.receive 0, PoolOp.endTask 0,
          PoolOp.done 0] (PoolState.start lp0) = Res.ok s ∧
      s.call = some (exPlain, Pending.count 0) ∧ s.lp.heap.load 0 = -1) :=
  ⟨⟨_, _, rfl, rfl, rfl, rfl, by decide⟩,
    ⟨_, _, rfl, rfl, rfl, rfl, by decide, by decide, by decide⟩,
    ⟨_, _, rfl, rfl, rfl, by decide⟩⟩

/-- The pool of `NewPool` with other slot tokens in `idleRun` still satisfies the
invariant: the workers publish their tokens concurrently, in an order and at a
time that the scheduler chooses. -/
theorem tokens_inv (N : Nat) (q : Int) (lp0 : ListPool) (tokens : List Int)
    (h : PoolInv N q lp0 (fun _ => 0)) (ht : ∀ w ∈ tokens, 0 ≤ w ∧ w < N) :
    RunInv N q (PoolState.start { lp0 with idleRun := tokens }) :=
  start_inv N q { lp0 with idleRun := tokens } { h with idleRunIds := ht }

/-- C8, amended. For `N ≥ 1` and `q ≥ 1` (with `q + 2` an `int64`), `NewPool(N, q)`
returns a pool, and in every state reached from it by a run (the operations of the
calls of `AddTask` of one submitter, interleaved in any way with the workers
receiving a descriptor, ending a task and calling `Done`; the slot tokens of the
start-up in any order, `tokens`), the counter of every worker `w` is the length of
its queue `task[w]`, plus one when the worker has received a descriptor and not
yet called `Done`, plus one from a `heap.Pop` that chose `w` to the send, minus
one from a send to `w` to its `heap.Add`.  So `-1 ≤ load[w] ≤ q + 2`, and
`0 ≤ load[w]` when no call of `AddTask` is in progress. -/
theorem C8_load_bounds (N : Nat) (q : Int) (hN : 1 ≤ N) (hq : 1 ≤ q)
    (hsize : q + 2 < 2 ^ 63) :
    ∃ lp0, NewPool N q = Res.ok lp0 ∧
      ∀ (tokens : List Int), (tokens = lp0.idleRun ∨ ∀ w ∈ tokens, 0 ≤ w ∧ w < N) →
      ∀ (ops : List PoolOp) (s : PoolState),
        runPool ops (PoolState.start { lp0 with idleRun := tokens }) = Res.ok s →
        ∀ w : Int, 0 ≤ w → w < N →
          s.lp.heap.load w = s.lp.queued w + s.busy w + aheadOf s.call w ∧
          -1 ≤ s.lp.heap.load w ∧ s.lp.heap.load w ≤ q + 2 ∧
          (s.call = none → 0 ≤ s.lp.heap.load w) := by
  obtain ⟨lp0, hnew, hinv0⟩ := NewPool_spec N q hN (by omega) (by omega)
  refine ⟨lp0, hnew, fun tokens ht ops s hrun w hw0 hw1 => ?_⟩
  have ht' : ∀ w ∈ tokens, 0 ≤ w ∧ w < N := by
    rcases ht with ht | ht
    · rw [ht]
      exact hinv0.idleRunIds
    · exact ht
  exact RunInv_bounds N q s
    (runPool_inv N q hsize ops _ s (tokens_inv N q lp0 tokens hinv0 ht') hrun) w hw0 hw1

/-- C8 amended, at `N = 1`, `q = 1`. -/
theorem C8_load_bounds_witness :
    1 ≤ 1 ∧ (1 : Int) ≤ 1 ∧ (1 : Int) + 2 < 2 ^ 63 ∧
    ∃ lp0, NewPool ((1 : Nat) : Int) 1 = Res.ok lp0 ∧
      ∀ (tokens : List Int),
        (tokens = lp0.idleRun ∨ ∀ w ∈ tokens, 0 ≤ w ∧ w < ((1 : Nat) : Int)) →
      ∀ (ops : List PoolOp) (s : PoolState),
        runPool ops (PoolState.start { lp0 with idleRun := tokens }) = Res.ok s →
        ∀ w : Int, 0 ≤ w → w < ((1 : Nat) : Int) →
          s.lp.heap.load w = s.lp.queued w + s.busy w + aheadOf s.call w ∧
          -1 ≤ s.lp.heap.load w ∧ s.lp.heap.load w ≤ 1 + 2 ∧
          (s.call = none → 0 ≤ s.lp.heap.load w) :=
  ⟨le_refl _, le_refl _, by decide,
    C8_load_bounds 1 1 (le_refl _) (le_refl _) (by decide)⟩

/-! ## The heap order under `Add` and `Done` (C9) -/

/-- C9 at the failing input.  Four workers are pushed with load 0; then `Add(0)`,
`Add(1)`, `Add(2)`, `Add(3)`, `Done(0)`.  Worker 0, at position 3 of `Keys`, has
load 0, and the worker at the top has load 1: `KeyMap` gives position 0 for every
worker, so `Add` and `Done` re-sift at position 0, not where the worker is.  The
same state is reached by `NewPool(4, 2)`, four submissions, and worker 0
receiving and completing its task. -/
theorem C9_top_not_minimum :
    pushWorkers 4 (NewIntHeap 2) = Res.ok exFour ∧
      runHeap [HeapOp.add 0, HeapOp.add 1, HeapOp.add 2, HeapOp.add 3, HeapOp.done 0] exFour =
        Res.ok { exFour with Count := [0, 1, 1, 1], Keys := [3, 1, 2, 0] } ∧
      (∀ w ∈ [0, 1, 2, 3], mapGet exFour.KeyMap w = some 0) ∧
      ∃ lp0 s, NewPool 4 2 = Res.ok lp0 ∧
        runPool [PoolOp.addTask exPlain false, PoolOp.addTask exPlain false,
          PoolOp.addTask exPlain false, PoolOp.addTask exPlain false, PoolOp.receive 0,
          PoolOp.endTask 0, PoolOp.done 0] (PoolState.start lp0) = Res.ok s ∧
        s.lp.heap.keyAt 0 = 1 ∧ (0 : Int) ∈ s.lp.heap.Keys ∧ s.lp.heap.load 0 = 0 := by
  refine ⟨by decide, by decide, by decide, _, _, rfl, rfl, by decide, by decide, by decide⟩

/-! ## Operations on an unknown worker id (C10) -/

/-- C10, as the claim states it, fails: on the heap of one worker after
`Delete(0)`, worker 0 is absent from `KeyMap`, and `Add(0)` and `Done(0)` still
change its load counter. -/
theorem C10_add_done_change_counter_counterexample :
    (∃ h0, pushWorkers 1 (NewIntHeap 1) = Res.ok h0 ∧ h0.Delete 0 = Res.ok exDeleted) ∧
      mapGet exDeleted.KeyMap 0 = none ∧ exDeleted.Count = [0] ∧
      exDeleted.Add 0 = Res.ok { exDeleted with Count := [1] } ∧
      exDeleted.Done 0 = Res.ok { exDeleted with Count := [-1] } := by
  refine ⟨⟨_, rfl, by decide⟩, by decide, rfl, by decide, by decide⟩

/-- C10, amended. For a worker id absent from `KeyMap`: `Delete`, called with the
lock free, returns and leaves `Keys`, `KeyMap` and every load counter unchanged;
`Add` and `Done`, when the id has a counter in `Count`, return without re-sifting,
leave `Keys`, `KeyMap` and every other counter unchanged, and move the counter of
that id by `+1` and `-1` (modulo `2^64`). -/
theorem C10_unknown_id (h : IntHeap) (id : Int) (hk : mapGet h.KeyMap id = none) :
    (h.mutexLocked = false →
      ∃ h', h.Delete id = Res.ok h' ∧ h'.Keys = h.Keys ∧ h'.KeyMap = h.KeyMap ∧
        h'.Count = h.Count) ∧
    (0 ≤ id → id < h.Count.length →
      ∃ ha hd, h.Add id = Res.ok ha ∧ h.Done id = Res.ok hd ∧
        ha.Keys = h.Keys ∧ ha.KeyMap = h.KeyMap ∧ hd.Keys = h.Keys ∧ hd.KeyMap = h.KeyMap ∧
        ha.load id = wrap64 (h.load id + 1) ∧ hd.load id = wrap64 (h.load id - 1) ∧
        ∀ w, w ≠ id → ha.load w = h.load w ∧ hd.load w = h.load w) := by
  constructor
  · intro hl
    refine ⟨{ h with mutexLocked := true }, ?_, rfl, rfl, rfl⟩
    unfold IntHeap.Delete
    rw [hl, hk]
    rfl
  · intro h0 h1
    refine ⟨h.setCount id (wrap64 (h.load id + 1)), h.setCount id (wrap64 (h.load id - 1)),
      ?_, ?_, rfl, rfl, rfl, rfl, ?_, ?_, ?_⟩
    · unfold IntHeap.Add
      rw [idx_count h id h0 h1]
      simp only [Res.ok_bind]
      show (match mapGet h.KeyMap id with
        | none => pure (h.setCount id (wrap64 (h.load id + 1)))
        | some index => heap.Fix (h.setCount id (wrap64 (h.load id + 1))) index) = _
      rw [hk]
      rfl
    · unfold IntHeap.Done
      rw [idx_count h id h0 h1]
      simp only [Res.ok_bind]
      show (match mapGet h.KeyMap id with
        | none => pure (h.setCount id (wrap64 (h.load id - 1)))
        | some index => heap.Fix (h.setCount id (wrap64 (h.load id - 1))) index) = _
      rw [hk]
      rfl
    · rw [load_setCount h id id _ h0 h1, if_pos rfl]
    · rw [load_setCount h id id _ h0 h1, if_pos rfl]
    · intro w hw
      rw [load_setCount h id w _ h0 h1, if_neg hw, load_setCount h id w _ h0 h1, if_neg hw]
      exact ⟨rfl, rfl⟩

/-- C10 amended, at the heap of one worker after `Delete(0)` and the id 0: every
hypothesis holds there. -/
theorem C10_unknown_id_witness :
    mapGet exDeleted.KeyMap 0 = none ∧ exDeleted.mutexLocked = false ∧
    (0 : Int) ≤ 0 ∧ (0 : Int) < exDeleted.Count.length ∧
    (∃ h', exDeleted.Delete 0 = Res.ok h' ∧ h'.Keys = exDeleted.Keys ∧
        h'.KeyMap = exDeleted.KeyMap ∧ h'.Count = exDeleted.Count) ∧
    (∃ ha hd, exDeleted.Add 0 = Res.ok ha ∧ exDeleted.Done 0 = Res.ok hd ∧
        ha.Keys = exDeleted.Keys ∧ ha.KeyMap = exDeleted.KeyMap ∧
        hd.Keys = exDeleted.Keys ∧ hd.KeyMap = exDeleted.KeyMap ∧
        ha.load 0 = wrap64 (exDeleted.load 0 + 1) ∧
        hd.load 0 = wrap64 (exDeleted.load 0 - 1) ∧
        ∀ w, w ≠ 0 → ha.load w = exDeleted.load w ∧ hd.load w = exDeleted.load w) :=
  ⟨by decide, rfl, by decide, by decide,
    (C10_unknown_id exDeleted 0 (by decide)).1 rfl,
    (C10_unknown_id exDeleted 0 (by decide)).2 (by decide) (by decide)⟩

/-! ## Shutdown: what `Close` leaves in the channels (C11) -/

/-- C11 at the failing input.  `Close` on the pool of `NewPool(1, 2)`, with no
task group and nothing submitted, returns with one of the two slot tokens still in
`idleRun`; on the pool of `NewPool(2, 2)` it also leaves a worker id in `idle`.
Each loop `for i := 0; i < len(ch); i++ { <-ch }` stops when `i` meets the
shrinking `len(ch)`, so a channel that held `k` items keeps `k / 2` of them. -/
theorem C11_close_leaves_items :
    (∃ lp0 lp, NewPool 1 2 = Res.ok lp0 ∧ Close lp0 [] = Res.ok lp ∧
        lp0.idleRun = [0, 0] ∧ lp.idleRun = [0]) ∧
      (∃ lp0 lp, NewPool 2 2 = Res.ok lp0 ∧ Close lp0 [] = Res.ok lp ∧
        lp0.idle = [0, 1] ∧ lp.idle = [1] ∧ lp.idleRun = [1, 1]) ∧
      ∀ (lp lp1 : ListPool), Close lp [] = Res.ok lp1 →
        lp1.task = lp.task.map (fun ch => ch.drop ((ch.length + 1) / 2)) ∧
        lp1.statusWorker = lp.statusWorker.map (fun ch => ch.drop ((ch.length + 1) / 2)) ∧
        lp1.idleRun = lp.idleRun.drop ((lp.idleRun.length + 1) / 2) ∧
        lp1.workRun = lp.workRun.drop ((lp.workRun.length + 1) / 2) ∧
        lp1.idle = lp.idle.drop ((lp.idle.length + 1) / 2) := by
  refine ⟨⟨_, _, rfl, rfl, rfl, rfl⟩, ⟨_, _, rfl, rfl, rfl, rfl, rfl⟩, ?_⟩
  intro lp lp1 hc
  unfold Close at hc
  simp only [List.any_nil, Bool.false_eq_true, if_false, drain_eq, drainAll_eq,
    Res.ok_bind] at hc
  have e := Res.ok.inj hc
  subst e
  exact ⟨rfl, rfl, rfl, rfl, rfl⟩

/-! ## A successful submission counts for exactly one worker (C12) -/

theorem addTaskPick_task (lp lp1 : ListPool) (n : Int) (add : Bool)
    (hp : addTaskPick lp = Res.ok (lp1, n, add)) : lp1.task = lp.task := by
  unfold addTaskPick at hp
  split at hp
  · have e := congrArg Prod.fst (Res.ok.inj hp)
    simp only [] at e
    subst e
    rfl
  · obtain ⟨⟨h1, w⟩, _, hp⟩ := Res.bind_eq_ok _ _ _ hp
    simp only [] at hp
    split at hp
    · obtain ⟨⟨tok, rest⟩, _, hp⟩ := Res.bind_eq_ok _ _ _ hp
      have e := congrArg Prod.fst (Res.ok.inj hp)
      simp only [] at e
      subst e
      rfl
    · have e := congrArg Prod.fst (Res.ok.inj hp)
      simp only [] at e
      subst e
      rfl

theorem addTaskWait_task (lp1 lp2 : ListPool) (opt : TaskOptions) (n n2 : Int)
    (hw : addTaskWait lp1 opt n = Res.ok (lp2, n2)) : lp2.task = lp1.task := by
  unfold addTaskWait at hw
  split at hw
  · obtain ⟨⟨w, rest⟩, _, hw⟩ := Res.bind_eq_ok _ _ _ hw
    have e := congrArg Prod.fst (Res.ok.inj hw)
    simp only [] at e
    subst e
    rfl
  · have e := congrArg Prod.fst (Res.ok.inj hw)
    simp only [] at e
    subst e
    rfl

theorem addTaskPublish_task (lp lp' : ListPool) (opt : TaskOptions) (n : Int) (add : Bool)
    (evs : List Event) (r : Option String)
    (hp : addTaskPublish lp opt n add = Res.ok (lp', evs, r)) :
    ∃ qu, idx lp.task n = Res.ok qu ∧ lp'.task = setIdx lp.task n (qu ++ [opt]) := by
  unfold addTaskPublish at hp
  obtain ⟨q0, hq0, hp⟩ := Res.bind_eq_ok _ _ _ hp
  obtain ⟨q1, hsend, hp⟩ := Res.bind_eq_ok _ _ _ hp
  obtain ⟨_, rfl⟩ := chanSend_inv _ _ _ _ hsend
  simp only [] at hp
  refine ⟨q0, hq0, ?_⟩
  split at hp
  · obtain ⟨h', _, hp⟩ := Res.bind_eq_ok _ _ _ hp
    have e := congrArg Prod.fst (Res.ok.inj hp)
    simp only [] at e
    subst e
    rfl
  · have e := congrArg Prod.fst (Res.ok.inj hp)
    simp only [] at e
    subst e
    rfl

theorem addTaskTimeout_err (lp lp' : ListPool) (opt : TaskOptions) (evs : List Event)
    (hp : addTaskTimeout lp opt = Res.ok (lp', evs, none)) : False := by
  unfold addTaskTimeout at hp
  split at hp
  · cases hp
  · have e := congrArg (fun x => x.2.2) (Res.ok.inj hp)
    simp only [] at e
    cases e

theorem upLoop_same : ∀ (fuel : Nat) (h h' : IntHeap) (j : Int),
    heap.upLoop fuel h j = Res.ok h' → SameButKeys h h' := by
  intro fuel
  induction fuel with
  | zero => intro h h' j hu; cases hu
  | succ f ih =>
    intro h h' j hu
    unfold heap.upLoop at hu
    simp only [] at hu
    split at hu
    · cases hu; exact SameButKeys.sbRefl h
    · obtain ⟨lt, _, hu⟩ := Res.bind_eq_ok _ _ _ hu
      split at hu
      · cases hu; exact SameButKeys.sbRefl h
      · obtain ⟨h1, hs, hu⟩ := Res.bind_eq_ok _ _ _ hu
        exact (Swap_same _ _ _ _ hs).sbTrans (ih _ _ _ hu)

/-- `heap.Fix` changes nothing but `Keys`. -/
theorem Fix_same (h h' : IntHeap) (i : Int) (hf : heap.Fix h i = Res.ok h') :
    SameButKeys h h' := by
  unfold heap.Fix at hf
  obtain ⟨⟨h1, moved⟩, hd, hf⟩ := Res.bind_eq_ok _ _ _ hf
  simp only [] at hf
  have h1s := down_same _ _ _ _ _ hd
  split at hf
  · exact h1s.sbTrans (upLoop_same _ _ _ _ hf)
  · cases hf
    exact h1s

/-- `Add`, when it returns, has incremented the counter of `n` and no other. -/
theorem Add_count (h h' : IntHeap) (n : Int) (ha : h.Add n = Res.ok h') :
    ∃ c, idx h.Count n = Res.ok c ∧ h'.Count = setIdx h.Count n (wrap64 (c + 1)) := by
  unfold IntHeap.Add at ha
  obtain ⟨c, hc, ha⟩ := Res.bind_eq_ok _ _ _ ha
  refine ⟨c, hc, ?_⟩
  simp only [] at ha
  split at ha
  · cases ha
    rfl
  · exact (Fix_same _ _ _ ha).1

/-- The method `Pop`, when it returns a worker, has incremented the counter of
that worker and no other. -/
theorem Pop_some_count (h h' : IntHeap) (id : Int) (hp : h.Pop = Res.ok (h', some id)) :
    ∃ c, idx h.Count id = Res.ok c ∧ h'.Count = setIdx h.Count id (wrap64 (c + 1)) := by
  unfold IntHeap.Pop at hp
  split at hp
  · cases hp
  · simp only [] at hp
    obtain ⟨id', _, hp⟩ := Res.bind_eq_ok _ _ _ hp
    split at hp
    · cases hp
    · split at hp
      · cases hp
      · obtain ⟨c, hc, hp⟩ := Res.bind_eq_ok _ _ _ hp
        split at hp
        · cases hp
        · obtain ⟨h2, hfix, hp⟩ := Res.bind_eq_ok _ _ _ hp
          have e := Res.ok.inj hp
          have e1 := congrArg Prod.fst e
          have e2 := congrArg Prod.snd e
          simp only [] at e1 e2
          have e3 : id' = id := Option.some.inj e2
          subst e1 e3
          exact ⟨c, hc, (Fix_same _ _ _ hfix).1⟩

/-- `heap.Pop`, when it returns a worker, has incremented the counter of that
worker and no other. -/
theorem heapPop_some_count (h h' : IntHeap) (id : Int)
    (hp : heap.Pop h = Res.ok (h', some id)) :
    ∃ c, idx h.Count id = Res.ok c ∧ h'.Count = setIdx h.Count id (wrap64 (c + 1)) := by
  unfold heap.Pop at hp
  simp only [] at hp
  obtain ⟨h1, hs, hp⟩ := Res.bind_eq_ok _ _ _ hp
  obtain ⟨⟨h2, b⟩, hd, hp⟩ := Res.bind_eq_ok _ _ _ hp
  simp only [] at hp
  have hsame := (Swap_same _ _ _ _ hs).sbTrans (down_same _ _ _ _ _ hd)
  obtain ⟨c, hc, hcount⟩ := Pop_some_count h2 h' id hp
  rw [hsame.1] at hc hcount
  exact ⟨c, hc, hcount⟩

/-- The choice of a worker by `AddTask`: with `add` still `true` no counter has
changed; with `add` set to `false`, `heap.Pop` has incremented the counter of the
worker chosen, and no other. -/
theorem addTaskPick_count (lp lp1 : ListPool) (n : Int) (add : Bool)
    (hp : addTaskPick lp = Res.ok (lp1, n, add)) :
    (add = true ∧ lp1.heap.Count = lp.heap.Count) ∨
    (add = false ∧ n ≠ -1 ∧
      ∃ c, idx lp.heap.Count n = Res.ok c ∧
        lp1.heap.Count = setIdx lp.heap.Count n (wrap64 (c + 1))) := by
  unfold addTaskPick at hp
  split at hp
  · have e := Res.ok.inj hp
    have e1 := congrArg Prod.fst e
    have e3 := congrArg (fun x => x.2.2) e
    simp only [] at e1 e3
    subst e1 e3
    exact Or.inl ⟨rfl, rfl⟩
  · obtain ⟨⟨h1, w⟩, hpop, hp⟩ := Res.bind_eq_ok _ _ _ hp
    simp only [] at hp
    split at hp
    · rename_i wid
      obtain ⟨⟨tok, rest⟩, _, hp⟩ := Res.bind_eq_ok _ _ _ hp
      have e := Res.ok.inj hp
      have e1 := congrArg Prod.fst e
      have e2 := congrArg (fun x => x.2.1) e
      have e3 := congrArg (fun x => x.2.2) e
      simp only [] at e1 e2 e3
      subst e1 e2 e3
      obtain ⟨c, hc, hcount⟩ := heapPop_some_count lp.heap h1 wid hpop
      have hr := idx_ok_range _ _ _ hc
      exact Or.inr ⟨rfl, by omega, c, hc, hcount⟩
    · have e := Res.ok.inj hp
      have e1 := congrArg Prod.fst e
      have e3 := congrArg (fun x => x.2.2) e
      simp only [] at e1 e3
      subst e1 e3
      exact Or.inl ⟨rfl, (heapPop_none_same _ _ hpop).1⟩

theorem addTaskWait_heap (lp1 lp2 : ListPool) (opt : TaskOptions) (n n2 : Int)
    (hw : addTaskWait lp1 opt n = Res.ok (lp2, n2)) :
    lp2.heap = lp1.heap ∧ (n ≠ -1 → n2 = n) := by
  unfold addTaskWait at hw
  split at hw
  · rename_i hc
    obtain ⟨⟨w, rest⟩, _, hw⟩ := Res.bind_eq_ok _ _ _ hw
    have e := congrArg Prod.fst (Res.ok.inj hw)
    simp only [] at e
    subst e
    exact ⟨rfl, fun hne => absurd hc.2 hne⟩
  · have e := Res.ok.inj hw
    have e1 := congrArg Prod.fst e
    have e2 := congrArg Prod.snd e
    simp only [] at e1 e2
    subst e1 e2
    exact ⟨rfl, fun _ => rfl⟩

/-- The end of `AddTask`: the counter of `n` is incremented by `Add` exactly when
`add` is still `true`. -/
theorem addTaskPublish_count (lp lp' : ListPool) (opt : TaskOptions) (n : Int) (add : Bool)
    (evs : List Event) (r : Option String)
    (hp : addTaskPublish lp opt n add = Res.ok (lp', evs, r)) :
    (add = false ∧ lp'.heap.Count = lp.heap.Count) ∨
    (add = true ∧ ∃ c, idx lp.heap.Count n = Res.ok c ∧
      lp'.heap.Count = setIdx lp.heap.Count n (wrap64 (c + 1))) := by
  unfold addTaskPublish at hp
  obtain ⟨q0, hq0, hp⟩ := Res.bind_eq_ok _ _ _ hp
  obtain ⟨q1, hsend, hp⟩ := Res.bind_eq_ok _ _ _ hp
  simp only [] at hp
  split at hp
  · rename_i hadd
    obtain ⟨h', ha, hp⟩ := Res.bind_eq_ok _ _ _ hp
    have e := congrArg Prod.fst (Res.ok.inj hp)
    simp only [] at e
    subst e
    obtain ⟨c, hc, hcount⟩ := Add_count _ _ _ ha
    exact Or.inr ⟨hadd, c, hc, hcount⟩
  · rename_i hadd
    have e := congrArg Prod.fst (Res.ok.inj hp)
    simp only [] at e
    subst e
    exact Or.inl ⟨by simpa using hadd, rfl⟩

/-- A call of `AddTask` that returns nil has sent the descriptor to one queue,
touched no other queue, and incremented the counter of the worker of that queue
and no other counter. -/
theorem AddTask_effect (lp lp' : ListPool) (opt : TaskOptions) (timerFirst : Bool)
    (evs : List Event) (hp : AddTask lp opt timerFirst = Res.ok (lp', evs, none)) :
    ∃ n qu c, idx lp.task n = Res.ok qu ∧ lp'.task = setIdx lp.task n (qu ++ [opt]) ∧
      idx lp.heap.Count n = Res.ok c ∧
      lp'.heap.Count = setIdx lp.heap.Count n (wrap64 (c + 1)) := by
  unfold AddTask at hp
  split at hp
  · have e := congrArg (fun x => x.2.2) (Res.ok.inj hp)
    simp only [] at e
    cases e
  · obtain ⟨⟨lp1, n, add⟩, hpick, hp⟩ := Res.bind_eq_ok _ _ _ hp
    simp only [] at hp
    obtain ⟨⟨lp2, n2⟩, hwait, hp⟩ := Res.bind_eq_ok _ _ _ hp
    simp only [] at hp
    have ht : lp2.task = lp.task :=
      (addTaskWait_task lp1 lp2 opt n n2 hwait).trans (addTaskPick_task lp lp1 n add hpick)
    obtain ⟨hheap, hn2⟩ := addTaskWait_heap lp1 lp2 opt n n2 hwait
    have hpc := addTaskPick_count lp lp1 n add hpick
    have key : ∀ (lpx : ListPool) (m : Int), lpx.task = lp2.task → lpx.heap = lp2.heap →
        (add = false → m = n) →
        addTaskPublish lpx opt m add = Res.ok (lp', evs, none) →
        ∃ n qu c, idx lp.task n = Res.ok qu ∧ lp'.task = setIdx lp.task n (qu ++ [opt]) ∧
          idx lp.heap.Count n = Res.ok c ∧
          lp'.heap.Count = setIdx lp.heap.Count n (wrap64 (c + 1)) := by
      intro lpx m htx hhx hm hpub
      obtain ⟨qu, hq, hset⟩ := addTaskPublish_task lpx lp' opt m add evs none hpub
      rw [htx, ht] at hq hset
      rcases addTaskPublish_count lpx lp' opt m add evs none hpub with
        ⟨ha, hcnt⟩ | ⟨ha, c, hc, hcnt⟩
      · rcases hpc with ⟨ha', _⟩ | ⟨_, _, c, hc, hcnt1⟩
        · rw [ha] at ha'; cases ha'
        · have hmn := hm ha
          subst hmn
          rw [hhx, hheap] at hcnt
          exact ⟨m, qu, c, hq, hset, hc, hcnt.trans hcnt1⟩
      · rcases hpc with ⟨_, hcnt1⟩ | ⟨ha', _⟩
        · rw [hhx, hheap, hcnt1] at hc hcnt
          exact ⟨m, qu, c, hq, hset, hc, hcnt⟩
        · rw [ha] at ha'; cases ha'
    split at hp
    · rename_i hneg
      split at hp
      · exact (addTaskTimeout_err _ _ _ _ hp).elim
      · rename_i w rest _
        split at hp
        · exact (addTaskTimeout_err _ _ _ _ hp).elim
        · refine key { lp2 with idleRun := rest } w rfl rfl (fun ha => ?_) hp
          rcases hpc with ⟨ha', _⟩ | ⟨_, hne, _⟩
          · rw [ha] at ha'; cases ha'
          · have := hn2 hne
            omega
    · refine key lp2 n2 rfl rfl (fun ha => ?_) hp
      rcases hpc with ⟨ha', _⟩ | ⟨_, hne, _⟩
      · rw [ha] at ha'; cases ha'
      · exact hn2 hne

theorem load_outside (h : IntHeap) (w : Int) (hw : w < 0 ∨ (h.Count.length : Int) ≤ w) :
    h.load w = 0 := by
  unfold IntHeap.load
  split
  · have : h.Count.length ≤ w.toNat := by omega
    rw [List.getD_eq_getElem?_getD, List.getElem?_eq_none this]
    rfl
  · rfl

theorem mem_count_load (h : IntHeap) (c : Int) (hc : c ∈ h.Count) :
    ∃ w : Int, 0 ≤ w ∧ w < h.Count.length ∧ h.load w = c := by
  obtain ⟨i, hi, he⟩ := List.mem_iff_getElem.mp hc
  refine ⟨(i : Int), by omega, by exact_mod_cast hi, ?_⟩
  unfold IntHeap.load
  rw [if_pos (by omega), Int.toNat_ofNat, List.getD_eq_getElem _ _ hi]
  exact he

/-- In every state of a run from `NewPool(N, q)`, every load counter is an `int64`
that can be incremented without wrapping. -/
theorem runPool_counters (N : Nat) (q : Int) (lp0 : ListPool) (ops : List PoolOp)
    (s : PoolState) (hN : 1 ≤ N) (hq : 1 ≤ q) (hsize : q + 3 < 2 ^ 63)
    (hnew : NewPool N q = Res.ok lp0) (hrun : runPool ops (PoolState.start lp0) = Res.ok s) :
    ∀ c ∈ s.lp.heap.Count, inInt64 c ∧ inInt64 (c + 1) := by
  obtain ⟨lpA, hnewA, hinv0⟩ := NewPool_spec N q hN (by omega) (by omega)
  rw [hnew] at hnewA
  have e := Res.ok.inj hnewA
  subst e
  have hrinv := runPool_inv N q (by omega) ops _ s (start_inv N q lp0 hinv0) hrun
  intro c hc
  obtain ⟨w, hw0, hw1, hl⟩ := mem_count_load s.lp.heap c hc
  have hwN : w < N := by have := hrinv.2.1.countLen; omega
  obtain ⟨_, hlo, hhi, _⟩ := RunInv_bounds N q s hrinv w hw0 hwN
  unfold inInt64
  omega

/-- C12. For every pool whose load counters are `int64` values below the largest
one (as they are in every state of a run from `NewPool`, lemma `runPool_counters`,
also with workers executing tasks), a call of `AddTask` that returns nil, whichever
path chose the worker, has sent the descriptor to exactly one queue `task[n]` (the
other queues are untouched), has raised the load counter of that worker `n` by
exactly one, and has left every other load counter unchanged. -/
theorem C12_addTask_counts_one_worker (lp lp1 : ListPool) (opt : TaskOptions)
    (timerFirst : Bool) (evs : List Event)
    (hcount : ∀ c ∈ lp.heap.Count, inInt64 c ∧ inInt64 (c + 1))
    (hadd : AddTask lp opt timerFirst = Res.ok (lp1, evs, none)) :
    ∃ (n : Int) (qu : List TaskOptions), idx lp.task n = Res.ok qu ∧
      lp1.task = setIdx lp.task n (qu ++ [opt]) ∧
      lp1.heap.load n = lp.heap.load n + 1 ∧
      ∀ w : Int, w ≠ n → lp1.heap.load w = lp.heap.load w := by
  obtain ⟨n, qu, c, hq, hset, hc, hcnt⟩ := AddTask_effect lp lp1 opt timerFirst evs hadd
  have hr := idx_ok_range _ _ _ hc
  have hl := load_of_idx lp.heap n c hc
  have hmem : c ∈ lp.heap.Count := by
    rw [← hl]
    exact load_mem_count lp.heap n hr.1 hr.2
  have hw64 : wrap64 (c + 1) = c + 1 := wrap64_of_inInt64 _ (hcount c hmem).2
  have hload : ∀ w, lp1.heap.load w = (lp.heap.setCount n (c + 1)).load w := by
    intro w
    apply load_congr
    rw [hcnt, hw64]
    rfl
  refine ⟨n, qu, hq, hset, ?_, ?_⟩
  · rw [hload n, load_setCount lp.heap n n _ hr.1 hr.2, if_pos rfl, hl]
  · intro w hw
    rw [hload w, load_setCount lp.heap n w _ hr.1 hr.2, if_neg hw]

/-- C12 at the pool of `NewPool(1, 1)` and its first submission. -/
theorem C12_addTask_counts_one_worker_witness :
    (∀ c ∈ exNew.heap.Count, inInt64 c ∧ inInt64 (c + 1)) ∧
    NewPool 1 1 = Res.ok exNew ∧
    AddTask exNew exPlain false = Res.ok (exNewAdded, [], none) ∧
    ∃ (n : Int) (qu : List TaskOptions), idx exNew.task n = Res.ok qu ∧
      exNewAdded.task = setIdx exNew.task n (qu ++ [exPlain]) ∧
      exNewAdded.heap.load n = exNew.heap.load n + 1 ∧
      ∀ w : Int, w ≠ n → exNewAdded.heap.load w = exNew.heap.load w :=
  ⟨by decide, rfl, rfl,
    C12_addTask_counts_one_worker exNew exNewAdded exPlain false [] (by decide) rfl⟩

/-- C13. For `N ≥ 1` (and a queue length `q ≥ 1` with `q + 1` an `int64`),
`NewPool(N, q)` returns a pool whose heap has for `Keys` a permutation of
`0 .. N-1`; every sequence of `heap.Pop`, `Add` and `Done` on workers of the pool
returns; and after every sequence of these operations that returns, `Keys` is
still a permutation of `0 .. N-1`, every worker exactly once. -/
theorem C13_keys_permutation (N : Nat) (q : Int) (hN : 1 ≤ N) (hq : 1 ≤ q)
    (hsize : q + 1 < 2 ^ 63) :
    ∃ lp0, NewPool N q = Res.ok lp0 ∧ lp0.heap.Keys.Perm (workerIds N) ∧
      (∀ ops : List HeapOp, (∀ op ∈ ops, op.valid N) →
        ∃ h, runHeap ops lp0.heap = Res.ok h) ∧
      ∀ (ops : List HeapOp) (h : IntHeap), runHeap ops lp0.heap = Res.ok h →
        h.Keys.Perm (workerIds N) ∧ h.Keys.Nodup := by
  obtain ⟨lp0, hnew, _⟩ := NewPool_spec N q hN (by omega) hsize
  have hi := NewPool_heapInv N q lp0 (by omega) hsize hnew
  refine ⟨lp0, hnew, hi.2.2.1, fun ops hv => runHeap_total N hN ops lp0.heap hi hv,
    fun ops h hr => ?_⟩
  have hi1 := runHeap_inv N hN ops lp0.heap h hi hr
  exact ⟨hi1.2.2.1, hi1.2.2.1.nodup_iff.mpr (workerIds_nodup N)⟩

/-- C13 at `N = 1`, `q = 1`. -/
theorem C13_keys_permutation_witness :
    1 ≤ 1 ∧ (1 : Int) ≤ 1 ∧ (1 : Int) + 1 < 2 ^ 63 ∧
    ∃ lp0, NewPool ((1 : Nat) : Int) 1 = Res.ok lp0 ∧ lp0.heap.Keys.Perm (workerIds 1) ∧
      (∀ ops : List HeapOp, (∀ op ∈ ops, op.valid 1) →
        ∃ h, runHeap ops lp0.heap = Res.ok h) ∧
      ∀ (ops : List HeapOp) (h : IntHeap), runHeap ops lp0.heap = Res.ok h →
        h.Keys.Perm (workerIds 1) ∧ h.Keys.Nodup :=
  ⟨le_refl _, le_refl _, by decide,
    C13_keys_permutation 1 1 (le_refl _) (le_refl _) (by decide)⟩

end Litepool
